import Mathlib

/-!
# URF raster decoding (urftopdf / urftourf)

A shallow embedding of the raster decoder of `urftopdf.c` and `urftourf.c`.

Modelling conventions
* A file descriptor is the list of bytes still to be read (`List Nat`, one entry per byte).
* A C buffer is a byte memory `Mem := Nat → Nat` addressed from its base pointer, so that a
  write past the end of an allocation is visible in the model.
* `malloc` returns memory with arbitrary contents; that content is a parameter (`uninit`).
* The `int` parameters `width`, `height`, `bpp` are taken non-negative (`Nat`).
* `return 1` after a short `read` is `Outcome.eof`; loops whose number of iterations is
  bounded by the length of the stream carry a fuel argument, `none` meaning the fuel ran
  out (`decode_raster` supplies enough fuel, see `line_loop_fuel`).
* The header values handed from `main` to `decode_raster` are passed on as they are; values
  from 2^31 on, which are negative as C `int`, are outside the model.
* The constants of `unirast.h`, which is not among the sources, are parameters
  (`unirast_h`), and so is the byte order of the host where it shows.
* The `float` computations of `rgb2cmyk32` and `rgb2cmyk64` and of the page size in
  `add_pdf_page` are carried out in exact rational arithmetic; C `int` arithmetic that may
  overflow wraps around at 32 bits (`int32`).
-/

namespace Urf

/-- Byte memory addressed from a base pointer. -/
abbrev Mem := Nat → Nat

/-- The first `n` bytes of a memory, as a list. -/
def dump (m : Mem) (n : Nat) : List Nat := (List.range n).map m

/-- The libc call `memset(m + off, v, n)`. -/
def memset (m : Mem) (off v n : Nat) : Mem :=
  fun a => if off ≤ a ∧ a < off + n then v else m a

/-- The libc call `memcpy(dst + off, src, n)`. -/
def memcpy (dst : Mem) (off : Nat) (src : Mem) (n : Nat) : Mem :=
  fun a => if off ≤ a ∧ a < off + n then src (a - off) else dst a

/-- Value of a stream byte stored in an `int8_t`. -/
def int8 (b : Nat) : Int :=
  if b % 256 < 128 then ((b % 256 : Nat) : Int) else ((b % 256 : Nat) : Int) - 256

/-- Result of code that may `return 1` on a short read. -/
inductive Outcome (α : Type) where
  | ok (a : α) : Outcome α
  | eof : Outcome α

/-- The loop `for(j = 0 ; j < pixel_size ; ++j) line_container[pixel_size*pos + j] =
pixel_container[j];` after its first `j` iterations. -/
def put_pixel (pixel_size pos : Nat) (pixel_container : List Nat) : Nat → Mem → Mem
  | 0, line => line
  | j + 1, line =>
    Function.update (put_pixel pixel_size pos pixel_container j line)
      (pixel_size * pos + j) (pixel_container.getD j 0)

/-- The pixel-repeat loop `for(i = 0 ; i < n ; ++i) { put pixel; ++pos; if(pos >= width) break; }`
(urftopdf.c 237-245); the first argument is the number of iterations still allowed. -/
def repeat_loop (pixel_size width : Nat) (pixel_container : List Nat) :
    Nat → Mem → Nat → Mem × Nat
  | 0, line, pos => (line, pos)
  | k + 1, line, pos =>
    let line1 := put_pixel pixel_size pos pixel_container pixel_size line
    if pos + 1 ≥ width then (line1, pos + 1)
    else repeat_loop pixel_size width pixel_container k line1 (pos + 1)

/-- The literal loop `for(i = 0 ; i < n ; ++i) { read pixel or return 1; put pixel; ++pos;
if(pos >= width) break; }` (urftopdf.c 261-274). -/
def literal_loop (pixel_size width : Nat) :
    Nat → List Nat → Mem → Nat → Outcome (List Nat × Mem × Nat)
  | 0, fd, line, pos => .ok (fd, line, pos)
  | k + 1, fd, line, pos =>
    if fd.length < pixel_size then .eof
    else
      let line1 := put_pixel pixel_size pos (fd.take pixel_size) pixel_size line
      if pos + 1 ≥ width then .ok (fd.drop pixel_size, line1, pos + 1)
      else literal_loop pixel_size width k (fd.drop pixel_size) line1 (pos + 1)

/-- State after one pass through the body of the run loop. -/
structure run_state where
  fd : List Nat
  line : Mem
  pos : Nat
  brk : Bool

/-- One pass through the body of the inner `do { ... } while(pos < width)` loop of
`decode_raster` (urftopdf.c 205-284): read a packbit code and execute it. `brk` records
that the body was left by `break`. -/
def decode_run (pixel_size width : Nat) (fd : List Nat) (line : Mem) (pos : Nat) :
    Outcome run_state :=
  match fd with
  | [] => .eof
  | byte :: fd1 =>
    let packbit_code := int8 byte
    if packbit_code = -128 then
      .ok ⟨fd1, memset line (pos * pixel_size) 0xFF (pixel_size * (width - pos)), width, true⟩
    else if 0 ≤ packbit_code ∧ packbit_code ≤ 127 then
      let n := (packbit_code + 1).toNat
      if fd1.length < pixel_size then .eof
      else
        let r := repeat_loop pixel_size width (fd1.take pixel_size) n line pos
        .ok ⟨fd1.drop pixel_size, r.1, r.2, decide (r.2 ≥ width)⟩
    else if -128 < packbit_code ∧ packbit_code < 0 then
      let n := (-packbit_code + 1).toNat
      match literal_loop pixel_size width n fd1 line pos with
      | .eof => .eof
      | .ok (fd2, line1, pos1) => .ok ⟨fd2, line1, pos1, decide (pos1 ≥ width)⟩
    else .ok ⟨fd1, line, pos, false⟩

/-- The inner `do { ... } while(pos < width)` loop of `decode_raster`. -/
def run_loop (pixel_size width : Nat) :
    Nat → List Nat → Mem → Nat → Option (Outcome (List Nat × Mem × Nat))
  | 0, _, _, _ => none
  | fuel + 1, fd, line, pos =>
    match decode_run pixel_size width fd line pos with
    | .eof => some .eof
    | .ok s =>
      if s.brk then some (.ok (s.fd, s.line, s.pos))
      else if s.pos < width then run_loop pixel_size width fuel s.fd s.line s.pos
      else some (.ok (s.fd, s.line, s.pos))

/-- The constants of `unirast.h` that the two programs use; the header file is not among the
sources, so their values are parameters. -/
structure unirast_h where
  UNIRAST_COLOR_SPACE_SRGB_24BIT_1 : Nat
  UNIRAST_BPP_24BIT : Nat
  UNIRAST_COLOR_SPACE_CMYK_32BIT_64BIT : Nat
  UNIRAST_COLOR_SPACE_SRGB_32BIT : Nat
  UNIRAST_COLOR_SPACE_GRAYSCALE_32BIT : Nat

/-- The call `read(fd, &buf, n)` into a buffer of `n` bytes holding `buf`: the bytes obtained
overwrite the start of the buffer, the rest of the buffer keeps its content. The stream
afterwards is `fd.drop n`. -/
def read_buf (buf fd : List Nat) (n : Nat) : List Nat :=
  fd.take n ++ (buf.take n).drop fd.length

/-- The conversion `ntohl` applied to the four bytes at the start of `b`. -/
def ntohl (b : List Nat) : Nat :=
  (b.getD 0 0 % 256) * 2 ^ 24 + (b.getD 1 0 % 256) * 2 ^ 16 + (b.getD 2 0 % 256) * 2 ^ 8
    + b.getD 3 0 % 256

/-- The libc function `strncmp` on byte strings (bytes beyond the end of a list read as
NUL). -/
def strncmp : List Nat → List Nat → Nat → Int
  | _, _, 0 => 0
  | s1, s2, n + 1 =>
    if s1.headD 0 ≠ s2.headD 0 then (s1.headD 0 : Int) - (s2.headD 0 : Int)
    else if s1.headD 0 = 0 then 0
    else strncmp s1.tail s2.tail n

/-- The string literal `"UNIRAST"` with its terminating NUL. -/
def UNIRAST : List Nat := [85, 78, 73, 82, 65, 83, 84, 0]

/-- Lines 336-342 of urftopdf.c (355-361 of urftourf.c): copy the magic, zero its last byte
and compare with `"UNIRAST"`; `true` when `die("Bad File Header")` is not called. -/
def magic_ok (head_orig : List Nat) : Bool :=
  let unirast := (head_orig.take 8).set 7 0
  decide (strncmp unirast UNIRAST 7 = 0)

/-- Uninitialised storage seen by `main`: the stack buffers `head_orig` (12 bytes) and
`page_header_orig` (32 bytes) and the content of freshly allocated heap memory. -/
structure uninit_mem where
  head_orig : List Nat
  page_header_orig : List Nat
  heap : Mem

/-- Number of rows that the logged lines stand for: the sum of `repeat byte + 1`. -/
def rows_of (lines : List (Nat × List Nat)) : Nat :=
  (lines.map (fun l => l.1 % 256 + 1)).sum

namespace urftopdf

/-- The fields of `struct pdf_info` read or written by the decoder. `page_data` is the memory
starting at the `page_data` pointer (its first `line_bytes*height` bytes are the allocation),
`page_open` says that the pointer is not `NULL`; `images` are the finished pages handed to the
PDF library, as `(width, height, page_data)`; `page_width` and `page_height` are the size, in
points, of the current page object `info->page` as set by `HPDF_Page_SetWidth` and
`HPDF_Page_SetHeight`. -/
structure pdf_info where
  pagecount : Nat
  width : Nat
  height : Nat
  pixel_bytes : Nat
  line_bytes : Nat
  bpp : Nat
  page_open : Bool
  page_data : Mem
  images : List (Nat × Nat × Mem)
  page_width : ℚ
  page_height : ℚ

/-- The macro `DEFAULT_PDF_DPI` (urftopdf.c 34). -/
def DEFAULT_PDF_DPI : Nat := 72

/-- The function `pdf_set_line` (urftopdf.c 140-151). -/
def pdf_set_line (info : pdf_info) (line_n : Nat) (line : Mem) : pdf_info :=
  if line_n > info.height then info
  else
    { info with
      page_data := memcpy info.page_data ((line_n * info.line_bytes) % 2 ^ 32) line
        info.line_bytes }

/-- The loop `for(i = 0 ; i < line_repeat ; ++i) { pdf_set_line(pdf, cur_line, line_container);
++cur_line; }` (urftopdf.c 290-294); the first argument is the number of iterations left. -/
def write_lines (line : Mem) : Nat → Nat → pdf_info → pdf_info × Nat
  | 0, cur_line, pdf => (pdf, cur_line)
  | k + 1, cur_line, pdf => write_lines line k (cur_line + 1) (pdf_set_line pdf cur_line line)

/-- What `decode_raster` leaves behind: its return value, the unread input, the row counter,
the page, the line buffer, and (ghost) for every decoded line its repeat byte with the
assembled row. -/
structure raster_result where
  status : Nat
  fd : List Nat
  cur_line : Nat
  pdf : pdf_info
  line : Mem
  lines : List (Nat × List Nat)

/-- The outer `do { ... } while(cur_line < height)` loop of `decode_raster`
(urftopdf.c 189-296). -/
def line_loop (pixel_size width height : Nat) :
    Nat → List Nat → Mem → Nat → pdf_info → List (Nat × List Nat) → Option raster_result
  | 0, _, _, _, _, _ => none
  | fuel + 1, fd, line, cur_line, pdf, lines =>
    match fd with
    | [] => some ⟨1, [], cur_line, pdf, line, lines⟩
    | line_repeat_byte :: fd1 =>
      let line_repeat := line_repeat_byte % 256 + 1
      match run_loop pixel_size width (fd1.length + 1) fd1 line 0 with
      | none => none
      | some .eof => some ⟨1, [], cur_line, pdf, line, lines⟩
      | some (.ok (fd2, line1, _)) =>
        let w := write_lines line1 line_repeat cur_line pdf
        let lines1 := lines ++ [(line_repeat_byte, dump line1 (pixel_size * width))]
        if w.2 < height then line_loop pixel_size width height fuel fd2 line1 w.2 w.1 lines1
        else some ⟨0, fd2, w.2, w.1, line1, lines1⟩

/-- The function `decode_raster` of urftopdf.c (173-299); `uninit` is the content of the
freshly allocated line buffer. -/
def decode_raster (fd : List Nat) (width height bpp : Nat) (pdf : pdf_info) (uninit : Mem) :
    Option raster_result :=
  line_loop (bpp / 8) width height (fd.length + 1) fd uninit 0 pdf []

/-- The function `create_pdf_file` (urftopdf.c 76-87). -/
def create_pdf_file (info : pdf_info) (pagecount : Nat) : pdf_info :=
  { info with pagecount := pagecount }

/-- The function `add_pdf_page` (urftopdf.c 89-119): finish the previous page and allocate
the new one; `uninit` is the content of the memory returned by `malloc`. The page size
`((float)info->width/(float)dpi)*DEFAULT_PDF_DPI` (lines 115-116) is computed in exact rational
arithmetic; for `dpi = 0` the C value is infinite or not a number and the value here (0) means
nothing. What the PDF library does with a size it does not accept is not modelled. -/
def add_pdf_page (info : pdf_info) (_pagen width height bpp dpi : Nat) (uninit : Mem) :
    pdf_info :=
  let images1 :=
    if info.page_open then info.images ++ [(info.width, info.height, info.page_data)]
    else info.images
  { pagecount := info.pagecount
    width := width
    height := height
    pixel_bytes := bpp / 8
    line_bytes := (width * (bpp / 8)) % 2 ^ 32
    bpp := bpp
    page_open := true
    page_data := uninit
    images := images1
    page_width := ((width : ℚ) / (dpi : ℚ)) * (DEFAULT_PDF_DPI : ℚ)
    page_height := ((height : ℚ) / (dpi : ℚ)) * (DEFAULT_PDF_DPI : ℚ) }

/-- The function `close_pdf_file` (urftopdf.c 121-138). -/
def close_pdf_file (info : pdf_info) : pdf_info :=
  if info.page_open then
    { info with
      images := info.images ++ [(info.width, info.height, info.page_data)]
      page_open := false }
  else info

/-- The `struct pdf_info` after `memset(&pdf, 0, sizeof(pdf))`. -/
def pdf_zero : pdf_info := ⟨0, 0, 0, 0, 0, 0, false, fun _ => 0, [], 0, 0⟩

/-- How `main` ends: exit status, unread input, and the PDF state. -/
structure main_result where
  status : Nat
  fd : List Nat
  pdf : pdf_info

/-- The page loop `for(page = 0 ; page < head.page_count ; ++page)` of `main`
(urftopdf.c 348-387) followed by `close_pdf_file`; the first argument is the number of pages
still to do, `page_header_orig` the current content of that buffer. `none` only if the
decoder ran out of fuel. -/
def main_pages (U : unirast_h) (heap : Mem) :
    Nat → Nat → List Nat → List Nat → pdf_info → Option main_result
  | 0, _, fd, _, pdf => some ⟨0, fd, close_pdf_file pdf⟩
  | n + 1, page, fd, page_header_orig, pdf =>
    let hdr := read_buf page_header_orig fd 32
    let fd1 := fd.drop 32
    let bpp := hdr.getD 0 0
    let colorspace := hdr.getD 1 0
    let width := ntohl (hdr.drop 12)
    let height := ntohl (hdr.drop 16)
    let dot_per_inch := ntohl (hdr.drop 20)
    if colorspace ≠ U.UNIRAST_COLOR_SPACE_SRGB_24BIT_1 then some ⟨1, fd1, pdf⟩
    else if bpp ≠ U.UNIRAST_BPP_24BIT then some ⟨1, fd1, pdf⟩
    else
      let pdf1 := add_pdf_page pdf page width height bpp dot_per_inch heap
      match decode_raster fd1 width height bpp pdf1 heap with
      | none => none
      | some r =>
        if r.status ≠ 0 then some ⟨1, r.fd, r.pdf⟩
        else main_pages U heap n (page + 1) r.fd hdr r.pdf

/-- The function `main` of urftopdf.c from the read of the file header on (333-389); argument
handling, the temporary file and the copy of the finished PDF to stdout are not modelled. -/
def main (U : unirast_h) (input : List Nat) (mem : uninit_mem) : Option main_result :=
  let head_orig := read_buf mem.head_orig input 12
  let fd1 := input.drop 12
  let page_count := ntohl (head_orig.drop 8)
  if magic_ok head_orig then
    main_pages U mem.heap page_count 0 fd1 mem.page_header_orig
      (create_pdf_file pdf_zero page_count)
  else some ⟨1, fd1, pdf_zero⟩

end urftopdf

namespace urftourf

/-- The literal loop of urftourf.c (290-304): as in urftopdf.c, with
`convert_and_write_pixel` called on every pixel read. The first component is what the loop
writes to `fd_dest`; `cw pixel` stands for the bytes that
`convert_and_write_pixel(fd_dest, bpp, dest_bpp, dest_cspace, pixel)` writes. -/
def literal_loop (cw : List Nat → List Nat) (pixel_size width : Nat) :
    Nat → List Nat → Mem → Nat → List Nat × Outcome (List Nat × Mem × Nat)
  | 0, fd, line, pos => ([], .ok (fd, line, pos))
  | k + 1, fd, line, pos =>
    if fd.length < pixel_size then ([], .eof)
    else
      let out := cw (fd.take pixel_size)
      let line1 := put_pixel pixel_size pos (fd.take pixel_size) pixel_size line
      if pos + 1 ≥ width then (out, .ok (fd.drop pixel_size, line1, pos + 1))
      else
        let r := literal_loop cw pixel_size width k (fd.drop pixel_size) line1 (pos + 1)
        (out ++ r.1, r.2)

/-- One pass through the body of the inner loop of `decode_raster` in urftourf.c (231-314);
the first component is what the pass writes to `fd_dest`. -/
def decode_run (cw : List Nat → List Nat) (pixel_size width : Nat) (fd : List Nat)
    (line : Mem) (pos : Nat) : List Nat × Outcome run_state :=
  match fd with
  | [] => ([], .eof)
  | byte :: fd1 =>
    let packbit_code := int8 byte
    if packbit_code = -128 then
      ([byte],
        .ok ⟨fd1, memset line (pos * pixel_size) 0xFF (pixel_size * (width - pos)), width, true⟩)
    else if 0 ≤ packbit_code ∧ packbit_code ≤ 127 then
      let n := (packbit_code + 1).toNat
      if fd1.length < pixel_size then ([byte], .eof)
      else
        let r := repeat_loop pixel_size width (fd1.take pixel_size) n line pos
        (byte :: cw (fd1.take pixel_size),
          .ok ⟨fd1.drop pixel_size, r.1, r.2, decide (r.2 ≥ width)⟩)
    else if -128 < packbit_code ∧ packbit_code < 0 then
      let n := (-packbit_code + 1).toNat
      match literal_loop cw pixel_size width n fd1 line pos with
      | (out, .eof) => (byte :: out, .eof)
      | (out, .ok (fd2, line1, pos1)) =>
        (byte :: out, .ok ⟨fd2, line1, pos1, decide (pos1 ≥ width)⟩)
    else ([byte], .ok ⟨fd1, line, pos, false⟩)

/-- The inner `do { ... } while(pos < width)` loop of `decode_raster` in urftourf.c. -/
def run_loop (cw : List Nat → List Nat) (pixel_size width : Nat) :
    Nat → List Nat → Mem → Nat → Option (List Nat × Outcome (List Nat × Mem × Nat))
  | 0, _, _, _ => none
  | fuel + 1, fd, line, pos =>
    match decode_run cw pixel_size width fd line pos with
    | (out, .eof) => some (out, .eof)
    | (out, .ok s) =>
      if s.brk then some (out, .ok (s.fd, s.line, s.pos))
      else if s.pos < width then
        match run_loop cw pixel_size width fuel s.fd s.line s.pos with
        | none => none
        | some r => some (out ++ r.1, r.2)
      else some (out, .ok (s.fd, s.line, s.pos))

/-- The loop `for(i = 0 ; i < line_repeat ; ++i) { ++cur_line; }` (urftourf.c 320-323). -/
def count_lines : Nat → Nat → Nat
  | 0, cur_line => cur_line
  | k + 1, cur_line => count_lines k (cur_line + 1)

/-- What `decode_raster` of urftourf.c leaves behind: return value, unread input, row
counter, line buffer, (ghost) repeat byte and row of every decoded line, and the bytes written
to `fd_dest`. -/
structure raster_result where
  status : Nat
  fd : List Nat
  cur_line : Nat
  line : Mem
  lines : List (Nat × List Nat)
  out : List Nat

/-- The outer `do { ... } while(cur_line < height)` loop of `decode_raster` in urftourf.c
(214-325); `out` is what has been written to `fd_dest` so far. -/
def line_loop (cw : List Nat → List Nat) (pixel_size width height : Nat) :
    Nat → List Nat → Mem → Nat → List (Nat × List Nat) → List Nat → Option raster_result
  | 0, _, _, _, _, _ => none
  | fuel + 1, fd, line, cur_line, lines, out =>
    match fd with
    | [] => some ⟨1, [], cur_line, line, lines, out⟩
    | line_repeat_byte :: fd1 =>
      let line_repeat := line_repeat_byte % 256 + 1
      match run_loop cw pixel_size width (fd1.length + 1) fd1 line 0 with
      | none => none
      | some (o, .eof) => some ⟨1, [], cur_line, line, lines, out ++ line_repeat_byte :: o⟩
      | some (o, .ok (fd2, line1, _)) =>
        let cur_line1 := count_lines line_repeat cur_line
        let lines1 := lines ++ [(line_repeat_byte, dump line1 (pixel_size * width))]
        let out1 := out ++ line_repeat_byte :: o
        if cur_line1 < height then
          line_loop cw pixel_size width height fuel fd2 line1 cur_line1 lines1 out1
        else some ⟨0, fd2, cur_line1, line1, lines1, out1⟩

/-- The function `decode_raster` of urftourf.c (198-328). `cw bpp dest_bpp dest_cspace pixel`
stands for the bytes that `convert_and_write_pixel(fd_dest, bpp, dest_bpp, dest_cspace, pixel)`
writes, `uninit` for the content of the freshly allocated line buffer; the field `out` of the
result is what the call appends to `fd_dest`. -/
def decode_raster (cw : Nat → Nat → Nat → List Nat → List Nat) (fd : List Nat)
    (width height bpp dest_bpp dest_cspace : Nat) (uninit : Mem) : Option raster_result :=
  line_loop (cw bpp dest_bpp dest_cspace) (bpp / 8) width height (fd.length + 1) fd uninit 0
    [] []

/-- How `main` of urftourf.c ends: exit status, unread input, bytes written to the
destination. -/
structure main_result where
  status : Nat
  fd : List Nat
  out : List Nat

/-- The page loop of `main` in urftourf.c (368-412); `dest_cspace` and `dest_bpp` are
`atoi(argv[1])` and `atoi(argv[2])`, stored into the `uint8_t` header fields. -/
def main_pages (U : unirast_h) (cw : Nat → Nat → Nat → List Nat → List Nat)
    (dest_cspace dest_bpp : Nat) (heap : Mem) :
    Nat → List Nat → List Nat → List Nat → Option main_result
  | 0, fd, _, out => some ⟨0, fd, out⟩
  | n + 1, fd, page_header_orig, out =>
    let hdr := read_buf page_header_orig fd 32
    let fd1 := fd.drop 32
    let bpp := hdr.getD 0 0
    let colorspace := hdr.getD 1 0
    let width := ntohl (hdr.drop 12)
    let height := ntohl (hdr.drop 16)
    if colorspace ≠ U.UNIRAST_COLOR_SPACE_SRGB_24BIT_1 then some ⟨1, fd1, out⟩
    else if bpp ≠ U.UNIRAST_BPP_24BIT then some ⟨1, fd1, out⟩
    else
      let page_header_dest := (dest_bpp % 256) :: (dest_cspace % 256) :: hdr.drop 2
      let out1 := out ++ page_header_dest
      match decode_raster cw fd1 width height bpp (dest_bpp % 256) (dest_cspace % 256) heap with
      | none => none
      | some r =>
        if r.status ≠ 0 then some ⟨1, r.fd, out1 ++ r.out⟩
        else main_pages U cw dest_cspace dest_bpp heap n r.fd hdr (out1 ++ r.out)

/-- The function `main` of urftourf.c from the read of the file header on (352-416). -/
def main (U : unirast_h) (cw : Nat → Nat → Nat → List Nat → List Nat)
    (dest_cspace dest_bpp : Nat) (input : List Nat) (mem : uninit_mem) :
    Option main_result :=
  let head_orig := read_buf mem.head_orig input 12
  let fd1 := input.drop 12
  let page_count := ntohl (head_orig.drop 8)
  if magic_ok head_orig then
    main_pages U cw dest_cspace dest_bpp mem.heap page_count fd1 mem.page_header_orig head_orig
  else some ⟨1, fd1, []⟩

end urftourf

namespace urftourf

/-- Conversion of a C `float` to an unsigned integer type of `bits` bits: truncation toward
zero. Floating point values are modelled by exact rationals. -/
def float_to_uint (q : ℚ) (bits : Nat) : Nat :=
  (Int.tdiv q.num q.den).toNat % 2 ^ bits

/-- The function `rgb2cmyk32` (urftourf.c 67-106), with the `float` computations carried out
in exact rational arithmetic; the result is the array `cmyk` of four `uint8_t`. -/
def rgb2cmyk32 (rgb : List Nat) : List Nat :=
  let r := rgb.getD 0 0
  let g := rgb.getD 1 0
  let b := rgb.getD 2 0
  if r = 0 ∧ g = 0 ∧ b = 0 then [0, 0, 0, 255]
  else
    let computedC : ℚ := 1 - (r : ℚ) / 255
    let computedM : ℚ := 1 - (g : ℚ) / 255
    let computedY : ℚ := 1 - (b : ℚ) / 255
    let minMY : ℚ := if computedM < computedY then computedM else computedY
    let minCMY : ℚ := if computedC < minMY then computedC else minMY
    [float_to_uint ((computedC - minCMY) / (1 - minCMY) * 255) 8,
      float_to_uint ((computedM - minCMY) / (1 - minCMY) * 255) 8,
      float_to_uint ((computedY - minCMY) / (1 - minCMY) * 255) 8,
      float_to_uint (minCMY * 255) 8]

/-- The function `rgb2cmyk64` (urftourf.c 108-147), with the `float` computations carried out
in exact rational arithmetic; the result is the array `cmyk` of four `uint16_t`. -/
def rgb2cmyk64 (rgb : List Nat) : List Nat :=
  let r := rgb.getD 0 0
  let g := rgb.getD 1 0
  let b := rgb.getD 2 0
  if r = 0 ∧ g = 0 ∧ b = 0 then [0, 0, 0, 65535]
  else
    let computedC : ℚ := 1 - (r : ℚ) / 255
    let computedM : ℚ := 1 - (g : ℚ) / 255
    let computedY : ℚ := 1 - (b : ℚ) / 255
    let minMY : ℚ := if computedM < computedY then computedM else computedY
    let minCMY : ℚ := if computedC < minMY then computedC else minMY
    [float_to_uint ((computedC - minCMY) / (1 - minCMY) * 65535) 16,
      float_to_uint ((computedM - minCMY) / (1 - minCMY) * 65535) 16,
      float_to_uint ((computedY - minCMY) / (1 - minCMY) * 65535) 16,
      float_to_uint (minCMY * 65535) 16]

/-- A value of C type `int`, with 32-bit wrap-around. -/
def int32 (x : Int) : Int := (x + 2 ^ 31) % 2 ^ 32 - 2 ^ 31

/-- The bytes in memory of `htonl(u)` for a 32-bit value `u`. -/
def htonl (u : Nat) : List Nat :=
  [u / 2 ^ 24 % 256, u / 2 ^ 16 % 256, u / 2 ^ 8 % 256, u % 256]

/-- The argument of `htonl` in the 32-bit grayscale branch (urftourf.c 176):
`((int)p0*16843009 + (int)p1*16843009 + (int)p2*16843009)/3` converted to `uint32_t`. -/
def gray32 (p0 p1 p2 : Nat) : Nat :=
  (Int.tdiv
    (int32 (int32 (int32 ((p0 : Int) * 16843009) + int32 ((p1 : Int) * 16843009))
      + int32 ((p2 : Int) * 16843009))) 3 % 2 ^ 32).toNat

/-- The bytes in memory of a `uint16_t` on the host. -/
def uint16_bytes (little_endian : Bool) (v : Nat) : List Nat :=
  if little_endian then [v % 256, v / 256 % 256] else [v / 256 % 256, v % 256]

/-- The function `convert_and_write_pixel` (urftourf.c 149-196): the bytes it writes to
`fd_dest`. `little_endian` is the byte order of the host, which shows in the 64-bit CMYK
branch; bytes of `pixel_container` beyond its end read as 0. -/
def convert_and_write_pixel (U : unirast_h) (little_endian : Bool)
    (_bpp dest_bpp dest_cspace : Nat) (pixel_container : List Nat) : List Nat :=
  let p0 := pixel_container.getD 0 0
  let p1 := pixel_container.getD 1 0
  let p2 := pixel_container.getD 2 0
  if dest_cspace ≠ U.UNIRAST_COLOR_SPACE_CMYK_32BIT_64BIT then
    if dest_bpp = 8 then [(p0 + p1 + p2) / 3 % 256]
    else if dest_bpp = 24 then [p0, p1, p2]
    else if dest_bpp = 32 then
      if dest_cspace = U.UNIRAST_COLOR_SPACE_SRGB_32BIT then [p0, p1, p2, 0]
      else if dest_cspace = U.UNIRAST_COLOR_SPACE_GRAYSCALE_32BIT then htonl (gray32 p0 p1 p2)
      else []
    else []
  else if dest_bpp = 32 then rgb2cmyk32 pixel_container
  else if dest_bpp = 64 then
    ((rgb2cmyk64 pixel_container).map (uint16_bytes little_endian)).flatten
  else []

/-- A run of an encoded line: its code byte and the pixels that the decoder reads for it
(none for a fill run, one for a repeat run, a sequence for a literal run). -/
inductive run_tok where
  | fill (code : Nat) : run_tok
  | rep (code : Nat) (px : List Nat) : run_tok
  | lit (code : Nat) (pxs : List (List Nat)) : run_tok

/-- The bytes of a run in the input. -/
def run_tok.src : run_tok → List Nat
  | .fill code => [code]
  | .rep code px => code :: px
  | .lit code pxs => code :: pxs.flatten

/-- Recoding of a run as the specification words it: the code byte copied unchanged, every
pixel replaced in place by the output of the pixel recoder `cw`. -/
def run_tok.dst (cw : List Nat → List Nat) : run_tok → List Nat
  | .fill code => [code]
  | .rep code px => code :: cw px
  | .lit code pxs => code :: (pxs.map cw).flatten

end urftourf

/-- The runs of the identity encoder of the specification: for each pixel in order, the run
code 0x00 (repeat once) followed by the bytes of the pixel. -/
def encode_runs_of_one (pixels : List (List Nat)) : List Nat :=
  (pixels.map (fun px => 0 :: px)).flatten

/-- The identity encoder of the specification for one row: the repeat byte 0x00 followed by
the runs of one. -/
def encode_row_of_ones (pixels : List (List Nat)) : List Nat :=
  0 :: encode_runs_of_one pixels

/-- The pixels of a row of `width` pixels of `pixel_size` bytes each. -/
def pixels_of (pixel_size width : Nat) (row : List Nat) : List (List Nat) :=
  (List.range width).map (fun i => (row.drop (pixel_size * i)).take pixel_size)

end Urf

namespace Urf

/-! ## Memory lemmas -/

theorem put_pixel_apply (pixel_size pos : Nat) (px : List Nat) (j : Nat) (line : Mem) (a : Nat) :
    put_pixel pixel_size pos px j line a =
      if pixel_size * pos ≤ a ∧ a < pixel_size * pos + j then px.getD (a - pixel_size * pos) 0
      else line a := by
  induction j with
  | zero =>
    have : ¬ (pixel_size * pos ≤ a ∧ a < pixel_size * pos + 0) := by omega
    simp only [put_pixel, this, if_false]
  | succ j ih =>
    simp only [put_pixel, Function.update_apply, ih]
    by_cases h : a = pixel_size * pos + j
    · subst h
      simp
    · simp only [h, if_false]
      by_cases h2 : pixel_size * pos ≤ a ∧ a < pixel_size * pos + j
      · have : pixel_size * pos ≤ a ∧ a < pixel_size * pos + (j + 1) := by omega
        simp [h2, this]
      · have : ¬ (pixel_size * pos ≤ a ∧ a < pixel_size * pos + (j + 1)) := by omega
        simp [h2, this]

/-- Effect of the pixel-repeat loop started inside the row. -/
theorem repeat_loop_spec (pixel_size width : Nat) (px : List Nat) (k : Nat) :
    ∀ (line : Mem) (pos : Nat), pos < width →
      (repeat_loop pixel_size width px k line pos).2 = pos + min k (width - pos) ∧
      (∀ i j, i < min k (width - pos) → j < pixel_size →
        (repeat_loop pixel_size width px k line pos).1 (pixel_size * (pos + i) + j)
          = px.getD j 0) ∧
      (∀ a, a < pixel_size * pos → (repeat_loop pixel_size width px k line pos).1 a = line a) ∧
      (∀ a, pixel_size * (pos + min k (width - pos)) ≤ a →
        (repeat_loop pixel_size width px k line pos).1 a = line a) := by
  induction k with
  | zero => intro line pos _; simp [repeat_loop]
  | succ k ih =>
    intro line pos hpos
    have hput : ∀ j, j < pixel_size →
        put_pixel pixel_size pos px pixel_size line (pixel_size * pos + j) = px.getD j 0 := by
      intro j hj
      rw [put_pixel_apply]
      have : pixel_size * pos ≤ pixel_size * pos + j ∧
          pixel_size * pos + j < pixel_size * pos + pixel_size := by omega
      simp [this]
    have hlow : ∀ a, a < pixel_size * pos →
        put_pixel pixel_size pos px pixel_size line a = line a := by
      intro a ha
      rw [put_pixel_apply]
      have : ¬ (pixel_size * pos ≤ a ∧ a < pixel_size * pos + pixel_size) := by omega
      simp [this]
    have hhigh : ∀ a, pixel_size * (pos + 1) ≤ a →
        put_pixel pixel_size pos px pixel_size line a = line a := by
      intro a ha
      rw [put_pixel_apply]
      have : ¬ (pixel_size * pos ≤ a ∧ a < pixel_size * pos + pixel_size) := by
        rw [Nat.mul_add, Nat.mul_one] at ha; omega
      simp [this]
    by_cases hlast : pos + 1 ≥ width
    · have hm : min (k + 1) (width - pos) = 1 := by omega
      have hrl : repeat_loop pixel_size width px (k + 1) line pos =
          (put_pixel pixel_size pos px pixel_size line, pos + 1) := by
        simp only [repeat_loop, hlast, if_true]
      rw [hrl, hm]
      refine ⟨rfl, ?_, hlow, hhigh⟩
      intro i j hi hj
      have : i = 0 := by omega
      subst this
      exact hput j hj
    · have hlt : pos + 1 < width := by omega
      obtain ⟨h1, h2, h3, h4⟩ := ih (put_pixel pixel_size pos px pixel_size line) (pos + 1) hlt
      have hm : min (k + 1) (width - pos) = 1 + min k (width - (pos + 1)) := by omega
      have hrl : repeat_loop pixel_size width px (k + 1) line pos =
          repeat_loop pixel_size width px k (put_pixel pixel_size pos px pixel_size line)
            (pos + 1) := by
        simp only [repeat_loop, hlast, if_false]
      rw [hrl, hm]
      refine ⟨by rw [h1]; omega, ?_, ?_, ?_⟩
      · intro i j hi hj
        rcases Nat.eq_zero_or_pos i with h0 | hpos0
        · subst h0
          rw [h3 _ (by rw [Nat.mul_add, Nat.mul_add, Nat.mul_one]; omega)]
          exact hput j hj
        · have := h2 (i - 1) j (by omega) hj
          rw [show pos + 1 + (i - 1) = pos + i by omega] at this
          exact this
      · intro a ha
        rw [h3 a (by rw [Nat.mul_add]; omega)]
        exact hlow a ha
      · intro a ha
        rw [show pos + (1 + min k (width - (pos + 1))) = pos + 1 + min k (width - (pos + 1)) by
          omega] at ha
        rw [h4 a ha]
        apply hhigh
        exact le_trans (Nat.mul_le_mul_left _ (by omega)) ha

theorem put_pixel_same (pixel_size pos : Nat) (px : List Nat) (line : Mem) (j : Nat)
    (hj : j < pixel_size) :
    put_pixel pixel_size pos px pixel_size line (pixel_size * pos + j) = px.getD j 0 := by
  rw [put_pixel_apply]
  have : pixel_size * pos ≤ pixel_size * pos + j ∧
      pixel_size * pos + j < pixel_size * pos + pixel_size := by omega
  simp only [this, and_self, if_true, Nat.add_sub_cancel_left]

theorem put_pixel_below (pixel_size pos : Nat) (px : List Nat) (line : Mem) (a : Nat)
    (ha : a < pixel_size * pos) :
    put_pixel pixel_size pos px pixel_size line a = line a := by
  rw [put_pixel_apply]
  have : ¬ (pixel_size * pos ≤ a ∧ a < pixel_size * pos + pixel_size) := by omega
  simp only [this, if_false]

theorem put_pixel_above (pixel_size pos : Nat) (px : List Nat) (line : Mem) (a : Nat)
    (ha : pixel_size * (pos + 1) ≤ a) :
    put_pixel pixel_size pos px pixel_size line a = line a := by
  rw [put_pixel_apply]
  have : ¬ (pixel_size * pos ≤ a ∧ a < pixel_size * pos + pixel_size) := by
    rw [Nat.mul_add, Nat.mul_one] at ha; omega
  simp only [this, if_false]

/-- Effect of the literal loop started inside the row, when the stream holds the
`min k (width - pos)` pixels it needs. -/
theorem literal_loop_spec (pixel_size width : Nat) (k : Nat) :
    ∀ (pxs rest : List Nat) (line : Mem) (pos : Nat), pos < width →
      pxs.length = pixel_size * min k (width - pos) →
      ∃ line1, literal_loop pixel_size width k (pxs ++ rest) line pos
          = .ok (rest, line1, pos + min k (width - pos)) ∧
        (∀ i j, i < min k (width - pos) → j < pixel_size →
          line1 (pixel_size * (pos + i) + j) = pxs.getD (pixel_size * i + j) 0) ∧
        (∀ a, a < pixel_size * pos → line1 a = line a) ∧
        (∀ a, pixel_size * (pos + min k (width - pos)) ≤ a → line1 a = line a) := by
  induction k with
  | zero =>
    intro pxs rest line pos _ hlen
    have : pxs = [] := by
      apply List.eq_nil_of_length_eq_zero
      rw [hlen]; simp
    subst this
    exact ⟨line, by simp [literal_loop], by simp, fun _ _ => rfl, fun _ _ => rfl⟩
  | succ k ih =>
    intro pxs rest line pos hpos hlen
    have hm1 : 1 ≤ min (k + 1) (width - pos) := by omega
    have hge : pixel_size ≤ pxs.length := by
      rw [hlen]
      exact Nat.le_mul_of_pos_right _ hm1
    have hnot : ¬ (pxs ++ rest).length < pixel_size := by
      rw [List.length_append]; omega
    have htake : (pxs ++ rest).take pixel_size = pxs.take pixel_size :=
      List.take_append_of_le_length hge
    have hdrop : (pxs ++ rest).drop pixel_size = pxs.drop pixel_size ++ rest :=
      List.drop_append_of_le_length hge
    have hget : ∀ j, j < pixel_size → (pxs.take pixel_size).getD j 0 = pxs.getD j 0 := by
      intro j hj
      simp only [List.getD_eq_getElem?_getD, List.getElem?_take, hj, if_true]
    by_cases hlast : pos + 1 ≥ width
    · have hm : min (k + 1) (width - pos) = 1 := by omega
      have hnil : pxs.drop pixel_size = [] := by
        apply List.eq_nil_of_length_eq_zero
        rw [List.length_drop, hlen, hm]; simp
      refine ⟨put_pixel pixel_size pos (pxs.take pixel_size) pixel_size line, ?_, ?_, ?_, ?_⟩
      · simp only [literal_loop, hnot, if_false, hlast, if_true, htake, hdrop, hnil, hm,
          List.nil_append]
      · intro i j hi hj
        have : i = 0 := by omega
        subst this
        simp only [Nat.add_zero, Nat.mul_zero, Nat.zero_add]
        rw [put_pixel_same _ _ _ _ _ hj, hget j hj]
      · exact fun a ha => put_pixel_below _ _ _ _ a ha
      · intro a ha
        rw [hm] at ha
        exact put_pixel_above _ _ _ _ a ha
    · have hlt : pos + 1 < width := by omega
      have hm : min (k + 1) (width - pos) = 1 + min k (width - (pos + 1)) := by omega
      have hlen2 : (pxs.drop pixel_size).length = pixel_size * min k (width - (pos + 1)) := by
        rw [List.length_drop, hlen, hm, Nat.mul_add, Nat.mul_one]; omega
      obtain ⟨line1, h1, h2, h3, h4⟩ := ih (pxs.drop pixel_size) rest
        (put_pixel pixel_size pos (pxs.take pixel_size) pixel_size line) (pos + 1) hlt hlen2
      refine ⟨line1, ?_, ?_, ?_, ?_⟩
      · simp only [literal_loop, hnot, if_false, hlast, htake, hdrop, h1, hm]
        rw [show pos + 1 + min k (width - (pos + 1)) = pos + (1 + min k (width - (pos + 1)))
          by omega]
      · intro i j hi hj
        rcases Nat.eq_zero_or_pos i with h0 | hpos0
        · subst h0
          simp only [Nat.add_zero, Nat.mul_zero, Nat.zero_add]
          rw [h3 _ (by rw [Nat.mul_add, Nat.mul_one]; omega),
            put_pixel_same _ _ _ _ _ hj, hget j hj]
        · have := h2 (i - 1) j (by omega) hj
          rw [show pos + 1 + (i - 1) = pos + i by omega] at this
          rw [this]
          simp only [List.getD_eq_getElem?_getD, List.getElem?_drop]
          have e : pixel_size + (pixel_size * (i - 1) + j) = pixel_size * i + j := by
            obtain ⟨i1, rfl⟩ : ∃ i1, i = i1 + 1 := ⟨i - 1, by omega⟩
            simp only [Nat.add_sub_cancel, Nat.mul_add, Nat.mul_one]; omega
          rw [e]
      · intro a ha
        rw [h3 a (by rw [Nat.mul_add]; omega)]
        exact put_pixel_below _ _ _ _ a ha
      · intro a ha
        rw [hm, show pos + (1 + min k (width - (pos + 1))) = pos + 1 + min k (width - (pos + 1))
          by omega] at ha
        rw [h4 a ha]
        apply put_pixel_above
        exact le_trans (Nat.mul_le_mul_left _ (by omega)) ha

/-! ## Single runs -/

theorem take_append_pixel (px rest : List Nat) : (px ++ rest).take px.length = px := by
  simp

theorem drop_append_pixel (px rest : List Nat) : (px ++ rest).drop px.length = rest := by
  simp

/-- A repeat code followed by a full pixel runs the pixel-repeat loop on that pixel. -/
theorem decode_run_repeat (pixel_size width b : Nat) (px rest : List Nat) (line : Mem)
    (pos : Nat) (h0 : 0 ≤ int8 b) (hpx : px.length = pixel_size) :
    decode_run pixel_size width (b :: (px ++ rest)) line pos =
      .ok ⟨rest, (repeat_loop pixel_size width px (int8 b + 1).toNat line pos).1,
        (repeat_loop pixel_size width px (int8 b + 1).toNat line pos).2,
        decide ((repeat_loop pixel_size width px (int8 b + 1).toNat line pos).2 ≥ width)⟩ := by
  have h127 : int8 b ≤ 127 := by unfold int8; split <;> omega
  have hne : int8 b ≠ -128 := by omega
  have hlen : ¬ (px ++ rest).length < pixel_size := by
    rw [List.length_append]; omega
  subst hpx
  simp only [decode_run, hne, if_false, h0, h127, and_self, if_true, hlen,
    take_append_pixel, drop_append_pixel]

/-- A literal code runs the literal loop. -/
theorem decode_run_literal (pixel_size width b : Nat) (fd1 : List Nat) (line : Mem)
    (pos : Nat) (h0 : int8 b < 0) (h1 : -128 < int8 b) :
    decode_run pixel_size width (b :: fd1) line pos =
      match literal_loop pixel_size width (-int8 b + 1).toNat fd1 line pos with
      | .eof => .eof
      | .ok (fd2, line1, pos1) => .ok ⟨fd2, line1, pos1, decide (pos1 ≥ width)⟩ := by
  have hne : int8 b ≠ -128 := by omega
  have hn : ¬ (0 ≤ int8 b ∧ int8 b ≤ 127) := by omega
  simp only [decode_run, hne, if_false, hn, h0, h1, and_self, if_true]

/-- The code 0x80 blanks the rest of the row and leaves the loop. -/
theorem decode_run_fill (pixel_size width b : Nat) (fd1 : List Nat) (line : Mem)
    (pos : Nat) (h : int8 b = -128) :
    decode_run pixel_size width (b :: fd1) line pos =
      .ok ⟨fd1, memset line (pos * pixel_size) 0xFF (pixel_size * (width - pos)), width,
        true⟩ := by
  simp only [decode_run, h, if_true]

/-- A pass of the run loop that ends with `break` ends the loop. -/
theorem run_loop_of_brk (pixel_size width fuel : Nat) (fd : List Nat) (line : Mem) (pos : Nat)
    (s : run_state) (h : decode_run pixel_size width fd line pos = .ok s) (hb : s.brk = true) :
    run_loop pixel_size width (fuel + 1) fd line pos = some (.ok (s.fd, s.line, s.pos)) := by
  simp only [run_loop, h, hb, if_true]

/-- A pass of the run loop that stays inside the row is followed by another pass. -/
theorem run_loop_of_lt (pixel_size width fuel : Nat) (fd : List Nat) (line : Mem) (pos : Nat)
    (s : run_state) (h : decode_run pixel_size width fd line pos = .ok s)
    (hb : s.brk = false) (hlt : s.pos < width) :
    run_loop pixel_size width (fuel + 1) fd line pos =
      run_loop pixel_size width fuel s.fd s.line s.pos := by
  simp [run_loop, h, hb, hlt]

/-! ## The decoder reads its input front to back

If a loop succeeds on a stream, it has consumed a prefix `a` of it; it then succeeds in the
same way on `a` followed by anything else, and fails on every proper prefix of `a`. -/

theorem literal_loop_short (pixel_size width k : Nat) (t : List Nat) (line : Mem) (pos : Nat)
    (h : t.length < pixel_size) :
    literal_loop pixel_size width (k + 1) t line pos = .eof := by
  simp only [literal_loop, h, if_true]

theorem literal_loop_step (pixel_size width k : Nat) (px y : List Nat) (line : Mem) (pos : Nat)
    (h : px.length = pixel_size) :
    literal_loop pixel_size width (k + 1) (px ++ y) line pos =
      if pos + 1 ≥ width then .ok (y, put_pixel pixel_size pos px pixel_size line, pos + 1)
      else literal_loop pixel_size width k y (put_pixel pixel_size pos px pixel_size line)
        (pos + 1) := by
  have hlen : ¬ (px ++ y).length < pixel_size := by
    rw [List.length_append]; omega
  subst h
  simp only [literal_loop, hlen, if_false, take_append_pixel, drop_append_pixel]

/-- A proper prefix is shorter. -/
theorem length_lt_of_append (t u : List Nat) (hu : u ≠ []) : t.length < (t ++ u).length := by
  rw [List.length_append]
  have := List.length_pos.mpr hu
  omega

theorem literal_loop_consumes (pixel_size width : Nat) (k : Nat) :
    ∀ (fd : List Nat) (line : Mem) (pos : Nat) (fd2 : List Nat) (l : Mem) (p : Nat),
      literal_loop pixel_size width k fd line pos = .ok (fd2, l, p) →
      ∃ a, fd = a ++ fd2 ∧
        (∀ x, literal_loop pixel_size width k (a ++ x) line pos = .ok (x, l, p)) ∧
        (∀ t u, a = t ++ u → u ≠ [] → literal_loop pixel_size width k t line pos = .eof) := by
  induction k with
  | zero =>
    intro fd line pos fd2 l p h
    simp only [literal_loop, Outcome.ok.injEq, Prod.mk.injEq] at h
    obtain ⟨h1, h2, h3⟩ := h
    subst h1 h2 h3
    refine ⟨[], rfl, fun x => by simp [literal_loop], ?_⟩
    intro t u htu hu
    have : u = [] := (List.append_eq_nil.mp htu.symm).2
    exact absurd this hu
  | succ k ih =>
    intro fd line pos fd2 l p h
    by_cases hshort : fd.length < pixel_size
    · rw [literal_loop_short _ _ _ _ _ _ hshort] at h
      cases h
    · have hP : (fd.take pixel_size).length = pixel_size := by
        rw [List.length_take]; omega
      have hfd : fd = fd.take pixel_size ++ fd.drop pixel_size := (List.take_append_drop _ _).symm
      rw [hfd, literal_loop_step _ _ _ _ _ _ _ hP] at h
      have htrunc : ∀ t c, fd.take pixel_size = t ++ c → c ≠ [] →
          literal_loop pixel_size width (k + 1) t line pos = .eof := by
        intro t c htc hc
        apply literal_loop_short
        have := length_lt_of_append t c hc
        rw [← htc, hP] at this
        exact this
      by_cases hlast : pos + 1 ≥ width
      · simp only [hlast, if_true, Outcome.ok.injEq, Prod.mk.injEq] at h
        obtain ⟨h1, h2, h3⟩ := h
        subst h1 h2 h3
        refine ⟨fd.take pixel_size, hfd, ?_, htrunc⟩
        intro x
        rw [literal_loop_step _ _ _ _ _ _ _ hP]
        simp only [hlast, if_true]
      · simp only [hlast, if_false] at h
        obtain ⟨a1, ha1, hfr, htr⟩ := ih _ _ _ _ _ _ h
        refine ⟨fd.take pixel_size ++ a1, ?_, ?_, ?_⟩
        · rw [List.append_assoc, ← ha1]; exact hfd
        · intro x
          rw [List.append_assoc, literal_loop_step _ _ _ _ _ _ _ hP]
          simp only [hlast, if_false]
          exact hfr x
        · intro t u htu hu
          rcases List.append_eq_append_iff.mp htu with ⟨a2, h1, h2⟩ | ⟨c, h1, h2⟩
          · rw [h1, literal_loop_step _ _ _ _ _ _ _ hP]
            simp only [hlast, if_false]
            exact htr a2 u h2 hu
          · by_cases hc : c = []
            · subst hc
              rw [List.append_nil] at h1
              rw [List.nil_append] at h2
              rw [← h1, ← List.append_nil (fd.take pixel_size),
                literal_loop_step _ _ _ _ _ _ _ hP]
              simp only [hlast, if_false]
              exact htr [] u (by rw [h2]; rfl) hu
            · exact htrunc t c h1 hc

theorem int8_range (b : Nat) : -128 ≤ int8 b ∧ int8 b ≤ 127 := by
  unfold int8; split <;> omega

theorem decode_run_nil (pixel_size width : Nat) (line : Mem) (pos : Nat) :
    decode_run pixel_size width [] line pos = .eof := rfl

theorem decode_run_repeat_short (pixel_size width b : Nat) (fd1 : List Nat) (line : Mem)
    (pos : Nat) (h0 : 0 ≤ int8 b) (hshort : fd1.length < pixel_size) :
    decode_run pixel_size width (b :: fd1) line pos = .eof := by
  have h127 : int8 b ≤ 127 := (int8_range b).2
  have hne : int8 b ≠ -128 := by omega
  simp only [decode_run, hne, if_false, h0, h127, and_self, if_true, hshort]

theorem decode_run_consumes (pixel_size width : Nat) (fd : List Nat) (line : Mem) (pos : Nat)
    (s : run_state) (h : decode_run pixel_size width fd line pos = .ok s) :
    ∃ a, a ≠ [] ∧ fd = a ++ s.fd ∧
      (∀ x, decode_run pixel_size width (a ++ x) line pos = .ok ⟨x, s.line, s.pos, s.brk⟩) ∧
      (∀ t u, a = t ++ u → u ≠ [] → decode_run pixel_size width t line pos = .eof) := by
  cases fd with
  | nil => rw [decode_run_nil] at h; cases h
  | cons b fd1 =>
    by_cases hfill : int8 b = -128
    · rw [decode_run_fill _ _ _ _ _ _ hfill] at h
      simp only [Outcome.ok.injEq] at h
      subst h
      refine ⟨[b], by simp, rfl, fun x => decode_run_fill _ _ _ _ _ _ hfill, ?_⟩
      intro t u htu hu
      cases t with
      | nil => rfl
      | cons c t1 =>
        simp only [List.cons_append, List.cons.injEq] at htu
        exact absurd (List.append_eq_nil.mp htu.2.symm).2 hu
    · by_cases hrep : 0 ≤ int8 b
      · by_cases hshort : fd1.length < pixel_size
        · rw [decode_run_repeat_short _ _ _ _ _ _ hrep hshort] at h
          cases h
        · have hP : (fd1.take pixel_size).length = pixel_size := by
            rw [List.length_take]; omega
          have hfd : fd1 = fd1.take pixel_size ++ fd1.drop pixel_size :=
            (List.take_append_drop _ _).symm
          rw [hfd, decode_run_repeat _ _ _ _ _ _ _ hrep hP] at h
          simp only [Outcome.ok.injEq] at h
          subst h
          refine ⟨b :: fd1.take pixel_size, by simp, ?_, ?_, ?_⟩
          · simp only [List.cons_append, List.take_append_drop]
          · intro x
            exact decode_run_repeat _ _ _ _ _ _ _ hrep hP
          · intro t u htu hu
            cases t with
            | nil => rfl
            | cons c t1 =>
              simp only [List.cons_append, List.cons.injEq] at htu
              obtain ⟨hc, ht⟩ := htu
              subst hc
              apply decode_run_repeat_short _ _ _ _ _ _ hrep
              have := length_lt_of_append t1 u hu
              rw [← ht, hP] at this
              exact this
      · have hlt : int8 b < 0 := by omega
        have hgt : -128 < int8 b := by have := (int8_range b).1; omega
        rw [decode_run_literal _ _ _ _ _ _ hlt hgt] at h
        cases hl : literal_loop pixel_size width (-int8 b + 1).toNat fd1 line pos with
        | eof => rw [hl] at h; cases h
        | ok r =>
          obtain ⟨fd2, l1, p1⟩ := r
          rw [hl] at h
          simp only [Outcome.ok.injEq] at h
          subst h
          obtain ⟨a1, ha1, hfr, htr⟩ := literal_loop_consumes _ _ _ _ _ _ _ _ _ hl
          refine ⟨b :: a1, by simp, by simp only [List.cons_append, ha1], ?_, ?_⟩
          · intro x
            rw [List.cons_append, decode_run_literal _ _ _ _ _ _ hlt hgt, hfr x]
          · intro t u htu hu
            cases t with
            | nil => rfl
            | cons c t1 =>
              simp only [List.cons_append, List.cons.injEq] at htu
              obtain ⟨hc, ht⟩ := htu
              subst hc
              rw [decode_run_literal _ _ _ _ _ _ hlt hgt, htr t1 u ht hu]

/-- A successful pass of the run loop consumes at least the code byte. -/
theorem decode_run_length (pixel_size width : Nat) (fd : List Nat) (line : Mem) (pos : Nat)
    (s : run_state) (h : decode_run pixel_size width fd line pos = .ok s) :
    s.fd.length < fd.length := by
  obtain ⟨a, ha, hfd, _, _⟩ := decode_run_consumes _ _ _ _ _ _ h
  rw [hfd, List.length_append]
  have := List.length_pos.mpr ha
  omega

/-! ## Fuel of the run loop -/

theorem run_loop_total (pixel_size width : Nat) (fuel : Nat) :
    ∀ (fd : List Nat) (line : Mem) (pos : Nat), fd.length < fuel →
      ∃ o, run_loop pixel_size width fuel fd line pos = some o := by
  induction fuel with
  | zero => intro fd line pos h; omega
  | succ fuel ih =>
    intro fd line pos h
    cases hd : decode_run pixel_size width fd line pos with
    | eof => exact ⟨.eof, by simp only [run_loop, hd]⟩
    | ok s =>
      by_cases hb : s.brk = true
      · exact ⟨_, run_loop_of_brk _ _ _ _ _ _ _ hd hb⟩
      · by_cases hlt : s.pos < width
        · have hlen := decode_run_length _ _ _ _ _ _ hd
          obtain ⟨o, ho⟩ := ih s.fd s.line s.pos (by omega)
          exact ⟨o, by rw [run_loop_of_lt _ _ _ _ _ _ _ hd (by simpa using hb) hlt, ho]⟩
        · exact ⟨.ok (s.fd, s.line, s.pos), by simp only [run_loop, hd, hb, hlt, if_false]; simp⟩

theorem run_loop_mono (pixel_size width : Nat) (fuel : Nat) :
    ∀ (fd : List Nat) (line : Mem) (pos : Nat) o,
      run_loop pixel_size width fuel fd line pos = some o →
      ∀ fuel1, fuel ≤ fuel1 → run_loop pixel_size width fuel1 fd line pos = some o := by
  induction fuel with
  | zero => intro fd line pos o h; simp [run_loop] at h
  | succ fuel ih =>
    intro fd line pos o h fuel1 hle
    obtain ⟨f1, rfl⟩ : ∃ f1, fuel1 = f1 + 1 := ⟨fuel1 - 1, by omega⟩
    cases hd : decode_run pixel_size width fd line pos with
    | eof =>
      simp only [run_loop, hd] at h ⊢
      exact h
    | ok s =>
      simp only [run_loop, hd] at h ⊢
      by_cases hb : s.brk = true
      · simp only [hb, if_true] at h ⊢
        exact h
      · simp only [hb] at h ⊢
        by_cases hlt : s.pos < width
        · simp only [hlt, if_true] at h ⊢
          exact ih _ _ _ _ h f1 (by omega)
        · simp only [hlt, if_false] at h ⊢
          exact h

/-- The result of the run loop does not depend on the fuel, once there is enough of it. -/
theorem run_loop_fuel (pixel_size width fuel : Nat) (fd : List Nat) (line : Mem) (pos : Nat) o
    (h : run_loop pixel_size width fuel fd line pos = some o) :
    run_loop pixel_size width (fd.length + 1) fd line pos = some o := by
  obtain ⟨o1, ho1⟩ := run_loop_total pixel_size width (fd.length + 1) fd line pos (by omega)
  have h1 := run_loop_mono _ _ _ _ _ _ _ h (max fuel (fd.length + 1)) (le_max_left _ _)
  have h2 := run_loop_mono _ _ _ _ _ _ _ ho1 (max fuel (fd.length + 1)) (le_max_right _ _)
  rw [h1] at h2
  rw [ho1, h2]

theorem run_loop_consumes (pixel_size width : Nat) (fuel : Nat) :
    ∀ (fd : List Nat) (line : Mem) (pos : Nat) (rest : List Nat) (l : Mem) (p : Nat),
      run_loop pixel_size width fuel fd line pos = some (.ok (rest, l, p)) →
      ∃ a, a ≠ [] ∧ fd = a ++ rest ∧
        (∀ x, run_loop pixel_size width fuel (a ++ x) line pos = some (.ok (x, l, p))) ∧
        (∀ t u, a = t ++ u → u ≠ [] →
          run_loop pixel_size width fuel t line pos = some .eof) := by
  induction fuel with
  | zero => intro fd line pos rest l p h; simp [run_loop] at h
  | succ fuel ih =>
    intro fd line pos rest l p h
    cases hd : decode_run pixel_size width fd line pos with
    | eof => simp [run_loop, hd] at h
    | ok s =>
      obtain ⟨a1, ha1, hfd1, hfr1, htr1⟩ := decode_run_consumes _ _ _ _ _ _ hd
      have htr : ∀ t u, a1 = t ++ u → u ≠ [] →
          run_loop pixel_size width (fuel + 1) t line pos = some .eof := by
        intro t u htu hu
        simp only [run_loop, htr1 t u htu hu]
      by_cases hstop : s.brk = true ∨ ¬ s.pos < width
      · have hres : run_loop pixel_size width (fuel + 1) fd line pos
            = some (.ok (s.fd, s.line, s.pos)) := by
          rcases hstop with hb | hlt
          · exact run_loop_of_brk _ _ _ _ _ _ _ hd hb
          · by_cases hb : s.brk = true
            · exact run_loop_of_brk _ _ _ _ _ _ _ hd hb
            · simp only [run_loop, hd, hb, hlt, if_false]; simp
        rw [hres] at h
        simp only [Option.some.injEq, Outcome.ok.injEq, Prod.mk.injEq] at h
        obtain ⟨h1, h2, h3⟩ := h
        subst h1 h2 h3
        refine ⟨a1, ha1, hfd1, ?_, htr⟩
        intro x
        rcases hstop with hb | hlt
        · exact run_loop_of_brk _ _ _ _ _ _ _ (hfr1 x) hb
        · by_cases hb : s.brk = true
          · exact run_loop_of_brk _ _ _ _ _ _ _ (hfr1 x) hb
          · simp only [run_loop, hfr1 x, hb, hlt, if_false]; simp
      · have hb : s.brk = false := by
          cases hbb : s.brk with
          | true => exact absurd (Or.inl hbb) hstop
          | false => rfl
        have hlt : s.pos < width := by
          by_contra hc
          exact hstop (Or.inr hc)
        rw [run_loop_of_lt _ _ _ _ _ _ _ hd hb hlt] at h
        obtain ⟨a2, _, hfd2, hfr2, htr2⟩ := ih _ _ _ _ _ _ h
        refine ⟨a1 ++ a2, by simp [ha1], ?_, ?_, ?_⟩
        · rw [List.append_assoc, ← hfd2]; exact hfd1
        · intro x
          rw [List.append_assoc, run_loop_of_lt _ _ _ _ _ _ _ (hfr1 (a2 ++ x)) hb hlt]
          exact hfr2 x
        · intro t u htu hu
          rcases List.append_eq_append_iff.mp htu with ⟨a3, h1, h2⟩ | ⟨c, h1, h2⟩
          · rw [h1, run_loop_of_lt _ _ _ _ _ _ _ (hfr1 a3) hb hlt]
            exact htr2 a3 u h2 hu
          · by_cases hc : c = []
            · subst hc
              rw [List.append_nil] at h1
              rw [List.nil_append] at h2
              have := hfr1 []
              rw [List.append_nil, h1] at this
              rw [run_loop_of_lt _ _ _ _ _ _ _ this hb hlt]
              exact htr2 [] u (by rw [h2]; rfl) hu
            · exact htr t c h1 hc

theorem run_loop_length (pixel_size width fuel : Nat) (fd : List Nat) (line : Mem) (pos : Nat)
    (rest : List Nat) (l : Mem) (p : Nat)
    (h : run_loop pixel_size width fuel fd line pos = some (.ok (rest, l, p))) :
    rest.length < fd.length := by
  obtain ⟨a, ha, hfd, _, _⟩ := run_loop_consumes _ _ _ _ _ _ _ _ _ h
  rw [hfd, List.length_append]
  have := List.length_pos.mpr ha
  omega

/-! ## A failure is cured by more input

Whatever the stream is, the loops succeed on a suitable longer stream: a failure is never due
to the bytes that are there. -/

theorem literal_loop_extend (pixel_size width : Nat) (k : Nat) :
    ∀ (fd : List Nat) (line : Mem) (pos : Nat),
      (literal_loop pixel_size width k fd line pos = .eof ∨ fd = []) →
      ∃ x l p, literal_loop pixel_size width k (fd ++ x) line pos = .ok ([], l, p) := by
  induction k with
  | zero =>
    intro fd line pos h
    rcases h with h | h
    · simp [literal_loop] at h
    · subst h
      exact ⟨[], line, pos, rfl⟩
  | succ k ih =>
    intro fd line pos h
    by_cases hshort : fd.length < pixel_size
    · have hP : (fd ++ List.replicate (pixel_size - fd.length) 0).length = pixel_size := by
        rw [List.length_append, List.length_replicate]; omega
      by_cases hlast : pos + 1 ≥ width
      · refine ⟨List.replicate (pixel_size - fd.length) 0,
          put_pixel pixel_size pos (fd ++ List.replicate (pixel_size - fd.length) 0) pixel_size
            line, pos + 1, ?_⟩
        have := literal_loop_step pixel_size width k _ [] line pos hP
        rw [List.append_nil] at this
        rw [this]
        simp only [hlast, if_true]
      · obtain ⟨x, l, p, hx⟩ := ih []
          (put_pixel pixel_size pos (fd ++ List.replicate (pixel_size - fd.length) 0) pixel_size
            line) (pos + 1) (Or.inr rfl)
        refine ⟨List.replicate (pixel_size - fd.length) 0 ++ x, l, p, ?_⟩
        rw [← List.append_assoc, literal_loop_step pixel_size width k _ x line pos hP]
        simp only [hlast, if_false]
        rw [List.nil_append] at hx
        exact hx
    · have hP : (fd.take pixel_size).length = pixel_size := by
        rw [List.length_take]; omega
      have hfd : fd = fd.take pixel_size ++ fd.drop pixel_size :=
        (List.take_append_drop _ _).symm
      by_cases hlast : pos + 1 ≥ width
      · rcases h with h | h
        · rw [hfd, literal_loop_step _ _ _ _ _ _ _ hP] at h
          simp only [hlast, if_true] at h
          cases h
        · subst h
          refine ⟨[], put_pixel pixel_size pos [] pixel_size line, pos + 1, ?_⟩
          have := literal_loop_step pixel_size width k ([] : List Nat) [] line pos
            (by simpa using hP)
          simp only [List.append_nil] at this ⊢
          rw [this]
          simp only [hlast, if_true]
      · have hrec : literal_loop pixel_size width k (fd.drop pixel_size)
            (put_pixel pixel_size pos (fd.take pixel_size) pixel_size line) (pos + 1) = .eof ∨
            fd.drop pixel_size = [] := by
          rcases h with h | h
          · rw [hfd, literal_loop_step _ _ _ _ _ _ _ hP] at h
            simp only [hlast, if_false] at h
            exact Or.inl h
          · subst h
            exact Or.inr (by simp)
        obtain ⟨x, l, p, hx⟩ := ih _ _ _ hrec
        refine ⟨x, l, p, ?_⟩
        rw [hfd, List.append_assoc, literal_loop_step _ _ _ _ _ _ _ hP]
        simp only [hlast, if_false]
        exact hx

theorem decode_run_extend (pixel_size width : Nat) (fd : List Nat) (line : Mem) (pos : Nat)
    (h : decode_run pixel_size width fd line pos = .eof) :
    ∃ x s, decode_run pixel_size width (fd ++ x) line pos = .ok s ∧ s.fd = [] := by
  cases fd with
  | nil => exact ⟨[0x80], _, decode_run_fill _ _ 0x80 [] line pos (by decide), rfl⟩
  | cons b fd1 =>
    by_cases hfill : int8 b = -128
    · rw [decode_run_fill _ _ _ _ _ _ hfill] at h
      cases h
    · by_cases hrep : 0 ≤ int8 b
      · by_cases hshort : fd1.length < pixel_size
        · have hP : (fd1 ++ List.replicate (pixel_size - fd1.length) 0).length = pixel_size := by
            rw [List.length_append, List.length_replicate]; omega
          have := decode_run_repeat pixel_size width b _ [] line pos hrep hP
          rw [List.append_nil] at this
          exact ⟨List.replicate (pixel_size - fd1.length) 0, _, this, rfl⟩
        · have hP : (fd1.take pixel_size).length = pixel_size := by
            rw [List.length_take]; omega
          have hfd : fd1 = fd1.take pixel_size ++ fd1.drop pixel_size :=
            (List.take_append_drop _ _).symm
          rw [hfd, decode_run_repeat _ _ _ _ _ _ _ hrep hP] at h
          cases h
      · have hlt : int8 b < 0 := by omega
        have hgt : -128 < int8 b := by have := (int8_range b).1; omega
        rw [decode_run_literal _ _ _ _ _ _ hlt hgt] at h
        cases hl : literal_loop pixel_size width (-int8 b + 1).toNat fd1 line pos with
        | ok r =>
          obtain ⟨fd2, l1, p1⟩ := r
          rw [hl] at h
          cases h
        | eof =>
          obtain ⟨x, l, p, hx⟩ := literal_loop_extend _ _ _ _ _ _ (Or.inl hl)
          refine ⟨x, ⟨[], l, p, decide (p ≥ width)⟩, ?_, rfl⟩
          rw [List.cons_append, decode_run_literal _ _ _ _ _ _ hlt hgt, hx]

theorem run_loop_extend_eof (pixel_size width : Nat) (fd : List Nat) (line : Mem) (pos : Nat)
    (h : decode_run pixel_size width fd line pos = .eof) :
    ∃ x rest l p, run_loop pixel_size width ((fd ++ x).length + 1) (fd ++ x) line pos
      = some (.ok (rest, l, p)) := by
  obtain ⟨x1, s, hs, hsfd⟩ := decode_run_extend _ _ _ _ _ h
  obtain ⟨a, _, hfd, hfr, _⟩ := decode_run_consumes _ _ _ _ _ _ hs
  rw [hsfd, List.append_nil] at hfd
  have hs2 := hfr [0x80]
  rw [← hfd] at hs2
  have hfill : run_loop pixel_size width 1 [0x80] s.line s.pos
      = some (.ok ([], memset s.line (s.pos * pixel_size) 0xFF (pixel_size * (width - s.pos)),
        width)) :=
    run_loop_of_brk _ _ 0 _ _ _ _ (decode_run_fill _ _ 0x80 [] s.line s.pos (by decide)) rfl
  have : ∃ rest l p, run_loop pixel_size width 2 (fd ++ x1 ++ [0x80]) line pos
      = some (.ok (rest, l, p)) := by
    by_cases hb : s.brk = true
    · exact ⟨_, _, _, run_loop_of_brk _ _ 1 _ _ _ _ hs2 hb⟩
    · have hb2 : s.brk = false := by simpa using hb
      by_cases hlt : s.pos < width
      · exact ⟨_, _, _, by rw [run_loop_of_lt _ _ 1 _ _ _ _ hs2 hb2 hlt]; exact hfill⟩
      · exact ⟨[0x80], s.line, s.pos, by simp only [run_loop, hs2, hb, hlt, if_false]; simp⟩
  obtain ⟨rest, l, p, hr⟩ := this
  refine ⟨x1 ++ [0x80], rest, l, p, ?_⟩
  rw [← List.append_assoc]
  exact run_loop_fuel _ _ _ _ _ _ _ hr

theorem run_loop_extend (pixel_size width : Nat) (n : Nat) :
    ∀ (fd : List Nat) (line : Mem) (pos : Nat), fd.length ≤ n →
      ∃ x rest l p, run_loop pixel_size width ((fd ++ x).length + 1) (fd ++ x) line pos
        = some (.ok (rest, l, p)) := by
  induction n with
  | zero =>
    intro fd line pos hn
    have : fd = [] := List.eq_nil_of_length_eq_zero (by omega)
    subst this
    exact run_loop_extend_eof _ _ _ _ _ (decode_run_nil _ _ _ _)
  | succ n ih =>
    intro fd line pos hn
    cases hd : decode_run pixel_size width fd line pos with
    | eof => exact run_loop_extend_eof _ _ _ _ _ hd
    | ok s =>
      by_cases hb : s.brk = true
      · refine ⟨[], s.fd, s.line, s.pos, ?_⟩
        rw [List.append_nil]
        exact run_loop_of_brk _ _ _ _ _ _ _ hd hb
      · have hb2 : s.brk = false := by simpa using hb
        by_cases hlt : s.pos < width
        · have hlen := decode_run_length _ _ _ _ _ _ hd
          obtain ⟨x, rest, l, p, hx⟩ := ih s.fd s.line s.pos (by omega)
          obtain ⟨a, _, hfd, hfr, _⟩ := decode_run_consumes _ _ _ _ _ _ hd
          have hs2 := hfr (s.fd ++ x)
          rw [← List.append_assoc, ← hfd] at hs2
          refine ⟨x, rest, l, p, ?_⟩
          apply run_loop_fuel _ _ ((s.fd ++ x).length + 1 + 1)
          rw [run_loop_of_lt _ _ _ _ _ _ _ hs2 hb2 hlt]
          exact hx
        · refine ⟨[], s.fd, s.line, s.pos, ?_⟩
          rw [List.append_nil]
          simp only [run_loop, hd, hb, hlt, if_false]
          simp

/-! ## The line loop of urftopdf -/

namespace urftopdf

theorem write_lines_snd (line : Mem) (k : Nat) :
    ∀ (cur_line : Nat) (pdf : pdf_info), (write_lines line k cur_line pdf).2 = cur_line + k := by
  induction k with
  | zero => intro cur_line pdf; rfl
  | succ k ih =>
    intro cur_line pdf
    simp only [write_lines, ih]
    omega

theorem line_loop_nil (pixel_size width height fuel : Nat) (line : Mem) (cur_line : Nat)
    (pdf : pdf_info) (lines : List (Nat × List Nat)) :
    line_loop pixel_size width height (fuel + 1) [] line cur_line pdf lines
      = some ⟨1, [], cur_line, pdf, line, lines⟩ := rfl

theorem line_loop_eof (pixel_size width height fuel b : Nat) (fd1 : List Nat) (line : Mem)
    (cur_line : Nat) (pdf : pdf_info) (lines : List (Nat × List Nat))
    (h : run_loop pixel_size width (fd1.length + 1) fd1 line 0 = some .eof) :
    line_loop pixel_size width height (fuel + 1) (b :: fd1) line cur_line pdf lines
      = some ⟨1, [], cur_line, pdf, line, lines⟩ := by
  simp only [line_loop, h]

theorem line_loop_ok (pixel_size width height fuel b : Nat) (fd1 : List Nat) (line : Mem)
    (cur_line : Nat) (pdf : pdf_info) (lines : List (Nat × List Nat)) (fd2 : List Nat)
    (line1 : Mem) (p : Nat)
    (h : run_loop pixel_size width (fd1.length + 1) fd1 line 0 = some (.ok (fd2, line1, p))) :
    line_loop pixel_size width height (fuel + 1) (b :: fd1) line cur_line pdf lines =
      if cur_line + (b % 256 + 1) < height then
        line_loop pixel_size width height fuel fd2 line1 (cur_line + (b % 256 + 1))
          (write_lines line1 (b % 256 + 1) cur_line pdf).1
          (lines ++ [(b, dump line1 (pixel_size * width))])
      else
        some ⟨0, fd2, cur_line + (b % 256 + 1),
          (write_lines line1 (b % 256 + 1) cur_line pdf).1, line1,
          lines ++ [(b, dump line1 (pixel_size * width))]⟩ := by
  simp only [line_loop, h, write_lines_snd]

theorem line_loop_total (pixel_size width height : Nat) (fuel : Nat) :
    ∀ (fd : List Nat) (line : Mem) (cur_line : Nat) (pdf : pdf_info)
      (lines : List (Nat × List Nat)), fd.length < fuel →
      ∃ r, line_loop pixel_size width height fuel fd line cur_line pdf lines = some r := by
  induction fuel with
  | zero => intro fd line cur_line pdf lines h; omega
  | succ fuel ih =>
    intro fd line cur_line pdf lines h
    cases fd with
    | nil => exact ⟨_, line_loop_nil _ _ _ _ _ _ _ _⟩
    | cons b fd1 =>
      obtain ⟨o, ho⟩ := run_loop_total pixel_size width (fd1.length + 1) fd1 line 0 (by omega)
      cases o with
      | eof => exact ⟨_, line_loop_eof _ _ _ _ _ _ _ _ _ _ ho⟩
      | ok r =>
        obtain ⟨fd2, line1, p⟩ := r
        rw [line_loop_ok _ _ _ _ _ _ _ _ _ _ _ _ _ ho]
        have hlen := run_loop_length _ _ _ _ _ _ _ _ _ ho
        simp only [List.length_cons] at h
        by_cases hc : cur_line + (b % 256 + 1) < height
        · simp only [hc, if_true]
          exact ih _ _ _ _ _ (by omega)
        · simp only [hc, if_false]
          exact ⟨_, rfl⟩

theorem line_loop_mono (pixel_size width height : Nat) (fuel : Nat) :
    ∀ (fd : List Nat) (line : Mem) (cur_line : Nat) (pdf : pdf_info)
      (lines : List (Nat × List Nat)) r,
      line_loop pixel_size width height fuel fd line cur_line pdf lines = some r →
      ∀ fuel1, fuel ≤ fuel1 →
        line_loop pixel_size width height fuel1 fd line cur_line pdf lines = some r := by
  induction fuel with
  | zero => intro fd line cur_line pdf lines r h; simp [line_loop] at h
  | succ fuel ih =>
    intro fd line cur_line pdf lines r h fuel1 hle
    obtain ⟨f1, rfl⟩ : ∃ f1, fuel1 = f1 + 1 := ⟨fuel1 - 1, by omega⟩
    cases fd with
    | nil =>
      rw [line_loop_nil] at h ⊢
      exact h
    | cons b fd1 =>
      obtain ⟨o, ho⟩ := run_loop_total pixel_size width (fd1.length + 1) fd1 line 0 (by omega)
      cases o with
      | eof =>
        rw [line_loop_eof _ _ _ _ _ _ _ _ _ _ ho] at h ⊢
        exact h
      | ok q =>
        obtain ⟨fd2, line1, p⟩ := q
        rw [line_loop_ok _ _ _ _ _ _ _ _ _ _ _ _ _ ho] at h ⊢
        by_cases hc : cur_line + (b % 256 + 1) < height
        · simp only [hc, if_true] at h ⊢
          exact ih _ _ _ _ _ _ h f1 (by omega)
        · simp only [hc, if_false] at h ⊢
          exact h

/-- The result of the line loop does not depend on the fuel, once there is enough of it. -/
theorem line_loop_fuel (pixel_size width height fuel : Nat) (fd : List Nat) (line : Mem)
    (cur_line : Nat) (pdf : pdf_info) (lines : List (Nat × List Nat)) r
    (h : line_loop pixel_size width height fuel fd line cur_line pdf lines = some r) :
    line_loop pixel_size width height (fd.length + 1) fd line cur_line pdf lines = some r := by
  obtain ⟨r1, hr1⟩ :=
    line_loop_total pixel_size width height (fd.length + 1) fd line cur_line pdf lines (by omega)
  have h1 := line_loop_mono _ _ _ _ _ _ _ _ _ _ h (max fuel (fd.length + 1)) (le_max_left _ _)
  have h2 := line_loop_mono _ _ _ _ _ _ _ _ _ _ hr1 (max fuel (fd.length + 1))
    (le_max_right _ _)
  rw [h1] at h2
  rw [hr1, h2]

theorem rows_of_append (l1 l2 : List (Nat × List Nat)) :
    rows_of (l1 ++ l2) = rows_of l1 + rows_of l2 := by
  simp [rows_of]

theorem rows_of_single (e : Nat × List Nat) : rows_of [e] = e.1 % 256 + 1 := by
  simp [rows_of]

/-- Row accounting of the line loop. On success the logged lines end with a last line; the
row counter is the sum of `repeat byte + 1` over the new lines, it has reached `height`, and
before the last line it was below `height` (unless the last line is the first one). On failure
the row counter is below `height` or still where the loop started. -/
theorem line_loop_rows (pixel_size width height : Nat) (fuel : Nat) :
    ∀ (fd : List Nat) (line : Mem) (cur_line : Nat) (pdf : pdf_info)
      (lines : List (Nat × List Nat)) r,
      line_loop pixel_size width height fuel fd line cur_line pdf lines = some r →
      (r.status = 0 ∨ r.status = 1) ∧
      (r.status = 0 → ∃ init last, r.lines = lines ++ (init ++ [last]) ∧
        r.cur_line = cur_line + rows_of (init ++ [last]) ∧ height ≤ r.cur_line ∧
        (init ≠ [] → cur_line + rows_of init < height)) ∧
      (r.status = 1 → r.cur_line = cur_line ∨ r.cur_line < height) := by
  induction fuel with
  | zero => intro fd line cur_line pdf lines r h; simp [line_loop] at h
  | succ fuel ih =>
    intro fd line cur_line pdf lines r h
    cases fd with
    | nil =>
      rw [line_loop_nil] at h
      simp only [Option.some.injEq] at h
      subst h
      exact ⟨Or.inr rfl, fun h0 => by simp at h0, fun _ => Or.inl rfl⟩
    | cons b fd1 =>
      obtain ⟨o, ho⟩ := run_loop_total pixel_size width (fd1.length + 1) fd1 line 0 (by omega)
      cases o with
      | eof =>
        rw [line_loop_eof _ _ _ _ _ _ _ _ _ _ ho] at h
        simp only [Option.some.injEq] at h
        subst h
        exact ⟨Or.inr rfl, fun h0 => by simp at h0, fun _ => Or.inl rfl⟩
      | ok q =>
        obtain ⟨fd2, line1, p⟩ := q
        rw [line_loop_ok _ _ _ _ _ _ _ _ _ _ _ _ _ ho] at h
        by_cases hc : cur_line + (b % 256 + 1) < height
        · simp only [hc, if_true] at h
          obtain ⟨h1, h2, h3⟩ := ih _ _ _ _ _ _ h
          refine ⟨h1, ?_, ?_⟩
          · intro h0
            obtain ⟨init, last, hl, hcur, hh, hinit⟩ := h2 h0
            refine ⟨(b, dump line1 (pixel_size * width)) :: init, last, ?_, ?_, hh, ?_⟩
            · rw [hl]; simp
            · have key : rows_of ((b, dump line1 (pixel_size * width)) :: init ++ [last])
                  = (b % 256 + 1) + rows_of (init ++ [last]) := by
                simp [rows_of]
              rw [hcur, key]
              omega
            · intro _
              have key : rows_of ((b, dump line1 (pixel_size * width)) :: init)
                  = (b % 256 + 1) + rows_of init := by
                simp [rows_of]
              rw [key]
              by_cases hi : init = []
              · subst hi
                simp only [rows_of, List.map_nil, List.sum_nil]
                omega
              · have := hinit hi
                omega
          · intro h0
            rcases h3 h0 with hcur | hcur
            · right; omega
            · right; exact hcur
        · simp only [hc, if_false, Option.some.injEq] at h
          subst h
          refine ⟨Or.inl rfl, ?_, fun h0 => by simp at h0⟩
          intro _
          refine ⟨[], (b, dump line1 (pixel_size * width)), rfl, ?_, ?_, fun h => absurd rfl h⟩
          · simp only [List.nil_append, rows_of_single]
          · simp only [List.nil_append, rows_of_single] at *
            omega

/-- The line loop reads its input front to back: a successful run has consumed a prefix `a`
of the stream, succeeds in the same way on `a` followed by anything, and fails on every proper
prefix of `a`. -/
theorem line_loop_consumes (pixel_size width height : Nat) (fuel : Nat) :
    ∀ (fd : List Nat) (line : Mem) (cur_line : Nat) (pdf : pdf_info)
      (lines : List (Nat × List Nat)) r,
      line_loop pixel_size width height fuel fd line cur_line pdf lines = some r →
      r.status = 0 →
      ∃ a, fd = a ++ r.fd ∧
        (∀ x, line_loop pixel_size width height fuel (a ++ x) line cur_line pdf lines
          = some ⟨0, x, r.cur_line, r.pdf, r.line, r.lines⟩) ∧
        (∀ t u, a = t ++ u → u ≠ [] →
          ∃ r1, line_loop pixel_size width height fuel t line cur_line pdf lines = some r1 ∧
            r1.status = 1) := by
  induction fuel with
  | zero => intro fd line cur_line pdf lines r h; simp [line_loop] at h
  | succ fuel ih =>
    intro fd line cur_line pdf lines r h h0
    cases fd with
    | nil =>
      rw [line_loop_nil] at h
      simp only [Option.some.injEq] at h
      subst h
      simp at h0
    | cons b fd1 =>
      obtain ⟨o, ho⟩ := run_loop_total pixel_size width (fd1.length + 1) fd1 line 0 (by omega)
      cases o with
      | eof =>
        rw [line_loop_eof _ _ _ _ _ _ _ _ _ _ ho] at h
        simp only [Option.some.injEq] at h
        subst h
        simp at h0
      | ok q =>
        obtain ⟨fd2, line1, p⟩ := q
        obtain ⟨a1, ha1, hfd1, hfr1, htr1⟩ := run_loop_consumes _ _ _ _ _ _ _ _ _ ho
        have hfr : ∀ y, run_loop pixel_size width ((a1 ++ y).length + 1) (a1 ++ y) line 0
            = some (.ok (y, line1, p)) := fun y => run_loop_fuel _ _ _ _ _ _ _ (hfr1 y)
        have htr : ∀ t1 c, a1 = t1 ++ c → c ≠ [] → ∀ f,
            ∃ r1, line_loop pixel_size width height (f + 1) (b :: t1) line cur_line pdf lines
              = some r1 ∧ r1.status = 1 := by
          intro t1 c htc hc f
          have := run_loop_fuel _ _ _ _ _ _ _ (htr1 t1 c htc hc)
          exact ⟨_, line_loop_eof _ _ _ _ _ _ _ _ _ _ this, rfl⟩
        rw [line_loop_ok _ _ _ _ _ _ _ _ _ _ _ _ _ ho] at h
        by_cases hc : cur_line + (b % 256 + 1) < height
        · simp only [hc, if_true] at h
          obtain ⟨a2, hfd2, hfr2, htr2⟩ := ih _ _ _ _ _ _ h h0
          refine ⟨b :: (a1 ++ a2), ?_, ?_, ?_⟩
          · rw [List.cons_append, List.append_assoc, ← hfd2, ← hfd1]
          · intro x
            rw [List.cons_append, List.append_assoc,
              line_loop_ok _ _ _ _ _ _ _ _ _ _ _ _ _ (hfr (a2 ++ x))]
            simp only [hc, if_true]
            exact hfr2 x
          · intro t u htu hu
            cases t with
            | nil => exact ⟨_, line_loop_nil _ _ _ _ _ _ _ _, rfl⟩
            | cons c t1 =>
              simp only [List.cons_append, List.cons.injEq] at htu
              obtain ⟨hcb, ht⟩ := htu
              subst hcb
              rcases List.append_eq_append_iff.mp ht with ⟨a3, h1, h2⟩ | ⟨c1, h1, h2⟩
              · rw [h1, line_loop_ok _ _ _ _ _ _ _ _ _ _ _ _ _ (hfr a3)]
                simp only [hc, if_true]
                exact htr2 a3 u h2 hu
              · by_cases hc1 : c1 = []
                · subst hc1
                  rw [List.append_nil] at h1
                  rw [List.nil_append] at h2
                  have := hfr []
                  rw [List.append_nil, h1] at this
                  rw [line_loop_ok _ _ _ _ _ _ _ _ _ _ _ _ _ this]
                  simp only [hc, if_true]
                  exact htr2 [] u (by rw [h2]; rfl) hu
                · exact htr t1 c1 h1 hc1 fuel
        · simp only [hc, if_false, Option.some.injEq] at h
          subst h
          refine ⟨b :: a1, by rw [List.cons_append, ← hfd1], ?_, ?_⟩
          · intro x
            rw [List.cons_append, line_loop_ok _ _ _ _ _ _ _ _ _ _ _ _ _ (hfr x)]
            simp only [hc, if_false]
          · intro t u htu hu
            cases t with
            | nil => exact ⟨_, line_loop_nil _ _ _ _ _ _ _ _, rfl⟩
            | cons c t1 =>
              simp only [List.cons_append, List.cons.injEq] at htu
              obtain ⟨hcb, ht⟩ := htu
              subst hcb
              exact htr t1 u ht hu fuel

/-! ### Writing the rows of a line -/

theorem pdf_set_line_height (info : pdf_info) (line_n : Nat) (line : Mem) :
    (pdf_set_line info line_n line).height = info.height := by
  unfold pdf_set_line; split <;> rfl

theorem pdf_set_line_line_bytes (info : pdf_info) (line_n : Nat) (line : Mem) :
    (pdf_set_line info line_n line).line_bytes = info.line_bytes := by
  unfold pdf_set_line; split <;> rfl

/-- Rows beyond `height` are dropped by the guard of `pdf_set_line`. -/
theorem pdf_set_line_beyond (info : pdf_info) (line_n : Nat) (line : Mem)
    (h : info.height < line_n) : pdf_set_line info line_n line = info := by
  simp only [pdf_set_line, gt_iff_lt, h, if_true]

/-- Without overflow of the byte offset, `pdf_set_line` leaves the bytes before its row
alone. -/
theorem pdf_set_line_below (info : pdf_info) (line_n : Nat) (line : Mem) (a : Nat)
    (hov : info.height * info.line_bytes < 2 ^ 32) (ha : a < line_n * info.line_bytes) :
    (pdf_set_line info line_n line).page_data a = info.page_data a := by
  unfold pdf_set_line
  split
  · rfl
  · rename_i hle
    have hle2 : line_n * info.line_bytes ≤ info.height * info.line_bytes :=
      Nat.mul_le_mul_right _ (by omega)
    have hm : (line_n * info.line_bytes) % 2 ^ 32 = line_n * info.line_bytes :=
      Nat.mod_eq_of_lt (by omega)
    have : ¬ (line_n * info.line_bytes ≤ a ∧ a < line_n * info.line_bytes + info.line_bytes)
      := by omega
    simp only [memcpy, hm, this, if_false]

/-- Without overflow of the byte offset, `pdf_set_line` on a row up to `height` copies the
line into that row. -/
theorem pdf_set_line_row (info : pdf_info) (line_n : Nat) (line : Mem) (j : Nat)
    (hov : info.height * info.line_bytes < 2 ^ 32) (hr : line_n ≤ info.height)
    (hj : j < info.line_bytes) :
    (pdf_set_line info line_n line).page_data (line_n * info.line_bytes + j) = line j := by
  have hle2 : line_n * info.line_bytes ≤ info.height * info.line_bytes :=
    Nat.mul_le_mul_right _ hr
  have hm : (line_n * info.line_bytes) % 2 ^ 32 = line_n * info.line_bytes :=
    Nat.mod_eq_of_lt (by omega)
  have hg : ¬ line_n > info.height := by omega
  have : line_n * info.line_bytes ≤ line_n * info.line_bytes + j ∧
      line_n * info.line_bytes + j < line_n * info.line_bytes + info.line_bytes := by omega
  simp only [pdf_set_line, hg, if_false, memcpy, hm, this, and_self, if_true,
    Nat.add_sub_cancel_left]

theorem write_lines_fields (line : Mem) (k : Nat) :
    ∀ (cur_line : Nat) (pdf : pdf_info),
      (write_lines line k cur_line pdf).1.height = pdf.height ∧
      (write_lines line k cur_line pdf).1.line_bytes = pdf.line_bytes := by
  induction k with
  | zero => intro cur_line pdf; exact ⟨rfl, rfl⟩
  | succ k ih =>
    intro cur_line pdf
    simp only [write_lines]
    obtain ⟨h1, h2⟩ := ih (cur_line + 1) (pdf_set_line pdf cur_line line)
    rw [h1, h2, pdf_set_line_height, pdf_set_line_line_bytes]
    exact ⟨rfl, rfl⟩

theorem write_lines_below (line : Mem) (k : Nat) :
    ∀ (cur_line : Nat) (pdf : pdf_info) (a : Nat), pdf.height * pdf.line_bytes < 2 ^ 32 →
      a < cur_line * pdf.line_bytes →
      (write_lines line k cur_line pdf).1.page_data a = pdf.page_data a := by
  induction k with
  | zero => intro cur_line pdf a _ _; rfl
  | succ k ih =>
    intro cur_line pdf a hov ha
    simp only [write_lines]
    rw [ih (cur_line + 1) (pdf_set_line pdf cur_line line) a
      (by rw [pdf_set_line_height, pdf_set_line_line_bytes]; exact hov)
      (by rw [pdf_set_line_line_bytes, Nat.add_mul]; omega)]
    exact pdf_set_line_below pdf cur_line line a hov ha

/-- The write loop is `pdf_set_line` applied to the same line at the row indices
`cur_line, cur_line + 1, ..., cur_line + k - 1`, in this order. -/
theorem write_lines_fold (line : Mem) (k : Nat) :
    ∀ (cur_line : Nat) (pdf : pdf_info),
      (write_lines line k cur_line pdf).1 =
        (List.range k).foldl (fun p i => pdf_set_line p (cur_line + i) line) pdf := by
  induction k with
  | zero => intro cur_line pdf; rfl
  | succ k ih =>
    intro cur_line pdf
    simp only [write_lines, ih, List.range_succ_eq_map, List.foldl_cons, List.foldl_map,
      Nat.add_zero]
    congr 1
    funext p i
    rw [Nat.add_assoc, Nat.add_comm 1 i]

/-- After the write loop every row of the line that lies inside the page holds the line. -/
theorem write_lines_rows (line : Mem) (k : Nat) :
    ∀ (cur_line : Nat) (pdf : pdf_info) (r j : Nat), pdf.height * pdf.line_bytes < 2 ^ 32 →
      cur_line ≤ r → r < cur_line + k → r < pdf.height → j < pdf.line_bytes →
      (write_lines line k cur_line pdf).1.page_data (r * pdf.line_bytes + j) = line j := by
  induction k with
  | zero => intro cur_line pdf r j _ h1 h2; omega
  | succ k ih =>
    intro cur_line pdf r j hov h1 h2 h3 hj
    simp only [write_lines]
    have hov1 : (pdf_set_line pdf cur_line line).height
        * (pdf_set_line pdf cur_line line).line_bytes < 2 ^ 32 := by
      rw [pdf_set_line_height, pdf_set_line_line_bytes]; exact hov
    rcases Nat.eq_or_lt_of_le h1 with heq | hlt
    · subst heq
      rw [write_lines_below line k (cur_line + 1) _ _ hov1
        (by rw [pdf_set_line_line_bytes, Nat.add_mul]; omega)]
      exact pdf_set_line_row pdf cur_line line j hov (by omega) hj
    · have := ih (cur_line + 1) (pdf_set_line pdf cur_line line) r j hov1 (by omega) (by omega)
        (by rw [pdf_set_line_height]; exact h3) (by rw [pdf_set_line_line_bytes]; exact hj)
      rw [pdf_set_line_line_bytes] at this
      exact this

/-- Without overflow of the byte offsets, the line loop started at row `cur_line` leaves the
page bytes of the rows before `cur_line` alone. -/
theorem line_loop_page_below (pixel_size width height : Nat) (fuel : Nat) :
    ∀ (fd : List Nat) (line : Mem) (cur_line : Nat) (pdf : pdf_info)
      (lines : List (Nat × List Nat)) res,
      line_loop pixel_size width height fuel fd line cur_line pdf lines = some res →
      pdf.height * pdf.line_bytes < 2 ^ 32 →
      res.pdf.height = pdf.height ∧ res.pdf.line_bytes = pdf.line_bytes ∧
      ∀ a, a < cur_line * pdf.line_bytes → res.pdf.page_data a = pdf.page_data a := by
  induction fuel with
  | zero => intro fd line cur_line pdf lines res h; simp [line_loop] at h
  | succ fuel ih =>
    intro fd line cur_line pdf lines res h hov
    cases fd with
    | nil =>
      rw [line_loop_nil] at h
      simp only [Option.some.injEq] at h
      subst h
      exact ⟨rfl, rfl, fun _ _ => rfl⟩
    | cons b fd1 =>
      obtain ⟨o, ho⟩ := run_loop_total pixel_size width (fd1.length + 1) fd1 line 0 (by omega)
      cases o with
      | eof =>
        rw [line_loop_eof _ _ _ _ _ _ _ _ _ _ ho] at h
        simp only [Option.some.injEq] at h
        subst h
        exact ⟨rfl, rfl, fun _ _ => rfl⟩
      | ok q =>
        obtain ⟨fd2, line1, p⟩ := q
        rw [line_loop_ok _ _ _ _ _ _ _ _ _ _ _ _ _ ho] at h
        obtain ⟨hf1, hf2⟩ := write_lines_fields line1 (b % 256 + 1) cur_line pdf
        have hb := write_lines_below line1 (b % 256 + 1) cur_line pdf
        by_cases hc : cur_line + (b % 256 + 1) < height
        · simp only [hc, if_true] at h
          obtain ⟨h1, h2, h3⟩ := ih _ _ _ _ _ _ h (by rw [hf1, hf2]; exact hov)
          refine ⟨by rw [h1, hf1], by rw [h2, hf2], ?_⟩
          intro a ha
          rw [h3 a (by rw [hf2, Nat.add_mul]; omega)]
          exact hb a hov ha
        · simp only [hc, if_false, Option.some.injEq] at h
          subst h
          exact ⟨hf1, hf2, fun a ha => hb a hov ha⟩

/-- One line of the extension argument: a stream that starts with a repeat byte can be
extended so that the line loop succeeds, if the same holds for what follows the line. -/
theorem line_loop_extend_step (pixel_size width height b : Nat) (fd1 : List Nat) (line : Mem)
    (cur_line : Nat) (pdf : pdf_info) (lines : List (Nat × List Nat))
    (hnext : cur_line + (b % 256 + 1) < height →
      ∀ (fd2 : List Nat) (line2 : Mem) (pdf2 : pdf_info) (lines2 : List (Nat × List Nat)),
        ∃ x r, line_loop pixel_size width height ((fd2 ++ x).length + 1) (fd2 ++ x) line2
          (cur_line + (b % 256 + 1)) pdf2 lines2 = some r ∧ r.status = 0) :
    ∃ x r, line_loop pixel_size width height (((b :: fd1) ++ x).length + 1) ((b :: fd1) ++ x)
      line cur_line pdf lines = some r ∧ r.status = 0 := by
  obtain ⟨x1, rest, l, p, hx1⟩ := run_loop_extend pixel_size width fd1.length fd1 line 0
    (Nat.le_refl _)
  by_cases hc : cur_line + (b % 256 + 1) < height
  · obtain ⟨x2, r, hr, hs⟩ := hnext hc rest l (write_lines l (b % 256 + 1) cur_line pdf).1
      (lines ++ [(b, dump l (pixel_size * width))])
    obtain ⟨a, _, hfd, hfr, _⟩ := run_loop_consumes _ _ _ _ _ _ _ _ _ hx1
    have hrun := run_loop_fuel _ _ _ _ _ _ _ (hfr (rest ++ x2))
    rw [← List.append_assoc, ← hfd] at hrun
    refine ⟨x1 ++ x2, r, ?_, hs⟩
    apply line_loop_fuel _ _ _ ((rest ++ x2).length + 1 + 1)
    rw [List.cons_append, ← List.append_assoc,
      line_loop_ok _ _ _ _ _ _ _ _ _ _ _ _ _ hrun]
    simp only [hc, if_true]
    exact hr
  · refine ⟨x1, ⟨0, rest, cur_line + (b % 256 + 1),
      (write_lines l (b % 256 + 1) cur_line pdf).1, l,
      lines ++ [(b, dump l (pixel_size * width))]⟩, ?_, rfl⟩
    apply line_loop_fuel _ _ _ 1
    rw [List.cons_append, line_loop_ok _ _ _ _ _ _ _ _ _ _ _ _ _ hx1]
    simp only [hc, if_false]

/-- Every stream can be extended to one on which the line loop succeeds. -/
theorem line_loop_extend (pixel_size width height : Nat) (m : Nat) :
    ∀ (cur_line : Nat), height - cur_line ≤ m →
      ∀ (fd : List Nat) (line : Mem) (pdf : pdf_info) (lines : List (Nat × List Nat)),
        ∃ x r, line_loop pixel_size width height ((fd ++ x).length + 1) (fd ++ x) line cur_line
          pdf lines = some r ∧ r.status = 0 := by
  induction m with
  | zero =>
    intro cur_line hm fd line pdf lines
    cases fd with
    | nil =>
      obtain ⟨x, r, hr, hs⟩ := line_loop_extend_step pixel_size width height 0 [] line cur_line
        pdf lines (fun h => by omega)
      exact ⟨[0] ++ x, r, hr, hs⟩
    | cons b fd1 =>
      exact line_loop_extend_step pixel_size width height b fd1 line cur_line pdf lines
        (fun h => by omega)
  | succ m ih =>
    intro cur_line hm fd line pdf lines
    cases fd with
    | nil =>
      obtain ⟨x, r, hr, hs⟩ := line_loop_extend_step pixel_size width height 0 [] line cur_line
        pdf lines (fun _ fd2 line2 pdf2 lines2 => ih _ (by omega) fd2 line2 pdf2 lines2)
      exact ⟨[0] ++ x, r, hr, hs⟩
    | cons b fd1 =>
      exact line_loop_extend_step pixel_size width height b fd1 line cur_line pdf lines
        (fun _ fd2 line2 pdf2 lines2 => ih _ (by omega) fd2 line2 pdf2 lines2)

/-- Every stream can be extended to one that `decode_raster` decodes successfully. -/
theorem decode_raster_curable (fd : List Nat) (width height bpp : Nat) (pdf : pdf_info)
    (uninit : Mem) :
    ∃ x r, decode_raster (fd ++ x) width height bpp pdf uninit = some r ∧ r.status = 0 :=
  line_loop_extend (bpp / 8) width height height 0 (by omega) fd uninit pdf []

/-- The decoder always returns: the fuel handed to the line loop is enough. -/
theorem decode_raster_total (fd : List Nat) (width height bpp : Nat) (pdf : pdf_info)
    (uninit : Mem) : ∃ r, decode_raster fd width height bpp pdf uninit = some r :=
  line_loop_total _ _ _ _ _ _ _ _ _ (by omega)

/-- The decoder reads its input front to back, see `line_loop_consumes`. -/
theorem decode_raster_consumes (fd : List Nat) (width height bpp : Nat) (pdf : pdf_info)
    (uninit : Mem) (r : raster_result)
    (h : decode_raster fd width height bpp pdf uninit = some r) (h0 : r.status = 0) :
    ∃ a, fd = a ++ r.fd ∧
      (∀ x, decode_raster (a ++ x) width height bpp pdf uninit
        = some ⟨0, x, r.cur_line, r.pdf, r.line, r.lines⟩) ∧
      (∀ t u, a = t ++ u → u ≠ [] →
        ∃ r1, decode_raster t width height bpp pdf uninit = some r1 ∧ r1.status = 1) := by
  obtain ⟨a, hfd, hfr, htr⟩ := line_loop_consumes _ _ _ _ _ _ _ _ _ _ h h0
  refine ⟨a, hfd, ?_, ?_⟩
  · intro x
    exact line_loop_fuel _ _ _ _ _ _ _ _ _ _ (hfr x)
  · intro t u htu hu
    obtain ⟨r1, hr1, hs⟩ := htr t u htu hu
    exact ⟨r1, line_loop_fuel _ _ _ _ _ _ _ _ _ _ hr1, hs⟩

/-- A stream on which the decoder succeeds keeps succeeding when bytes are appended. -/
theorem decode_raster_extend (t u : List Nat) (width height bpp : Nat) (pdf : pdf_info)
    (uninit : Mem) (r : raster_result)
    (h : decode_raster t width height bpp pdf uninit = some r) (h0 : r.status = 0) :
    decode_raster (t ++ u) width height bpp pdf uninit
      = some ⟨0, r.fd ++ u, r.cur_line, r.pdf, r.line, r.lines⟩ := by
  obtain ⟨a, hfd, hfr, _⟩ := decode_raster_consumes _ _ _ _ _ _ _ h h0
  have := hfr (r.fd ++ u)
  rw [← List.append_assoc, ← hfd] at this
  exact this

end urftopdf

/-! ## The decoder of urftourf follows the decoder of urftopdf -/

namespace urftourf

theorem literal_loop_snd (cw : List Nat → List Nat) (pixel_size width : Nat) (k : Nat) :
    ∀ (fd : List Nat) (line : Mem) (pos : Nat),
      (literal_loop cw pixel_size width k fd line pos).2
        = Urf.literal_loop pixel_size width k fd line pos := by
  induction k with
  | zero => intro fd line pos; rfl
  | succ k ih =>
    intro fd line pos
    simp only [literal_loop, Urf.literal_loop]
    split
    · rfl
    · split
      · rfl
      · exact ih _ _ _

theorem decode_run_snd (cw : List Nat → List Nat) (pixel_size width : Nat) (fd : List Nat)
    (line : Mem) (pos : Nat) :
    (decode_run cw pixel_size width fd line pos).2 = Urf.decode_run pixel_size width fd line pos
    := by
  cases fd with
  | nil => rfl
  | cons b fd1 =>
    simp only [decode_run, Urf.decode_run]
    split
    · rfl
    · split
      · split
        · rfl
        · rfl
      · split
        · rw [← literal_loop_snd cw]
          cases hl : literal_loop cw pixel_size width (-int8 b + 1).toNat fd1 line pos with
          | mk out o =>
            cases o with
            | eof => rfl
            | ok q => rfl
        · rfl

theorem run_loop_snd (cw : List Nat → List Nat) (pixel_size width : Nat) (fuel : Nat) :
    ∀ (fd : List Nat) (line : Mem) (pos : Nat),
      (run_loop cw pixel_size width fuel fd line pos).map Prod.snd
        = Urf.run_loop pixel_size width fuel fd line pos := by
  induction fuel with
  | zero => intro fd line pos; rfl
  | succ fuel ih =>
    intro fd line pos
    have hd := decode_run_snd cw pixel_size width fd line pos
    cases hr : decode_run cw pixel_size width fd line pos with
    | mk out o =>
      rw [hr] at hd
      simp only at hd
      simp only [run_loop, Urf.run_loop, hr, ← hd]
      cases o with
      | eof => rfl
      | ok s =>
        simp only
        split
        · rfl
        · split
          · rw [← ih s.fd s.line s.pos]
            cases run_loop cw pixel_size width fuel s.fd s.line s.pos with
            | none => rfl
            | some r => rfl
          · rfl

theorem count_lines_eq (k : Nat) : ∀ cur_line, count_lines k cur_line = cur_line + k := by
  induction k with
  | zero => intro cur_line; rfl
  | succ k ih =>
    intro cur_line
    simp only [count_lines, ih]
    omega

/-- The line loops of the two programs agree on return value, unread input, row counter, line
buffer and decoded lines. -/
theorem line_loop_agrees (cw : List Nat → List Nat) (pixel_size width height : Nat)
    (fuel : Nat) :
    ∀ (fd : List Nat) (line : Mem) (cur_line : Nat) (pdf : urftopdf.pdf_info)
      (lines : List (Nat × List Nat)) (out : List Nat),
      (line_loop cw pixel_size width height fuel fd line cur_line lines out).map
          (fun r => (r.status, r.fd, r.cur_line, r.line, r.lines))
        = (urftopdf.line_loop pixel_size width height fuel fd line cur_line pdf lines).map
          (fun r => (r.status, r.fd, r.cur_line, r.line, r.lines)) := by
  induction fuel with
  | zero => intro fd line cur_line pdf lines out; rfl
  | succ fuel ih =>
    intro fd line cur_line pdf lines out
    cases fd with
    | nil => rfl
    | cons b fd1 =>
      have hs := run_loop_snd cw pixel_size width (fd1.length + 1) fd1 line 0
      cases hr : run_loop cw pixel_size width (fd1.length + 1) fd1 line 0 with
      | none =>
        rw [hr] at hs
        simp only [Option.map_none'] at hs
        simp only [line_loop, urftopdf.line_loop, hr, ← hs, Option.map_none']
      | some q =>
        obtain ⟨o, oc⟩ := q
        rw [hr] at hs
        simp only [Option.map_some'] at hs
        cases oc with
        | eof =>
          simp only [line_loop, urftopdf.line_loop, hr, ← hs, Option.map_some']
        | ok t =>
          obtain ⟨fd2, line1, p⟩ := t
          simp only [line_loop, urftopdf.line_loop, hr, ← hs, count_lines_eq,
            urftopdf.write_lines_snd]
          split
          · exact ih _ _ _ _ _ _
          · rfl

/-- The two `decode_raster` agree on return value, unread input, row counter, line buffer and
decoded lines. -/
theorem decode_raster_agrees (cw : Nat → Nat → Nat → List Nat → List Nat) (fd : List Nat)
    (width height bpp dest_bpp dest_cspace : Nat) (pdf : urftopdf.pdf_info) (uninit : Mem) :
    (decode_raster cw fd width height bpp dest_bpp dest_cspace uninit).map
        (fun r => (r.status, r.fd, r.cur_line, r.line, r.lines))
      = (urftopdf.decode_raster fd width height bpp pdf uninit).map
        (fun r => (r.status, r.fd, r.cur_line, r.line, r.lines)) :=
  line_loop_agrees _ _ _ _ _ _ _ _ _ _ _

end urftourf

/-! ## Claims on single runs -/

/-- C1. RepeatPixel: with `pos < width` (hence `width ≥ 1`) and a run code `c` in `0..127`, the
decoder consumes the code byte and one pixel of `pixel_size` bytes, writes that pixel into the
`min (c+1) (width-pos)` row positions from `pos` on, leaves every other byte of the row buffer
(in particular the positions before `pos`) unchanged and advances `pos` by
`min (c+1) (width-pos)`; code 0 writes one pixel and code 127 writes 128 pixels clipped to the
rest of the row. -/
theorem repeat_pixel_run (pixel_size width pos c : Nat) (px rest : List Nat) (line : Mem)
    (hpos : pos < width) (hc : c ≤ 127) (hpx : px.length = pixel_size) :
    ∃ s, decode_run pixel_size width (c :: (px ++ rest)) line pos = .ok s ∧
      s.fd = rest ∧
      s.pos = pos + min (c + 1) (width - pos) ∧
      (∀ i j, i < min (c + 1) (width - pos) → j < pixel_size →
        s.line (pixel_size * (pos + i) + j) = px.getD j 0) ∧
      (∀ a, a < pixel_size * pos → s.line a = line a) ∧
      (∀ a, pixel_size * (pos + min (c + 1) (width - pos)) ≤ a → s.line a = line a) ∧
      (c = 0 → s.pos = pos + 1) ∧
      (c = 127 → s.pos = pos + min 128 (width - pos)) := by
  have hi : int8 c = (c : Int) := by unfold int8; split <;> omega
  have h0 : 0 ≤ int8 c := by omega
  have hn : (int8 c + 1).toNat = c + 1 := by rw [hi]; omega
  obtain ⟨h1, h2, h3, h4⟩ := repeat_loop_spec pixel_size width px (c + 1) line pos hpos
  refine ⟨_, decode_run_repeat pixel_size width c px rest line pos h0 hpx, rfl, ?_, ?_, ?_, ?_,
    ?_, ?_⟩
  · simp only [hn]; exact h1
  · simp only [hn]; exact h2
  · simp only [hn]; exact h3
  · simp only [hn]; exact h4
  · intro hc0; simp only [hn]; rw [h1]; omega
  · intro hc0; simp only [hn]; rw [h1]; omega

/-- C1 at the example of the specification: in a row of width 2, run code 1 followed by the
pixel (10,20,30) fills both positions; and the page of width 2 and height 1 with the bytes
00 01 0A 14 1E decodes to the single row (10,20,30),(10,20,30). -/
theorem repeat_pixel_run_witness :
    (0 < 2 ∧ 1 ≤ 127 ∧ [10, 20, 30].length = 3) ∧
    (∃ s, decode_run 3 2 (1 :: ([10, 20, 30] ++ [])) (fun _ => 0) 0 = .ok s ∧
      s.fd = [] ∧
      s.pos = 2 ∧
      (∀ i j, i < 2 → j < 3 → s.line (3 * (0 + i) + j) = [10, 20, 30].getD j 0) ∧
      (∀ a, a < 3 * 0 → s.line a = (fun _ => 0) a) ∧
      (∀ a, 3 * 2 ≤ a → s.line a = (fun _ => 0) a) ∧
      (1 = 0 → s.pos = 0 + 1) ∧
      (1 = 127 → s.pos = 0 + min 128 (2 - 0))) ∧
    (urftopdf.decode_raster [0, 1, 10, 20, 30] 2 1 24
        (urftopdf.add_pdf_page urftopdf.pdf_zero 0 2 1 24 72 (fun _ => 0)) (fun _ => 0)).map
      (fun r => (r.status, r.fd, r.cur_line, r.lines, dump r.pdf.page_data 6))
      = some (0, [], 1, [(0, [10, 20, 30, 10, 20, 30])], [10, 20, 30, 10, 20, 30]) :=
  ⟨⟨by decide, by decide, rfl⟩,
    repeat_pixel_run 3 2 0 1 [10, 20, 30] [] (fun _ => 0) (by decide) (by decide) rfl,
    rfl⟩

/-- Shared form of the literal-run facts: a literal code `b` with `n = -b + 1`, followed by the
`min n (width-pos)` pixels `pxs`. -/
theorem literal_run_spec (pixel_size width pos b : Nat) (pxs rest : List Nat) (line : Mem)
    (hpos : pos < width) (h0 : int8 b < 0) (h1 : -128 < int8 b)
    (hlen : pxs.length = pixel_size * min (-int8 b + 1).toNat (width - pos)) :
    ∃ s, decode_run pixel_size width (b :: (pxs ++ rest)) line pos = .ok s ∧
      s.fd = rest ∧
      s.pos = pos + min (-int8 b + 1).toNat (width - pos) ∧
      s.brk = decide (width - pos ≤ (-int8 b + 1).toNat) ∧
      (∀ i j, i < min (-int8 b + 1).toNat (width - pos) → j < pixel_size →
        s.line (pixel_size * (pos + i) + j) = pxs.getD (pixel_size * i + j) 0) ∧
      (∀ a, a < pixel_size * pos → s.line a = line a) ∧
      (∀ a, pixel_size * (pos + min (-int8 b + 1).toNat (width - pos)) ≤ a →
        s.line a = line a) := by
  obtain ⟨line1, hl, h2, h3, h4⟩ :=
    literal_loop_spec pixel_size width (-int8 b + 1).toNat pxs rest line pos hpos hlen
  refine ⟨⟨rest, line1, pos + min (-int8 b + 1).toNat (width - pos),
    decide (pos + min (-int8 b + 1).toNat (width - pos) ≥ width)⟩, ?_, rfl, rfl, ?_, h2, h3, h4⟩
  · rw [decode_run_literal pixel_size width b _ line pos h0 h1, hl]
  · simp only [ge_iff_le, decide_eq_decide]
    omega

/-- C2. LiteralRun: with `pos < width` and a run code `c` in `-127..-1` (stream byte `b`),
`n = -c + 1`, the decoder reads exactly `min n (width-pos)` pixels of `pixel_size` bytes after
the code byte and writes them in order at the row positions `pos, pos+1, ...`, leaving the
other bytes of the row buffer unchanged; the literal pixels beyond the clip are not consumed:
when the run reaches the end of the row the run loop ends with the stream standing right after
the last pixel written, so the byte that follows is read as the next line's repeat byte. The
pass of urftourf.c ends in the same state. -/
theorem literal_run (pixel_size width pos b : Nat) (c : Int) (pxs rest : List Nat) (line : Mem)
    (hpos : pos < width) (hb : int8 b = c) (hc1 : -127 ≤ c) (hc2 : c ≤ -1)
    (hlen : pxs.length = pixel_size * min (-c + 1).toNat (width - pos)) :
    ∃ s, decode_run pixel_size width (b :: (pxs ++ rest)) line pos = .ok s ∧
      s.fd = rest ∧
      s.pos = pos + min (-c + 1).toNat (width - pos) ∧
      (∀ i j, i < min (-c + 1).toNat (width - pos) → j < pixel_size →
        s.line (pixel_size * (pos + i) + j) = pxs.getD (pixel_size * i + j) 0) ∧
      (∀ a, a < pixel_size * pos → s.line a = line a) ∧
      (∀ a, pixel_size * (pos + min (-c + 1).toNat (width - pos)) ≤ a → s.line a = line a) ∧
      (width - pos ≤ (-c + 1).toNat → ∀ fuel,
        run_loop pixel_size width (fuel + 1) (b :: (pxs ++ rest)) line pos
          = some (.ok (rest, s.line, width))) ∧
      (∀ cw, (urftourf.decode_run cw pixel_size width (b :: (pxs ++ rest)) line pos).2
        = .ok s) := by
  subst hb
  obtain ⟨s, hs, hfd, hp, hbrk, h2, h3, h4⟩ :=
    literal_run_spec pixel_size width pos b pxs rest line hpos (by omega) (by omega) hlen
  refine ⟨s, hs, hfd, hp, h2, h3, h4, ?_, ?_⟩
  · intro hclip fuel
    have hbt : s.brk = true := by rw [hbrk]; exact decide_eq_true hclip
    rw [run_loop_of_brk pixel_size width fuel _ line pos s hs hbt, hfd, hp]
    have : pos + min (-int8 b + 1).toNat (width - pos) = width := by omega
    rw [this]
  · intro cw
    rw [urftourf.decode_run_snd, hs]

/-- C2 at a concrete run: in a row of width 3 at position 1, the code 0xFD (-3, four
literals) reads only the two pixels that fit. -/
theorem literal_run_witness :
    (1 < 3 ∧ int8 0xFD = -3 ∧ (-127 : Int) ≤ -3 ∧ (-3 : Int) ≤ -1 ∧
      [1, 2, 3, 4, 5, 6].length = 3 * min (-(-3 : Int) + 1).toNat (3 - 1)) ∧
    (∃ s, decode_run 3 3 (0xFD :: ([1, 2, 3, 4, 5, 6] ++ [7, 0x80])) (fun _ => 0) 1 = .ok s ∧
      s.fd = [7, 0x80] ∧
      s.pos = 1 + min (-(-3 : Int) + 1).toNat (3 - 1) ∧
      (∀ i j, i < min (-(-3 : Int) + 1).toNat (3 - 1) → j < 3 →
        s.line (3 * (1 + i) + j) = [1, 2, 3, 4, 5, 6].getD (3 * i + j) 0) ∧
      (∀ a, a < 3 * 1 → s.line a = (fun _ => 0) a) ∧
      (∀ a, 3 * (1 + min (-(-3 : Int) + 1).toNat (3 - 1)) ≤ a → s.line a = (fun _ => 0) a) ∧
      (3 - 1 ≤ (-(-3 : Int) + 1).toNat → ∀ fuel,
        run_loop 3 3 (fuel + 1) (0xFD :: ([1, 2, 3, 4, 5, 6] ++ [7, 0x80])) (fun _ => 0) 1
          = some (.ok ([7, 0x80], s.line, 3))) ∧
      (∀ cw, (urftourf.decode_run cw 3 3 (0xFD :: ([1, 2, 3, 4, 5, 6] ++ [7, 0x80]))
        (fun _ => 0) 1).2 = .ok s)) :=
  ⟨⟨by decide, by decide, by decide, by decide, by decide⟩,
    literal_run 3 3 1 0xFD (-3) [1, 2, 3, 4, 5, 6] [7, 0x80] (fun _ => 0) (by decide)
      (by decide) (by decide) (by decide) (by decide)⟩

/-- C3. FillRest: with `p < width`, the run code 0x80 (-128) consumes only the code byte, sets
every byte of the row pixels `p..width-1` to 0xFF, leaves the bytes of the pixels before `p`
(and everything behind the row) unchanged, and ends the line whatever bytes follow: the run
loop returns with the stream standing right after the code byte. -/
theorem fill_rest_run (pixel_size width p : Nat) (rest : List Nat) (line : Mem)
    (hp : p < width) :
    ∃ s, decode_run pixel_size width (0x80 :: rest) line p = .ok s ∧
      s.fd = rest ∧ s.pos = width ∧
      (∀ i j, p ≤ i → i < width → j < pixel_size → s.line (pixel_size * i + j) = 0xFF) ∧
      (∀ a, a < pixel_size * p → s.line a = line a) ∧
      (∀ a, pixel_size * width ≤ a → s.line a = line a) ∧
      (∀ fuel, run_loop pixel_size width (fuel + 1) (0x80 :: rest) line p
        = some (.ok (rest, s.line, width))) := by
  have h : int8 0x80 = -128 := by decide
  have hs := decode_run_fill pixel_size width 0x80 rest line p h
  have hsplit : pixel_size * p + pixel_size * (width - p) = pixel_size * width := by
    rw [← Nat.mul_add]; congr 1; omega
  refine ⟨_, hs, rfl, rfl, ?_, ?_, ?_, ?_⟩
  · intro i j hi1 hi2 hj
    have h1 : pixel_size * p ≤ pixel_size * i := Nat.mul_le_mul_left _ hi1
    have h2 : pixel_size * (i + 1) ≤ pixel_size * width := Nat.mul_le_mul_left _ hi2
    rw [Nat.mul_add, Nat.mul_one] at h2
    have : p * pixel_size ≤ pixel_size * i + j ∧
        pixel_size * i + j < p * pixel_size + pixel_size * (width - p) := by
      rw [Nat.mul_comm p pixel_size]; omega
    simp only [memset, this, and_self, if_true]
  · intro a ha
    have : ¬ (p * pixel_size ≤ a ∧ a < p * pixel_size + pixel_size * (width - p)) := by
      rw [Nat.mul_comm p pixel_size]; omega
    simp only [memset, this, if_false]
  · intro a ha
    have : ¬ (p * pixel_size ≤ a ∧ a < p * pixel_size + pixel_size * (width - p)) := by
      rw [Nat.mul_comm p pixel_size]; omega
    simp only [memset, this, if_false]
  · intro fuel
    exact run_loop_of_brk pixel_size width fuel _ line p _ hs rfl

/-- C3 at a concrete run: 0x80 at position 1 of a row of width 3, followed by other bytes. -/
theorem fill_rest_run_witness :
    1 < 3 ∧
    (∃ s, decode_run 3 3 (0x80 :: [5, 6, 7]) (fun _ => 0) 1 = .ok s ∧
      s.fd = [5, 6, 7] ∧ s.pos = 3 ∧
      (∀ i j, 1 ≤ i → i < 3 → j < 3 → s.line (3 * i + j) = 0xFF) ∧
      (∀ a, a < 3 * 1 → s.line a = (fun _ => 0) a) ∧
      (∀ a, 3 * 3 ≤ a → s.line a = (fun _ => 0) a) ∧
      (∀ fuel, run_loop 3 3 (fuel + 1) (0x80 :: [5, 6, 7]) (fun _ => 0) 1
        = some (.ok ([5, 6, 7], s.line, 3)))) :=
  ⟨by decide, fill_rest_run 3 3 1 [5, 6, 7] (fun _ => 0) (by decide)⟩

/-- C8 fails as stated: in a row of width 2 the code 0xFF (-1) followed by two pixels reads
and writes both of them, not one; in a row of width 3 the code 0xFE (-2) followed by three
pixels reads and writes all three, not two. -/
theorem literal_small_codes_counterexample :
    (∃ s, decode_run 3 2 [0xFF, 1, 2, 3, 4, 5, 6] (fun _ => 0) 0 = .ok s ∧
      s.fd = [] ∧ s.pos = 2 ∧ dump s.line 6 = [1, 2, 3, 4, 5, 6] ∧
      ¬ (s.fd = [4, 5, 6] ∧ s.pos = 1)) ∧
    (∃ s, decode_run 3 3 [0xFE, 1, 2, 3, 4, 5, 6, 7, 8, 9] (fun _ => 0) 0 = .ok s ∧
      s.fd = [] ∧ s.pos = 3 ∧ dump s.line 9 = [1, 2, 3, 4, 5, 6, 7, 8, 9] ∧
      ¬ (s.fd = [7, 8, 9] ∧ s.pos = 2)) :=
  ⟨⟨_, rfl, by decide, by decide, by decide, by decide⟩,
    ⟨_, rfl, by decide, by decide, by decide, by decide⟩⟩

/-- C8, as amended. A literal code `c` stands for `n = -c + 1` pixels, so `n` ranges over
`2..128`: code -1 (0xFF) reads and writes exactly two pixels and code -2 (0xFE) exactly three,
in a row with at least that many positions left; 0xFE followed by two pixels decodes to
those two pixels at the next two row positions when exactly two positions are left. -/
theorem literal_small_codes (pixel_size width pos : Nat) (p1 p2 p3 rest : List Nat) (line : Mem)
    (h1 : p1.length = pixel_size) (h2 : p2.length = pixel_size) (h3 : p3.length = pixel_size) :
    (∀ b, -127 ≤ int8 b → int8 b ≤ -1 →
      2 ≤ (-int8 b + 1).toNat ∧ (-int8 b + 1).toNat ≤ 128) ∧
    (pos + 2 ≤ width →
      ∃ s, decode_run pixel_size width (0xFF :: (p1 ++ p2 ++ rest)) line pos = .ok s ∧
        s.fd = rest ∧ s.pos = pos + 2 ∧
        ∀ j, j < pixel_size → s.line (pixel_size * pos + j) = p1.getD j 0 ∧
          s.line (pixel_size * (pos + 1) + j) = p2.getD j 0) ∧
    (pos + 3 ≤ width →
      ∃ s, decode_run pixel_size width (0xFE :: (p1 ++ p2 ++ p3 ++ rest)) line pos = .ok s ∧
        s.fd = rest ∧ s.pos = pos + 3 ∧
        ∀ j, j < pixel_size → s.line (pixel_size * pos + j) = p1.getD j 0 ∧
          s.line (pixel_size * (pos + 1) + j) = p2.getD j 0 ∧
          s.line (pixel_size * (pos + 2) + j) = p3.getD j 0) ∧
    (pos + 2 = width →
      ∃ s, decode_run pixel_size width (0xFE :: (p1 ++ p2 ++ rest)) line pos = .ok s ∧
        s.fd = rest ∧ s.pos = width ∧
        ∀ j, j < pixel_size → s.line (pixel_size * pos + j) = p1.getD j 0 ∧
          s.line (pixel_size * (pos + 1) + j) = p2.getD j 0) := by
  have hFF : int8 0xFF = -1 := by decide
  have hFE : int8 0xFE = -2 := by decide
  have g1 : ∀ (q : List Nat) j, j < pixel_size → (p1 ++ q).getD (pixel_size * 0 + j) 0
      = p1.getD j 0 := by
    intro q j hj
    rw [Nat.mul_zero, Nat.zero_add, List.getD_append _ _ _ _ (by omega)]
  have g2 : ∀ (q : List Nat) j, j < pixel_size → (p1 ++ (p2 ++ q)).getD (pixel_size * 1 + j) 0
      = p2.getD j 0 := by
    intro q j hj
    rw [Nat.mul_one, List.getD_append_right _ _ _ _ (by omega),
      List.getD_append _ _ _ _ (by omega), h1, Nat.add_sub_cancel_left]
  have g3 : ∀ j, j < pixel_size → (p1 ++ (p2 ++ p3)).getD (pixel_size * 2 + j) 0
      = p3.getD j 0 := by
    intro j hj
    rw [List.getD_append_right _ _ _ _ (by omega),
      List.getD_append_right _ _ _ _ (by omega), h1, h2]
    congr 1
    omega
  refine ⟨fun b hb1 hb2 => by omega, ?_, ?_, ?_⟩
  · intro hw
    have hm : min (-int8 0xFF + 1).toNat (width - pos) = 2 := by rw [hFF]; omega
    obtain ⟨s, hs, hfd, hp, _, hwr, _, _⟩ := literal_run_spec pixel_size width pos 0xFF
      (p1 ++ p2) rest line (by omega) (by rw [hFF]; omega) (by rw [hFF]; omega)
      (by rw [hm, List.length_append, h1, h2]; omega)
    rw [hm] at hp hwr
    refine ⟨s, hs, hfd, hp, ?_⟩
    intro j hj
    have e0 := hwr 0 j (by omega) hj
    have e1 := hwr 1 j (by omega) hj
    have a2 := g2 [] j hj
    rw [List.append_nil] at a2
    rw [Nat.add_zero, g1 p2 j hj] at e0
    rw [a2] at e1
    exact ⟨e0, e1⟩
  · intro hw
    have hm : min (-int8 0xFE + 1).toNat (width - pos) = 3 := by rw [hFE]; omega
    obtain ⟨s, hs, hfd, hp, _, hwr, _, _⟩ := literal_run_spec pixel_size width pos 0xFE
      (p1 ++ p2 ++ p3) rest line (by omega) (by rw [hFE]; omega) (by rw [hFE]; omega)
      (by rw [hm, List.length_append, List.length_append, h1, h2, h3]; omega)
    rw [hm] at hp hwr
    refine ⟨s, hs, hfd, hp, ?_⟩
    intro j hj
    have e0 := hwr 0 j (by omega) hj
    have e1 := hwr 1 j (by omega) hj
    have e2 := hwr 2 j (by omega) hj
    rw [List.append_assoc] at e0 e1 e2
    rw [Nat.add_zero, g1 (p2 ++ p3) j hj] at e0
    rw [g2 p3 j hj] at e1
    rw [g3 j hj] at e2
    exact ⟨e0, e1, e2⟩
  · intro hw
    have hm : min (-int8 0xFE + 1).toNat (width - pos) = 2 := by rw [hFE]; omega
    obtain ⟨s, hs, hfd, hp, _, hwr, _, _⟩ := literal_run_spec pixel_size width pos 0xFE
      (p1 ++ p2) rest line (by omega) (by rw [hFE]; omega) (by rw [hFE]; omega)
      (by rw [hm, List.length_append, h1, h2]; omega)
    rw [hm] at hp hwr
    refine ⟨s, hs, hfd, by rw [hp]; exact hw, ?_⟩
    intro j hj
    have e0 := hwr 0 j (by omega) hj
    have e1 := hwr 1 j (by omega) hj
    have a2 := g2 [] j hj
    rw [List.append_nil] at a2
    rw [Nat.add_zero, g1 p2 j hj] at e0
    rw [a2] at e1
    exact ⟨e0, e1⟩

/-- C8 (amended) at concrete pixels of three bytes in a row of width 3. -/
theorem literal_small_codes_witness :
    ([1, 2, 3].length = 3 ∧ [4, 5, 6].length = 3 ∧ [7, 8, 9].length = 3) ∧
    ((∀ b, -127 ≤ int8 b → int8 b ≤ -1 →
      2 ≤ (-int8 b + 1).toNat ∧ (-int8 b + 1).toNat ≤ 128) ∧
    (0 + 2 ≤ 3 →
      ∃ s, decode_run 3 3 (0xFF :: ([1, 2, 3] ++ [4, 5, 6] ++ [0x80])) (fun _ => 0) 0 = .ok s ∧
        s.fd = [0x80] ∧ s.pos = 0 + 2 ∧
        ∀ j, j < 3 → s.line (3 * 0 + j) = [1, 2, 3].getD j 0 ∧
          s.line (3 * (0 + 1) + j) = [4, 5, 6].getD j 0) ∧
    (0 + 3 ≤ 3 →
      ∃ s, decode_run 3 3 (0xFE :: ([1, 2, 3] ++ [4, 5, 6] ++ [7, 8, 9] ++ [0x80]))
          (fun _ => 0) 0 = .ok s ∧
        s.fd = [0x80] ∧ s.pos = 0 + 3 ∧
        ∀ j, j < 3 → s.line (3 * 0 + j) = [1, 2, 3].getD j 0 ∧
          s.line (3 * (0 + 1) + j) = [4, 5, 6].getD j 0 ∧
          s.line (3 * (0 + 2) + j) = [7, 8, 9].getD j 0) ∧
    (0 + 2 = 3 →
      ∃ s, decode_run 3 3 (0xFE :: ([1, 2, 3] ++ [4, 5, 6] ++ [0x80])) (fun _ => 0) 0 = .ok s ∧
        s.fd = [0x80] ∧ s.pos = 3 ∧
        ∀ j, j < 3 → s.line (3 * 0 + j) = [1, 2, 3].getD j 0 ∧
          s.line (3 * (0 + 1) + j) = [4, 5, 6].getD j 0)) :=
  ⟨⟨rfl, rfl, rfl⟩,
    literal_small_codes 3 3 0 [1, 2, 3] [4, 5, 6] [7, 8, 9] [0x80] (fun _ => 0) rfl rfl rfl⟩

/-! ## Claims on lines and pages -/

namespace urftopdf

/-- C4. Line repeat: for a line with repeat byte `b` whose runs decode to the row `line1`, the
line loop hands `line1` to `pdf_set_line` for the `b + 1` consecutive row indices
`cur_line, ..., cur_line + b` (in this order) and goes on with the row counter
`cur_line + (b + 1)`; if the byte offsets of the page do not overflow, every one of these rows
that lies inside the page then holds the bytes of `line1`, and still does when the loop has
ended, however it ends. -/
theorem line_repeat_rows (pixel_size width height fuel b : Nat) (fd1 fd2 : List Nat)
    (line line1 : Mem) (p cur_line : Nat) (pdf : pdf_info) (lines : List (Nat × List Nat))
    (hb : b < 256)
    (hrun : run_loop pixel_size width (fd1.length + 1) fd1 line 0 = some (.ok (fd2, line1, p))) :
    line_loop pixel_size width height (fuel + 1) (b :: fd1) line cur_line pdf lines =
      (if cur_line + (b + 1) < height then
        line_loop pixel_size width height fuel fd2 line1 (cur_line + (b + 1))
          ((List.range (b + 1)).foldl (fun q i => pdf_set_line q (cur_line + i) line1) pdf)
          (lines ++ [(b, dump line1 (pixel_size * width))])
      else
        some ⟨0, fd2, cur_line + (b + 1),
          (List.range (b + 1)).foldl (fun q i => pdf_set_line q (cur_line + i) line1) pdf,
          line1, lines ++ [(b, dump line1 (pixel_size * width))]⟩) ∧
    (pdf.height * pdf.line_bytes < 2 ^ 32 → ∀ r j, cur_line ≤ r → r ≤ cur_line + b →
      r < pdf.height → j < pdf.line_bytes →
      ((List.range (b + 1)).foldl (fun q i => pdf_set_line q (cur_line + i) line1)
        pdf).page_data (r * pdf.line_bytes + j) = line1 j) ∧
    (pdf.height * pdf.line_bytes < 2 ^ 32 → ∀ res,
      line_loop pixel_size width height (fuel + 1) (b :: fd1) line cur_line pdf lines
        = some res →
      ∀ r j, cur_line ≤ r → r ≤ cur_line + b → r < pdf.height → j < pdf.line_bytes →
        res.pdf.page_data (r * pdf.line_bytes + j) = line1 j) := by
  have hmod : b % 256 = b := Nat.mod_eq_of_lt hb
  have hrows : pdf.height * pdf.line_bytes < 2 ^ 32 → ∀ r j, cur_line ≤ r → r ≤ cur_line + b →
      r < pdf.height → j < pdf.line_bytes →
      (write_lines line1 (b + 1) cur_line pdf).1.page_data (r * pdf.line_bytes + j)
        = line1 j := by
    intro hov r j h1 h2 h3 hj
    exact write_lines_rows line1 (b + 1) cur_line pdf r j hov h1 (by omega) h3 hj
  refine ⟨?_, ?_, ?_⟩
  · rw [line_loop_ok _ _ _ _ _ _ _ _ _ _ _ _ _ hrun, hmod, write_lines_fold]
  · intro hov r j h1 h2 h3 hj
    rw [← write_lines_fold]
    exact hrows hov r j h1 h2 h3 hj
  · intro hov res hres r j h1 h2 h3 hj
    rw [line_loop_ok _ _ _ _ _ _ _ _ _ _ _ _ _ hrun, hmod] at hres
    obtain ⟨hf1, hf2⟩ := write_lines_fields line1 (b + 1) cur_line pdf
    by_cases hc : cur_line + (b + 1) < height
    · simp only [hc, if_true] at hres
      obtain ⟨_, _, h5⟩ := line_loop_page_below _ _ _ _ _ _ _ _ _ _ hres
        (by rw [hf1, hf2]; exact hov)
      rw [hf2] at h5
      rw [h5 _ (by
        have : (r + 1) * pdf.line_bytes ≤ (cur_line + (b + 1)) * pdf.line_bytes :=
          Nat.mul_le_mul_right _ (by omega)
        rw [Nat.add_mul, Nat.one_mul] at this
        omega)]
      exact hrows hov r j h1 h2 h3 hj
    · simp only [hc, if_false, Option.some.injEq] at hres
      subst hres
      exact hrows hov r j h1 h2 h3 hj

/-- C4 at a concrete line: repeat byte 1 and the run 0x80 in a page of width 1 and height 3
give two rows of 0xFF. -/
theorem line_repeat_rows_witness :
    (1 < 256 ∧
      run_loop 3 1 ([0x80, 9].length + 1) [0x80, 9] (fun _ => 0) 0
        = some (.ok ([9], memset (fun _ => 0) (0 * 3) 0xFF (3 * (1 - 0)), 1))) ∧
    (line_loop 3 1 3 (5 + 1) (1 :: [0x80, 9]) (fun _ => 0) 0
        (add_pdf_page pdf_zero 0 1 3 24 72 (fun _ => 0)) [] =
      (if 0 + (1 + 1) < 3 then
        line_loop 3 1 3 5 [9] (memset (fun _ => 0) (0 * 3) 0xFF (3 * (1 - 0))) (0 + (1 + 1))
          ((List.range (1 + 1)).foldl
            (fun q i => pdf_set_line q (0 + i) (memset (fun _ => 0) (0 * 3) 0xFF (3 * (1 - 0))))
            (add_pdf_page pdf_zero 0 1 3 24 72 (fun _ => 0)))
          ([] ++ [(1, dump (memset (fun _ => 0) (0 * 3) 0xFF (3 * (1 - 0))) (3 * 1))])
      else
        some ⟨0, [9], 0 + (1 + 1),
          (List.range (1 + 1)).foldl
            (fun q i => pdf_set_line q (0 + i) (memset (fun _ => 0) (0 * 3) 0xFF (3 * (1 - 0))))
            (add_pdf_page pdf_zero 0 1 3 24 72 (fun _ => 0)),
          memset (fun _ => 0) (0 * 3) 0xFF (3 * (1 - 0)),
          [] ++ [(1, dump (memset (fun _ => 0) (0 * 3) 0xFF (3 * (1 - 0))) (3 * 1))]⟩) ∧
    ((add_pdf_page pdf_zero 0 1 3 24 72 (fun _ => 0)).height
        * (add_pdf_page pdf_zero 0 1 3 24 72 (fun _ => 0)).line_bytes < 2 ^ 32 →
      ∀ r j, 0 ≤ r → r ≤ 0 + 1 →
      r < (add_pdf_page pdf_zero 0 1 3 24 72 (fun _ => 0)).height →
      j < (add_pdf_page pdf_zero 0 1 3 24 72 (fun _ => 0)).line_bytes →
      ((List.range (1 + 1)).foldl
        (fun q i => pdf_set_line q (0 + i) (memset (fun _ => 0) (0 * 3) 0xFF (3 * (1 - 0))))
        (add_pdf_page pdf_zero 0 1 3 24 72 (fun _ => 0))).page_data
          (r * (add_pdf_page pdf_zero 0 1 3 24 72 (fun _ => 0)).line_bytes + j)
        = memset (fun _ => 0) (0 * 3) 0xFF (3 * (1 - 0)) j) ∧
    ((add_pdf_page pdf_zero 0 1 3 24 72 (fun _ => 0)).height
        * (add_pdf_page pdf_zero 0 1 3 24 72 (fun _ => 0)).line_bytes < 2 ^ 32 → ∀ res,
      line_loop 3 1 3 (5 + 1) (1 :: [0x80, 9]) (fun _ => 0) 0
        (add_pdf_page pdf_zero 0 1 3 24 72 (fun _ => 0)) [] = some res →
      ∀ r j, 0 ≤ r → r ≤ 0 + 1 →
      r < (add_pdf_page pdf_zero 0 1 3 24 72 (fun _ => 0)).height →
      j < (add_pdf_page pdf_zero 0 1 3 24 72 (fun _ => 0)).line_bytes →
      res.pdf.page_data (r * (add_pdf_page pdf_zero 0 1 3 24 72 (fun _ => 0)).line_bytes + j)
        = memset (fun _ => 0) (0 * 3) 0xFF (3 * (1 - 0)) j)) :=
  ⟨⟨by decide, rfl⟩,
    line_repeat_rows 3 1 3 5 1 [0x80, 9] [9] (fun _ => 0)
      (memset (fun _ => 0) (0 * 3) 0xFF (3 * (1 - 0))) 1 0
      (add_pdf_page pdf_zero 0 1 3 24 72 (fun _ => 0)) [] (by decide) rfl⟩

/-- C5 fails as stated: the page of width 1 and height 1 with the bytes 01 80 (one line,
repeated twice) decodes successfully, and the lines stand for 2 rows, not for 1. -/
theorem raster_rows_total_counterexample :
    ∃ r, decode_raster [1, 0x80] 1 1 24 (add_pdf_page pdf_zero 0 1 1 24 72 (fun _ => 0))
        (fun _ => 0) = some r ∧
      r.status = 0 ∧ r.lines = [(1, [255, 255, 255])] ∧ rows_of r.lines = 2 ∧ r.cur_line = 2 ∧
      ¬ (rows_of r.lines = 1) :=
  ⟨_, rfl, by decide, by decide, by decide, by decide, by decide⟩

/-- C5, as amended. When `decode_raster` returns 0, the sum of `repeat byte + 1` over the
decoded lines is the final row counter; it is at least `height`, and the sum over the lines
before the last one is below `height` (so the total exceeds `height` by less than the last
line's repeat count). The decoder always returns 0 or 1. The decoder of urftourf.c returns the
same value with the same lines and row counter. -/
theorem raster_rows_total (fd : List Nat) (width height bpp : Nat) (pdf : pdf_info)
    (uninit : Mem) (hh : 1 ≤ height) :
    ∃ r, decode_raster fd width height bpp pdf uninit = some r ∧
      (r.status = 0 ∨ r.status = 1) ∧
      (r.status = 0 → rows_of r.lines = r.cur_line ∧ height ≤ rows_of r.lines ∧
        ∃ init last, r.lines = init ++ [last] ∧ rows_of init < height) ∧
      (∀ cw dest_bpp dest_cspace, ∃ r2,
        urftourf.decode_raster cw fd width height bpp dest_bpp dest_cspace uninit = some r2 ∧
        r2.status = r.status ∧ r2.lines = r.lines ∧ r2.cur_line = r.cur_line) := by
  obtain ⟨r, hr⟩ := decode_raster_total fd width height bpp pdf uninit
  obtain ⟨h1, h2, _⟩ := line_loop_rows _ _ _ _ _ _ _ _ _ _ hr
  refine ⟨r, hr, h1, ?_, ?_⟩
  · intro h0
    obtain ⟨init, last, hl, hcur, hge, hinit⟩ := h2 h0
    simp only [List.nil_append, Nat.zero_add] at hl hcur hinit
    refine ⟨by rw [hl, hcur], by rw [hl, ← hcur]; exact hge, init, last, hl, ?_⟩
    by_cases hi : init = []
    · subst hi
      simp only [rows_of, List.map_nil, List.sum_nil]
      omega
    · exact hinit hi
  · intro cw dest_bpp dest_cspace
    have ha := urftourf.decode_raster_agrees cw fd width height bpp dest_bpp dest_cspace pdf
      uninit
    rw [hr] at ha
    cases h2 : urftourf.decode_raster cw fd width height bpp dest_bpp dest_cspace uninit with
    | none => rw [h2] at ha; simp at ha
    | some r2 =>
      rw [h2] at ha
      simp only [Option.map_some', Option.some.injEq, Prod.mk.injEq] at ha
      exact ⟨r2, rfl, ha.1, ha.2.2.2.2, ha.2.2.1⟩

/-- C5 (amended) at the page of width 1 and height 1 with the bytes 01 80. -/
theorem raster_rows_total_witness :
    1 ≤ 1 ∧
    ∃ r, decode_raster [1, 0x80] 1 1 24 (add_pdf_page pdf_zero 0 1 1 24 72 (fun _ => 0))
        (fun _ => 0) = some r ∧
      (r.status = 0 ∨ r.status = 1) ∧
      (r.status = 0 → rows_of r.lines = r.cur_line ∧ 1 ≤ rows_of r.lines ∧
        ∃ init last, r.lines = init ++ [last] ∧ rows_of init < 1) ∧
      (∀ cw dest_bpp dest_cspace, ∃ r2,
        urftourf.decode_raster cw [1, 0x80] 1 1 24 dest_bpp dest_cspace (fun _ => 0) = some r2 ∧
        r2.status = r.status ∧ r2.lines = r.lines ∧ r2.cur_line = r.cur_line) :=
  ⟨by decide,
    raster_rows_total [1, 0x80] 1 1 24 (add_pdf_page pdf_zero 0 1 1 24 72 (fun _ => 0))
      (fun _ => 0) (by decide)⟩

/-- C6. Truncation: `decode_raster` returns 1 or 0. When it returns 1 the row counter is below
`height` and the stream ran out: every prefix of the stream fails as well, on any longer
stream a successful decoding reads beyond the end of the given one, and there is a longer
stream that decodes successfully. When it returns 0 the row
counter has reached `height`, the decoder has consumed a prefix `a` of the stream, it succeeds
on `a` followed by anything (leaving exactly that unread), and it fails on every proper prefix
of `a`. -/
theorem raster_truncation (fd : List Nat) (width height bpp : Nat) (pdf : pdf_info)
    (uninit : Mem) (hh : 1 ≤ height) :
    ∃ r, decode_raster fd width height bpp pdf uninit = some r ∧
      ((r.status = 1 ∧ r.cur_line < height ∧
          (∀ t u, fd = t ++ u →
            ∃ r1, decode_raster t width height bpp pdf uninit = some r1 ∧ r1.status = 1) ∧
          (∀ x r1, decode_raster (fd ++ x) width height bpp pdf uninit = some r1 →
            r1.status = 0 → r1.fd.length < x.length) ∧
          (∃ x r1, decode_raster (fd ++ x) width height bpp pdf uninit = some r1 ∧
            r1.status = 0)) ∨
        (r.status = 0 ∧ height ≤ r.cur_line ∧
          ∃ a, fd = a ++ r.fd ∧
            (∀ x, ∃ r1, decode_raster (a ++ x) width height bpp pdf uninit = some r1 ∧
              r1.status = 0 ∧ r1.fd = x) ∧
            (∀ t u, a = t ++ u → u ≠ [] →
              ∃ r1, decode_raster t width height bpp pdf uninit = some r1 ∧
                r1.status = 1))) := by
  obtain ⟨r, hr⟩ := decode_raster_total fd width height bpp pdf uninit
  obtain ⟨h1, h2, h3⟩ := line_loop_rows _ _ _ _ _ _ _ _ _ _ hr
  refine ⟨r, hr, ?_⟩
  rcases h1 with h0 | h1
  · right
    obtain ⟨_, _, _, _, hge, _⟩ := h2 h0
    obtain ⟨a, hfd, hfr, htr⟩ := decode_raster_consumes _ _ _ _ _ _ _ hr h0
    exact ⟨h0, hge, a, hfd, fun x => ⟨_, hfr x, rfl, rfl⟩, htr⟩
  · left
    have hne : r.status ≠ 0 := by omega
    refine ⟨h1, ?_, ?_, ?_, decode_raster_curable fd width height bpp pdf uninit⟩
    · rcases h3 h1 with hc | hc
      · omega
      · exact hc
    · intro t u htu
      obtain ⟨r1, hr1⟩ := decode_raster_total t width height bpp pdf uninit
      refine ⟨r1, hr1, ?_⟩
      rcases (line_loop_rows _ _ _ _ _ _ _ _ _ _ hr1).1 with hs | hs
      · have := decode_raster_extend t u width height bpp pdf uninit r1 hr1 hs
        rw [← htu, hr] at this
        simp only [Option.some.injEq] at this
        rw [this] at hne
        exact absurd rfl hne
      · exact hs
    · intro x r1 hr1 hs
      obtain ⟨a, hfd, hfr, _⟩ := decode_raster_consumes _ _ _ _ _ _ _ hr1 hs
      rcases List.append_eq_append_iff.mp hfd with ⟨c, h4, h5⟩ | ⟨c, h4, h5⟩
      · by_cases hc : c = []
        · subst hc
          have := hfr []
          rw [h4, List.append_nil, List.append_nil, hr] at this
          simp only [Option.some.injEq] at this
          rw [this] at hne
          exact absurd rfl hne
        · rw [h5, List.length_append]
          have := List.length_pos.mpr hc
          omega
      · have := hfr c
        rw [← h4, hr] at this
        simp only [Option.some.injEq] at this
        rw [this] at hne
        exact absurd rfl hne

/-- C6 at the page of width 2 and height 1 with the bytes 00 01 0A 14 1E followed by 07. -/
theorem raster_truncation_witness :
    1 ≤ 1 ∧
    ∃ r, decode_raster [0, 1, 10, 20, 30, 7] 2 1 24
        (add_pdf_page pdf_zero 0 2 1 24 72 (fun _ => 0)) (fun _ => 0) = some r ∧
      ((r.status = 1 ∧ r.cur_line < 1 ∧
          (∀ t u, [0, 1, 10, 20, 30, 7] = t ++ u →
            ∃ r1, decode_raster t 2 1 24 (add_pdf_page pdf_zero 0 2 1 24 72 (fun _ => 0))
              (fun _ => 0) = some r1 ∧ r1.status = 1) ∧
          (∀ x r1, decode_raster ([0, 1, 10, 20, 30, 7] ++ x) 2 1 24
              (add_pdf_page pdf_zero 0 2 1 24 72 (fun _ => 0)) (fun _ => 0) = some r1 →
            r1.status = 0 → r1.fd.length < x.length) ∧
          (∃ x r1, decode_raster ([0, 1, 10, 20, 30, 7] ++ x) 2 1 24
              (add_pdf_page pdf_zero 0 2 1 24 72 (fun _ => 0)) (fun _ => 0) = some r1 ∧
            r1.status = 0)) ∨
        (r.status = 0 ∧ 1 ≤ r.cur_line ∧
          ∃ a, [0, 1, 10, 20, 30, 7] = a ++ r.fd ∧
            (∀ x, ∃ r1, decode_raster (a ++ x) 2 1 24
                (add_pdf_page pdf_zero 0 2 1 24 72 (fun _ => 0)) (fun _ => 0) = some r1 ∧
              r1.status = 0 ∧ r1.fd = x) ∧
            (∀ t u, a = t ++ u → u ≠ [] →
              ∃ r1, decode_raster t 2 1 24 (add_pdf_page pdf_zero 0 2 1 24 72 (fun _ => 0))
                (fun _ => 0) = some r1 ∧ r1.status = 1))) :=
  ⟨by decide,
    raster_truncation [0, 1, 10, 20, 30, 7] 2 1 24
      (add_pdf_page pdf_zero 0 2 1 24 72 (fun _ => 0)) (fun _ => 0) (by decide)⟩

/-- C7 fails on the code: the guard of `pdf_set_line` is `line_n > height`, so the row index
`height` is written. For a page of height 1 with 3 bytes per line (an allocation of 3 bytes),
`pdf_set_line` at row 1 stores the line at the offsets 3..5, behind the page; `decode_raster`
makes this call for the bytes 01 80 (one line, repeated twice). -/
theorem pdf_set_line_at_height :
    (add_pdf_page pdf_zero 0 1 1 24 72 (fun _ => 0)).height = 1 ∧
    (add_pdf_page pdf_zero 0 1 1 24 72 (fun _ => 0)).line_bytes = 3 ∧
    dump (pdf_set_line (add_pdf_page pdf_zero 0 1 1 24 72 (fun _ => 0)) 1
      (fun _ => 0xFF)).page_data 6 = [0, 0, 0, 255, 255, 255] ∧
    (decode_raster [1, 0x80] 1 1 24 (add_pdf_page pdf_zero 0 1 1 24 72 (fun _ => 0))
        (fun _ => 0)).map (fun r => (r.status, dump r.pdf.page_data 6))
      = some (0, [255, 255, 255, 255, 255, 255]) :=
  ⟨rfl, rfl, rfl, rfl⟩

end urftopdf

/-! ## Headers -/

/-- On strings without NUL among the first `n` bytes of the second one, `strncmp` returns 0
exactly when the first `n` bytes agree. -/
theorem strncmp_eq_zero_iff (n : Nat) :
    ∀ (s1 s2 : List Nat), n ≤ s1.length → n ≤ s2.length → (∀ c ∈ s2.take n, c ≠ 0) →
      (strncmp s1 s2 n = 0 ↔ s1.take n = s2.take n) := by
  induction n with
  | zero => intro s1 s2 _ _ _; simp [strncmp]
  | succ n ih =>
    intro s1 s2 h1 h2 hz
    cases s1 with
    | nil => simp at h1
    | cons a t1 =>
      cases s2 with
      | nil => simp at h2
      | cons b t2 =>
        simp only [List.length_cons, Nat.add_le_add_iff_right] at h1 h2
        simp only [List.take_succ_cons, List.mem_cons, forall_eq_or_imp] at hz
        simp only [strncmp, List.headD_cons, List.tail_cons, List.take_succ_cons,
          List.cons.injEq]
        by_cases hab : a = b
        · subst hab
          simp only [ne_eq, not_true_eq_false, if_false, hz.1, true_and]
          exact ih t1 t2 h1 h2 hz.2
        · simp only [ne_eq, hab, not_false_eq_true, if_true, false_and, iff_false]
          omega

theorem magic_ok_iff (hdr : List Nat) (hlen : hdr.length = 12) :
    magic_ok hdr = true ↔ hdr.take 7 = [85, 78, 73, 82, 65, 83, 84] := by
  have h := strncmp_eq_zero_iff 7 ((hdr.take 8).set 7 0) UNIRAST
    (by rw [List.length_set, List.length_take]; omega) (by decide) (by decide)
  simp only [magic_ok, decide_eq_true_eq, h]
  have e1 : ((hdr.take 8).set 7 0).take 7 = hdr.take 7 := by
    rw [List.set_take, List.take_take, List.set_eq_of_length_le]
    · rfl
    · rw [List.length_take]; omega
  rw [e1]
  rfl

/-- A read of `n` bytes from a stream that starts with `n` bytes fills the buffer with them. -/
theorem read_buf_full (buf hdr rest : List Nat) (n : Nat) (h : hdr.length = n) :
    read_buf buf (hdr ++ rest) n = hdr := by
  subst h
  have : ((buf.take hdr.length).drop (hdr ++ rest).length) = [] := by
    apply List.drop_eq_nil_of_le
    rw [List.length_take, List.length_append]
    omega
  simp only [read_buf, take_append_pixel, this, List.append_nil]

namespace urftourf

/-- The decoder of urftourf.c always returns. -/
theorem recode_raster_total (cw : Nat → Nat → Nat → List Nat → List Nat) (fd : List Nat)
    (width height bpp dest_bpp dest_cspace : Nat) (uninit : Mem) :
    ∃ r, decode_raster cw fd width height bpp dest_bpp dest_cspace uninit = some r := by
  have ha := decode_raster_agrees cw fd width height bpp dest_bpp dest_cspace urftopdf.pdf_zero
    uninit
  obtain ⟨r1, hr1⟩ := urftopdf.decode_raster_total fd width height bpp urftopdf.pdf_zero uninit
  rw [hr1] at ha
  cases h2 : decode_raster cw fd width height bpp dest_bpp dest_cspace uninit with
  | none => rw [h2] at ha; simp at ha
  | some r2 => exact ⟨r2, rfl⟩

end urftourf

/-- C9. File magic: a 12-byte file header is accepted exactly when its first 7 bytes are the
ASCII bytes of "UNIRAST", whatever the 8th byte is. When they are, both programs go on to the
page loop with the page count of the header (urftourf having copied the 12 header bytes to the
destination); when they are not (as for "XNIRAST"), both programs exit with status 1 having
read nothing beyond the 12 header bytes, urftourf having written nothing. -/
theorem file_magic_validation (U : unirast_h) (cw : Nat → Nat → Nat → List Nat → List Nat)
    (dest_cspace dest_bpp : Nat) (hdr rest : List Nat) (mem : uninit_mem)
    (hlen : hdr.length = 12) :
    (hdr.take 7 = [85, 78, 73, 82, 65, 83, 84] →
      urftopdf.main U (hdr ++ rest) mem =
        urftopdf.main_pages U mem.heap (ntohl (hdr.drop 8)) 0 rest mem.page_header_orig
          (urftopdf.create_pdf_file urftopdf.pdf_zero (ntohl (hdr.drop 8))) ∧
      urftourf.main U cw dest_cspace dest_bpp (hdr ++ rest) mem =
        urftourf.main_pages U cw dest_cspace dest_bpp mem.heap (ntohl (hdr.drop 8)) rest
          mem.page_header_orig hdr) ∧
    (hdr.take 7 ≠ [85, 78, 73, 82, 65, 83, 84] →
      urftopdf.main U (hdr ++ rest) mem = some ⟨1, rest, urftopdf.pdf_zero⟩ ∧
      urftourf.main U cw dest_cspace dest_bpp (hdr ++ rest) mem = some ⟨1, rest, []⟩) ∧
    (hdr.take 7 = [88, 78, 73, 82, 65, 83, 84] →
      urftopdf.main U (hdr ++ rest) mem = some ⟨1, rest, urftopdf.pdf_zero⟩ ∧
      urftourf.main U cw dest_cspace dest_bpp (hdr ++ rest) mem = some ⟨1, rest, []⟩) := by
  have hrd : read_buf mem.head_orig (hdr ++ rest) 12 = hdr := read_buf_full _ _ _ _ hlen
  have hdrop : (hdr ++ rest).drop 12 = rest := by rw [← hlen]; exact drop_append_pixel _ _
  have hbad : hdr.take 7 ≠ [85, 78, 73, 82, 65, 83, 84] →
      urftopdf.main U (hdr ++ rest) mem = some ⟨1, rest, urftopdf.pdf_zero⟩ ∧
      urftourf.main U cw dest_cspace dest_bpp (hdr ++ rest) mem = some ⟨1, rest, []⟩ := by
    intro h
    have hm : magic_ok hdr = false := by
      cases hmo : magic_ok hdr with
      | false => rfl
      | true => exact absurd ((magic_ok_iff hdr hlen).mp hmo) h
    constructor
    · simp only [urftopdf.main, hrd, hdrop, hm]
      rfl
    · simp only [urftourf.main, hrd, hdrop, hm]
      rfl
  refine ⟨?_, hbad, ?_⟩
  · intro h
    have hm : magic_ok hdr = true := (magic_ok_iff hdr hlen).mpr h
    constructor
    · simp only [urftopdf.main, hrd, hdrop, hm, if_true]
    · simp only [urftourf.main, hrd, hdrop, hm, if_true]
  · intro h
    apply hbad
    rw [h]
    decide

/-- C9 at the header "XNIRAST", NUL, page count 1, followed by further bytes. -/
theorem file_magic_validation_witness :
    [88, 78, 73, 82, 65, 83, 84, 0, 0, 0, 0, 1].length = 12 ∧
    ∀ (U : unirast_h) (cw : Nat → Nat → Nat → List Nat → List Nat) (mem : uninit_mem),
      urftopdf.main U ([88, 78, 73, 82, 65, 83, 84, 0, 0, 0, 0, 1] ++ [24, 1, 0, 0]) mem
        = some ⟨1, [24, 1, 0, 0], urftopdf.pdf_zero⟩ ∧
      urftourf.main U cw 1 24 ([88, 78, 73, 82, 65, 83, 84, 0, 0, 0, 0, 1] ++ [24, 1, 0, 0]) mem
        = some ⟨1, [24, 1, 0, 0], []⟩ :=
  ⟨rfl, fun U cw mem =>
    (file_magic_validation U cw 1 24 [88, 78, 73, 82, 65, 83, 84, 0, 0, 0, 0, 1] [24, 1, 0, 0]
      mem rfl).2.2 rfl⟩

/-- C10. Source format: a page whose header has colorspace `UNIRAST_COLOR_SPACE_SRGB_24BIT_1`
and bpp `UNIRAST_BPP_24BIT` is accepted: urftopdf allocates the page and decodes the raster
that follows the header, urftourf writes the destination header and decodes. For every other
pair both programs exit with status 1 with the input standing right after the page header (no
raster byte consumed), the PDF state unchanged (no page allocated) and nothing more written to
the destination. -/
theorem page_format_validation (U : unirast_h) (cw : Nat → Nat → Nat → List Nat → List Nat)
    (dest_cspace dest_bpp : Nat) (heap : Mem) (n page : Nat) (hdr rest buf out : List Nat)
    (pdf : urftopdf.pdf_info) (hlen : hdr.length = 32) :
    ((hdr.getD 1 0 = U.UNIRAST_COLOR_SPACE_SRGB_24BIT_1 ∧ hdr.getD 0 0 = U.UNIRAST_BPP_24BIT) →
      (∃ r, urftopdf.decode_raster rest (ntohl (hdr.drop 12)) (ntohl (hdr.drop 16))
            (hdr.getD 0 0)
            (urftopdf.add_pdf_page pdf page (ntohl (hdr.drop 12)) (ntohl (hdr.drop 16))
              (hdr.getD 0 0) (ntohl (hdr.drop 20)) heap) heap = some r ∧
          urftopdf.main_pages U heap (n + 1) page (hdr ++ rest) buf pdf =
            if r.status ≠ 0 then some ⟨1, r.fd, r.pdf⟩
            else urftopdf.main_pages U heap n (page + 1) r.fd hdr r.pdf) ∧
      (∃ r, urftourf.decode_raster cw rest (ntohl (hdr.drop 12)) (ntohl (hdr.drop 16))
            (hdr.getD 0 0) (dest_bpp % 256) (dest_cspace % 256) heap = some r ∧
          urftourf.main_pages U cw dest_cspace dest_bpp heap (n + 1) (hdr ++ rest) buf out =
            if r.status ≠ 0 then
              some ⟨1, r.fd,
                out ++ ((dest_bpp % 256) :: (dest_cspace % 256) :: hdr.drop 2) ++ r.out⟩
            else
              urftourf.main_pages U cw dest_cspace dest_bpp heap n r.fd hdr
                (out ++ ((dest_bpp % 256) :: (dest_cspace % 256) :: hdr.drop 2) ++ r.out))) ∧
    (¬ (hdr.getD 1 0 = U.UNIRAST_COLOR_SPACE_SRGB_24BIT_1 ∧
        hdr.getD 0 0 = U.UNIRAST_BPP_24BIT) →
      urftopdf.main_pages U heap (n + 1) page (hdr ++ rest) buf pdf = some ⟨1, rest, pdf⟩ ∧
      urftourf.main_pages U cw dest_cspace dest_bpp heap (n + 1) (hdr ++ rest) buf out
        = some ⟨1, rest, out⟩) := by
  have hrd : read_buf buf (hdr ++ rest) 32 = hdr := read_buf_full _ _ _ _ hlen
  have hdrop : (hdr ++ rest).drop 32 = rest := by rw [← hlen]; exact drop_append_pixel _ _
  refine ⟨?_, ?_⟩
  · rintro ⟨hcs, hbpp⟩
    constructor
    · obtain ⟨r, hr⟩ := urftopdf.decode_raster_total rest (ntohl (hdr.drop 12))
        (ntohl (hdr.drop 16)) (hdr.getD 0 0)
        (urftopdf.add_pdf_page pdf page (ntohl (hdr.drop 12)) (ntohl (hdr.drop 16))
          (hdr.getD 0 0) (ntohl (hdr.drop 20)) heap) heap
      refine ⟨r, hr, ?_⟩
      rw [hbpp] at hr
      simp only [urftopdf.main_pages, hrd, hdrop, hcs, hbpp, ne_eq, not_true_eq_false,
        if_false, hr]
    · obtain ⟨r, hr⟩ := urftourf.recode_raster_total cw rest (ntohl (hdr.drop 12))
        (ntohl (hdr.drop 16)) (hdr.getD 0 0) (dest_bpp % 256) (dest_cspace % 256) heap
      refine ⟨r, hr, ?_⟩
      rw [hbpp] at hr
      simp only [urftourf.main_pages, hrd, hdrop, hcs, hbpp, ne_eq, not_true_eq_false,
        if_false, hr]
  · intro hno
    by_cases hcs : hdr.getD 1 0 = U.UNIRAST_COLOR_SPACE_SRGB_24BIT_1
    · have hbpp : hdr.getD 0 0 ≠ U.UNIRAST_BPP_24BIT := fun h => hno ⟨hcs, h⟩
      constructor
      · simp only [urftopdf.main_pages, hrd, hdrop, hcs, hbpp, ne_eq, not_true_eq_false,
          not_false_eq_true, if_true, if_false]
      · simp only [urftourf.main_pages, hrd, hdrop, hcs, hbpp, ne_eq, not_true_eq_false,
          not_false_eq_true, if_true, if_false]
    · constructor
      · simp only [urftopdf.main_pages, hrd, hdrop, hcs, ne_eq, not_false_eq_true, if_true]
      · simp only [urftourf.main_pages, hrd, hdrop, hcs, ne_eq, not_false_eq_true, if_true]

/-- C10 at a page header with bpp 8 (width 1, height 1), followed by raster bytes, the
constants being `UNIRAST_COLOR_SPACE_SRGB_24BIT_1 = 1` and `UNIRAST_BPP_24BIT = 24`. -/
theorem page_format_validation_witness :
    [8, 1, 0, 0, 0, 0, 0, 0, 0, 0, 0, 0, 0, 0, 0, 1, 0, 0, 0, 1, 0, 0, 0, 72, 0, 0, 0, 0,
      0, 0, 0, 0].length = 32 ∧
    ¬ ([8, 1, 0, 0, 0, 0, 0, 0, 0, 0, 0, 0, 0, 0, 0, 1, 0, 0, 0, 1, 0, 0, 0, 72, 0, 0, 0, 0,
        0, 0, 0, 0].getD 1 0 = 1 ∧
      [8, 1, 0, 0, 0, 0, 0, 0, 0, 0, 0, 0, 0, 0, 0, 1, 0, 0, 0, 1, 0, 0, 0, 72, 0, 0, 0, 0,
        0, 0, 0, 0].getD 0 0 = 24) ∧
    urftopdf.main_pages ⟨1, 24, 6, 3, 4⟩ (fun _ => 0) (0 + 1) 0
        ([8, 1, 0, 0, 0, 0, 0, 0, 0, 0, 0, 0, 0, 0, 0, 1, 0, 0, 0, 1, 0, 0, 0, 72, 0, 0, 0, 0,
          0, 0, 0, 0] ++ [0, 0x80]) [] urftopdf.pdf_zero
      = some ⟨1, [0, 0x80], urftopdf.pdf_zero⟩ ∧
    urftourf.main_pages ⟨1, 24, 6, 3, 4⟩ (fun _ _ _ px => px) 1 24 (fun _ => 0) (0 + 1)
        ([8, 1, 0, 0, 0, 0, 0, 0, 0, 0, 0, 0, 0, 0, 0, 1, 0, 0, 0, 1, 0, 0, 0, 72, 0, 0, 0, 0,
          0, 0, 0, 0] ++ [0, 0x80]) [] [85, 78, 73, 82, 65, 83, 84, 0, 0, 0, 0, 1]
      = some ⟨1, [0, 0x80], [85, 78, 73, 82, 65, 83, 84, 0, 0, 0, 0, 1]⟩ :=
  ⟨rfl, by decide,
    (page_format_validation ⟨1, 24, 6, 3, 4⟩ (fun _ _ _ px => px) 1 24 (fun _ => 0) 0 0
      [8, 1, 0, 0, 0, 0, 0, 0, 0, 0, 0, 0, 0, 0, 0, 1, 0, 0, 0, 1, 0, 0, 0, 72, 0, 0, 0, 0,
        0, 0, 0, 0] [0, 0x80] [] [85, 78, 73, 82, 65, 83, 84, 0, 0, 0, 0, 1]
      urftopdf.pdf_zero rfl).2 (by decide)⟩

/-! ## The pixel recoder -/

namespace urftourf

/-- Wrap-around is compatible with addition. -/
theorem int32_add (a b : Int) : int32 (int32 a + int32 b) = int32 (a + b) := by
  unfold int32; omega

/-- A value in the range of `int` is not changed by wrap-around. -/
theorem int32_of_range (a : Int) (h0 : -2 ^ 31 ≤ a) (h1 : a < 2 ^ 31) : int32 a = a := by
  unfold int32; omega

/-- The 32-bit grayscale word in terms of the sum of the channels. -/
theorem gray32_eq (p0 p1 p2 : Nat) :
    gray32 p0 p1 p2
      = (Int.tdiv (int32 (((p0 + p1 + p2 : Nat) : Int) * 16843009)) 3 % 2 ^ 32).toNat := by
  have key : int32 (int32 (int32 ((p0 : Int) * 16843009) + int32 ((p1 : Int) * 16843009))
      + int32 ((p2 : Int) * 16843009)) = int32 (((p0 + p1 + p2 : Nat) : Int) * 16843009) := by
    unfold int32
    push_cast
    omega
  unfold gray32
  rw [key]

/-- The 32-bit grayscale word when the `int` arithmetic does not overflow. -/
theorem gray32_small (p0 p1 p2 : Nat) (h : p0 + p1 + p2 ≤ 127) :
    gray32 p0 p1 p2 = (p0 + p1 + p2) * 16843009 / 3 := by
  have h1 : (((p0 + p1 + p2 : Nat) : Int) * 16843009) / 3
      = (((p0 + p1 + p2) * 16843009 / 3 : Nat) : Int) := by
    push_cast
    rfl
  have h2 : (p0 + p1 + p2) * 16843009 / 3 < 2 ^ 32 := by omega
  rw [gray32_eq, int32_of_range _ (by omega) (by omega),
    Int.tdiv_eq_ediv (by omega) (by omega), h1,
    Int.emod_eq_of_lt (Int.natCast_nonneg _) (by exact_mod_cast h2), Int.toNat_natCast]

/-- The big-endian bytes of an average replicated into a 32-bit word. -/
theorem htonl_replicated (m : Nat) (h : m ≤ 255) :
    htonl (m * 16843009) = [m, m, m, m] := by
  simp only [htonl, List.cons.injEq, and_true]
  interval_cases m <;> decide

/-- C17 fails on the code: the three products `(int)p*16843009` of urftourf.c 176 are added
in `int` before the division by 3, and the sum leaves the range of `int` as soon as
`r+g+b ≥ 128`. For the gray pixel (128,128,128), whose average is 128, the 32-bit grayscale
destination gets the bytes D5 D5 D5 D6 instead of 80 80 80 80, and the pixel (43,43,43) gets
the same four bytes; (42,42,42), the last gray value below the overflow, gets 2A 2A 2A 2A. -/
theorem gray32_overflow :
    convert_and_write_pixel ⟨1, 24, 6, 3, 4⟩ true 24 32 4 [128, 128, 128]
      = [0xD5, 0xD5, 0xD5, 0xD6] ∧
    (128 + 128 + 128) / 3 = 128 ∧ htonl (128 * 16843009) = [0x80, 0x80, 0x80, 0x80] ∧
    convert_and_write_pixel ⟨1, 24, 6, 3, 4⟩ true 24 32 4 [43, 43, 43]
      = [0xD5, 0xD5, 0xD5, 0xD6] ∧
    convert_and_write_pixel ⟨1, 24, 6, 3, 4⟩ true 24 32 4 [42, 42, 42]
      = [0x2A, 0x2A, 0x2A, 0x2A] := by
  decide

/-- C18. 8-bit gray: for channels in 0..255 and a destination colorspace other than CMYK with
destination bpp 8, `convert_and_write_pixel` writes the single byte `floor((r+g+b)/3)`, which
fits a byte; a gray pixel (v,v,v) gives v. -/
theorem gray8_recode (U : unirast_h) (little_endian : Bool) (bpp dest_cspace r g b : Nat)
    (hr : r < 256) (hg : g < 256) (hb : b < 256)
    (hcs : dest_cspace ≠ U.UNIRAST_COLOR_SPACE_CMYK_32BIT_64BIT) :
    convert_and_write_pixel U little_endian bpp 8 dest_cspace [r, g, b] = [(r + g + b) / 3] ∧
    (r + g + b) / 3 < 256 ∧
    convert_and_write_pixel U little_endian bpp 8 dest_cspace [r, r, r] = [r] := by
  refine ⟨?_, by omega, ?_⟩
  · simp only [convert_and_write_pixel, ne_eq, hcs, not_false_eq_true, if_true, List.getD_cons_zero,
      List.getD_cons_succ, List.cons.injEq, and_true]
    omega
  · simp only [convert_and_write_pixel, ne_eq, hcs, not_false_eq_true, if_true, List.getD_cons_zero,
      List.getD_cons_succ, List.cons.injEq, and_true]
    omega

/-- C18 at the pixel (10,20,33) for a destination colorspace 0, the CMYK constant being 6. -/
theorem gray8_recode_witness :
    (10 < 256 ∧ 20 < 256 ∧ 33 < 256 ∧ (0 : Nat) ≠ 6) ∧
    (convert_and_write_pixel ⟨1, 24, 6, 3, 4⟩ true 24 8 0 [10, 20, 33] = [(10 + 20 + 33) / 3] ∧
      (10 + 20 + 33) / 3 < 256 ∧
      convert_and_write_pixel ⟨1, 24, 6, 3, 4⟩ true 24 8 0 [10, 10, 10] = [10]) :=
  ⟨⟨by decide, by decide, by decide, by decide⟩,
    gray8_recode ⟨1, 24, 6, 3, 4⟩ true 24 0 10 20 33 (by decide) (by decide) (by decide)
      (by decide)⟩

/-- C19. RGB: with destination bpp 24 (and a colorspace other than CMYK)
`convert_and_write_pixel` writes the 3 bytes r,g,b; with destination bpp 32 and the 32-bit RGB
colorspace it writes the 4 bytes r,g,b,0. -/
theorem rgb_recode (U : unirast_h) (little_endian : Bool) (bpp dest_cspace r g b : Nat)
    (hcs : dest_cspace ≠ U.UNIRAST_COLOR_SPACE_CMYK_32BIT_64BIT)
    (h32 : U.UNIRAST_COLOR_SPACE_SRGB_32BIT ≠ U.UNIRAST_COLOR_SPACE_CMYK_32BIT_64BIT) :
    convert_and_write_pixel U little_endian bpp 24 dest_cspace [r, g, b] = [r, g, b] ∧
    convert_and_write_pixel U little_endian bpp 32 U.UNIRAST_COLOR_SPACE_SRGB_32BIT [r, g, b]
      = [r, g, b, 0] := by
  constructor
  · simp [convert_and_write_pixel, hcs]
  · simp [convert_and_write_pixel, h32]

/-- C19 at the pixel (10,20,30), the constants of `unirast.h` taking some distinct values. -/
theorem rgb_recode_witness :
    ((1 : Nat) ≠ 6 ∧ (3 : Nat) ≠ 6) ∧
    (convert_and_write_pixel ⟨1, 24, 6, 3, 4⟩ true 24 24 1 [10, 20, 30] = [10, 20, 30] ∧
      convert_and_write_pixel ⟨1, 24, 6, 3, 4⟩ true 24 32 3 [10, 20, 30] = [10, 20, 30, 0]) :=
  ⟨⟨by decide, by decide⟩,
    rgb_recode ⟨1, 24, 6, 3, 4⟩ true 24 1 10 20 30 (by decide) (by decide)⟩

/-- C20. CMYK extremes: `rgb2cmyk32` maps (0,0,0) to (0,0,0,255) and (255,255,255) to
(0,0,0,0); `rgb2cmyk64` maps (0,0,0) to (0,0,0,65535) and (255,255,255) to (0,0,0,0). -/
theorem cmyk_extremes :
    rgb2cmyk32 [0, 0, 0] = [0, 0, 0, 255] ∧ rgb2cmyk32 [255, 255, 255] = [0, 0, 0, 0] ∧
    rgb2cmyk64 [0, 0, 0] = [0, 0, 0, 65535] ∧ rgb2cmyk64 [255, 255, 255] = [0, 0, 0, 0] := by
  refine ⟨?_, ?_, ?_, ?_⟩
  · simp [rgb2cmyk32]
  · norm_num [rgb2cmyk32, float_to_uint]
  · simp [rgb2cmyk64]
  · norm_num [rgb2cmyk64, float_to_uint]

end urftourf

/-! ## The page loop -/

namespace urftopdf

/-- One pass of the page loop of urftopdf on an accepted 32-byte page header. -/
theorem main_pages_accepted (U : unirast_h) (heap : Mem) (n page : Nat)
    (hdr rest buf : List Nat) (pdf : pdf_info) (hlen : hdr.length = 32)
    (hcs : hdr.getD 1 0 = U.UNIRAST_COLOR_SPACE_SRGB_24BIT_1)
    (hbpp : hdr.getD 0 0 = U.UNIRAST_BPP_24BIT) :
    main_pages U heap (n + 1) page (hdr ++ rest) buf pdf =
      match decode_raster rest (ntohl (hdr.drop 12)) (ntohl (hdr.drop 16)) (hdr.getD 0 0)
          (add_pdf_page pdf page (ntohl (hdr.drop 12)) (ntohl (hdr.drop 16)) (hdr.getD 0 0)
            (ntohl (hdr.drop 20)) heap) heap with
      | none => none
      | some r =>
        if r.status ≠ 0 then some ⟨1, r.fd, r.pdf⟩
        else main_pages U heap n (page + 1) r.fd hdr r.pdf := by
  have hrd : read_buf buf (hdr ++ rest) 32 = hdr := read_buf_full _ _ _ _ hlen
  have hdrop : (hdr ++ rest).drop 32 = rest := by rw [← hlen]; exact drop_append_pixel _ _
  simp only [main_pages, hrd, hdrop, hcs, ne_eq, not_true_eq_false, if_false]
  rw [← hbpp]
  simp only [not_true_eq_false, if_false]

/-- C11 fails as stated: a page header is 32 bytes long, not 36. The 34 bytes of a page
header (width 1, height 1) followed by the raster 00 80 are a complete page; and when four
more bytes stand between the header and that raster, the decoder takes the raster to begin
with them (it decodes the bytes 00 00 00 00 00 as a line and leaves 80 unread). -/
theorem page_header_size_counterexample :
    [24, 1, 0, 0, 0, 0, 0, 0, 0, 0, 0, 0, 0, 0, 0, 1, 0, 0, 0, 1, 0, 0, 0, 72, 0, 0, 0, 0,
      0, 0, 0, 0].length = 32 ∧
    (main_pages ⟨1, 24, 6, 3, 4⟩ (fun _ => 0) 1 0
        ([24, 1, 0, 0, 0, 0, 0, 0, 0, 0, 0, 0, 0, 0, 0, 1, 0, 0, 0, 1, 0, 0, 0, 72, 0, 0, 0, 0,
          0, 0, 0, 0] ++ [0, 0x80]) [] pdf_zero).map
      (fun r => (r.status, r.fd, r.pdf.images.map (fun i => (i.1, i.2.1, dump i.2.2 3))))
      = some (0, [], [(1, 1, [255, 255, 255])]) ∧
    (main_pages ⟨1, 24, 6, 3, 4⟩ (fun _ => 0) 1 0
        ([24, 1, 0, 0, 0, 0, 0, 0, 0, 0, 0, 0, 0, 0, 0, 1, 0, 0, 0, 1, 0, 0, 0, 72, 0, 0, 0, 0,
          0, 0, 0, 0] ++ [0, 0, 0, 0] ++ [0, 0x80]) [] pdf_zero).map
      (fun r => (r.status, r.fd, r.pdf.images.map (fun i => (i.1, i.2.1, dump i.2.2 3))))
      = some (0, [0x80], [(1, 1, [0, 0, 0])]) :=
  ⟨rfl, rfl, rfl⟩

/-- C11, as amended. Each page header occupies exactly 32 bytes of the input (4 single-byte
fields and 7 big-endian 32-bit fields): for an accepted header the raster body starts 32 bytes
after the start of the header, and when the raster body decodes successfully the next pass of
the page loop starts immediately after it. -/
theorem page_header_size (U : unirast_h) (heap : Mem) (n page : Nat)
    (hdr raster tail buf : List Nat) (pdf : pdf_info) (r : raster_result)
    (hlen : hdr.length = 32)
    (hcs : hdr.getD 1 0 = U.UNIRAST_COLOR_SPACE_SRGB_24BIT_1)
    (hbpp : hdr.getD 0 0 = U.UNIRAST_BPP_24BIT)
    (hdec : decode_raster raster (ntohl (hdr.drop 12)) (ntohl (hdr.drop 16)) (hdr.getD 0 0)
      (add_pdf_page pdf page (ntohl (hdr.drop 12)) (ntohl (hdr.drop 16)) (hdr.getD 0 0)
        (ntohl (hdr.drop 20)) heap) heap = some r)
    (hok : r.status = 0) (hall : r.fd = []) :
    main_pages U heap (n + 1) page (hdr ++ (raster ++ tail)) buf pdf
      = main_pages U heap n (page + 1) tail hdr r.pdf := by
  have hext := decode_raster_extend raster tail _ _ _ _ _ r hdec hok
  rw [main_pages_accepted U heap n page hdr (raster ++ tail) buf pdf hlen hcs hbpp, hext]
  simp only [ne_eq, not_true_eq_false, if_false, hall, List.nil_append]

/-- C11 (amended) at a page header of width 1 and height 1 with the raster 00 80, followed by
further bytes. -/
theorem page_header_size_witness :
    ([24, 1, 0, 0, 0, 0, 0, 0, 0, 0, 0, 0, 0, 0, 0, 1, 0, 0, 0, 1, 0, 0, 0, 72, 0, 0, 0, 0,
        0, 0, 0, 0].length = 32 ∧
      [24, 1, 0, 0, 0, 0, 0, 0, 0, 0, 0, 0, 0, 0, 0, 1, 0, 0, 0, 1, 0, 0, 0, 72, 0, 0, 0, 0,
        0, 0, 0, 0].getD 1 0 = 1 ∧
      [24, 1, 0, 0, 0, 0, 0, 0, 0, 0, 0, 0, 0, 0, 0, 1, 0, 0, 0, 1, 0, 0, 0, 72, 0, 0, 0, 0,
        0, 0, 0, 0].getD 0 0 = 24) ∧
    main_pages ⟨1, 24, 6, 3, 4⟩ (fun _ => 0) (2 + 1) 0
        ([24, 1, 0, 0, 0, 0, 0, 0, 0, 0, 0, 0, 0, 0, 0, 1, 0, 0, 0, 1, 0, 0, 0, 72, 0, 0, 0, 0,
          0, 0, 0, 0] ++ ([0, 0x80] ++ [7, 7, 7])) [] pdf_zero
      = main_pages ⟨1, 24, 6, 3, 4⟩ (fun _ => 0) 2 (0 + 1) [7, 7, 7]
        [24, 1, 0, 0, 0, 0, 0, 0, 0, 0, 0, 0, 0, 0, 0, 1, 0, 0, 0, 1, 0, 0, 0, 72, 0, 0, 0, 0,
          0, 0, 0, 0]
        (pdf_set_line (add_pdf_page pdf_zero 0 1 1 24 72 (fun _ => 0)) 0
          (memset (fun _ => 0) (0 * 3) 0xFF (3 * (1 - 0)))) :=
  ⟨⟨rfl, rfl, rfl⟩,
    page_header_size ⟨1, 24, 6, 3, 4⟩ (fun _ => 0) 2 0
      [24, 1, 0, 0, 0, 0, 0, 0, 0, 0, 0, 0, 0, 0, 0, 1, 0, 0, 0, 1, 0, 0, 0, 72, 0, 0, 0, 0,
        0, 0, 0, 0] [0, 0x80] [7, 7, 7] [] pdf_zero
      ⟨0, [], 1, pdf_set_line (add_pdf_page pdf_zero 0 1 1 24 72 (fun _ => 0)) 0
          (memset (fun _ => 0) (0 * 3) 0xFF (3 * (1 - 0))),
        memset (fun _ => 0) (0 * 3) 0xFF (3 * (1 - 0)), [(0, [255, 255, 255])]⟩
      rfl rfl rfl rfl rfl rfl⟩

/-- The value of `ntohl` on four bytes in stream order. -/
theorem ntohl_bytes (b0 b1 b2 b3 : Nat) (t : List Nat) (h0 : b0 < 256) (h1 : b1 < 256)
    (h2 : b2 < 256) (h3 : b3 < 256) :
    ntohl (b0 :: b1 :: b2 :: b3 :: t) = b0 * 2 ^ 24 + b1 * 2 ^ 16 + b2 * 2 ^ 8 + b3 := by
  simp only [ntohl, List.getD_cons_zero, List.getD_cons_succ, Nat.mod_eq_of_lt h0,
    Nat.mod_eq_of_lt h1, Nat.mod_eq_of_lt h2, Nat.mod_eq_of_lt h3]

theorem pdf_set_line_frame (info : pdf_info) (line_n : Nat) (line : Mem) :
    (pdf_set_line info line_n line).images = info.images ∧
    (pdf_set_line info line_n line).page_open = info.page_open := by
  unfold pdf_set_line; split <;> exact ⟨rfl, rfl⟩

theorem write_lines_frame (line : Mem) (k : Nat) :
    ∀ (cur_line : Nat) (pdf : pdf_info),
      (write_lines line k cur_line pdf).1.images = pdf.images ∧
      (write_lines line k cur_line pdf).1.page_open = pdf.page_open := by
  induction k with
  | zero => intro cur_line pdf; exact ⟨rfl, rfl⟩
  | succ k ih =>
    intro cur_line pdf
    simp only [write_lines]
    obtain ⟨h1, h2⟩ := ih (cur_line + 1) (pdf_set_line pdf cur_line line)
    obtain ⟨h3, h4⟩ := pdf_set_line_frame pdf cur_line line
    exact ⟨by rw [h1, h3], by rw [h2, h4]⟩

/-- The decoder touches neither the finished pages nor the page pointer. -/
theorem line_loop_frame (pixel_size width height : Nat) (fuel : Nat) :
    ∀ (fd : List Nat) (line : Mem) (cur_line : Nat) (pdf : pdf_info)
      (lines : List (Nat × List Nat)) res,
      line_loop pixel_size width height fuel fd line cur_line pdf lines = some res →
      res.pdf.images = pdf.images ∧ res.pdf.page_open = pdf.page_open := by
  induction fuel with
  | zero => intro fd line cur_line pdf lines res h; simp [line_loop] at h
  | succ fuel ih =>
    intro fd line cur_line pdf lines res h
    cases fd with
    | nil =>
      rw [line_loop_nil] at h
      simp only [Option.some.injEq] at h
      subst h
      exact ⟨rfl, rfl⟩
    | cons b fd1 =>
      obtain ⟨o, ho⟩ := run_loop_total pixel_size width (fd1.length + 1) fd1 line 0 (by omega)
      cases o with
      | eof =>
        rw [line_loop_eof _ _ _ _ _ _ _ _ _ _ ho] at h
        simp only [Option.some.injEq] at h
        subst h
        exact ⟨rfl, rfl⟩
      | ok q =>
        obtain ⟨fd2, line1, p⟩ := q
        rw [line_loop_ok _ _ _ _ _ _ _ _ _ _ _ _ _ ho] at h
        obtain ⟨hf1, hf2⟩ := write_lines_frame line1 (b % 256 + 1) cur_line pdf
        by_cases hc : cur_line + (b % 256 + 1) < height
        · simp only [hc, if_true] at h
          obtain ⟨h1, h2⟩ := ih _ _ _ _ _ _ h
          exact ⟨by rw [h1, hf1], by rw [h2, hf2]⟩
        · simp only [hc, if_false, Option.some.injEq] at h
          subst h
          exact ⟨hf1, hf2⟩

/-- A successful run of the page loop over `n` pages adds `n` pages to the document. -/
theorem main_pages_images (U : unirast_h) (heap : Mem) (n : Nat) :
    ∀ (page : Nat) (fd buf : List Nat) (pdf : pdf_info) (res : main_result),
      main_pages U heap n page fd buf pdf = some res → res.status = 0 →
      res.pdf.images.length = pdf.images.length + (if pdf.page_open then 1 else 0) + n := by
  induction n with
  | zero =>
    intro page fd buf pdf res h h0
    simp only [main_pages, Option.some.injEq] at h
    subst h
    simp only [close_pdf_file]
    split <;> simp
  | succ n ih =>
    intro page fd buf pdf res h h0
    simp only [main_pages] at h
    split at h
    · simp only [Option.some.injEq] at h
      subst h
      simp at h0
    · split at h
      · simp only [Option.some.injEq] at h
        subst h
        simp at h0
      · split at h
        · cases h
        · rename_i r hr
          split at h
          · simp only [Option.some.injEq] at h
            subst h
            simp at h0
          · have := ih _ _ _ _ _ h h0
            obtain ⟨h1, h2⟩ := line_loop_frame _ _ _ _ _ _ _ _ _ _ hr
            rw [this, h1, h2]
            simp only [add_pdf_page, if_true]
            split <;> simp <;> omega

/-- The program urftopdf on an accepted 12-byte file header. -/
theorem main_accepted (U : unirast_h) (hdr rest : List Nat) (mem : uninit_mem)
    (hlen : hdr.length = 12) (hm : hdr.take 7 = [85, 78, 73, 82, 65, 83, 84]) :
    main U (hdr ++ rest) mem =
      main_pages U mem.heap (ntohl (hdr.drop 8)) 0 rest mem.page_header_orig
        (create_pdf_file pdf_zero (ntohl (hdr.drop 8))) := by
  have hrd : read_buf mem.head_orig (hdr ++ rest) 12 = hdr := read_buf_full _ _ _ _ hlen
  have hdrop : (hdr ++ rest).drop 12 = rest := by rw [← hlen]; exact drop_append_pixel _ _
  have hmo : magic_ok hdr = true := (magic_ok_iff hdr hlen).mpr hm
  simp only [main, hrd, hdrop, hmo, if_true]

theorem list_length_4 (l : List Nat) (h : l.length = 4) :
    ∃ a0 a1 a2 a3, l = [a0, a1, a2, a3] := by
  match l, h with
  | [a0, a1, a2, a3], _ => exact ⟨a0, a1, a2, a3, rfl⟩

theorem list_length_8 (l : List Nat) (h : l.length = 8) :
    ∃ a0 a1 a2 a3 a4 a5 a6 a7, l = [a0, a1, a2, a3, a4, a5, a6, a7] := by
  match l, h with
  | [a0, a1, a2, a3, a4, a5, a6, a7], _ => exact ⟨a0, a1, a2, a3, a4, a5, a6, a7, rfl⟩

theorem pdf_set_line_page_size (info : pdf_info) (line_n : Nat) (line : Mem) :
    (pdf_set_line info line_n line).width = info.width ∧
    (pdf_set_line info line_n line).page_width = info.page_width ∧
    (pdf_set_line info line_n line).page_height = info.page_height := by
  unfold pdf_set_line; split <;> exact ⟨rfl, rfl, rfl⟩

theorem write_lines_page_size (line : Mem) (k : Nat) :
    ∀ (cur_line : Nat) (pdf : pdf_info),
      (write_lines line k cur_line pdf).1.width = pdf.width ∧
      (write_lines line k cur_line pdf).1.page_width = pdf.page_width ∧
      (write_lines line k cur_line pdf).1.page_height = pdf.page_height := by
  induction k with
  | zero => intro cur_line pdf; exact ⟨rfl, rfl, rfl⟩
  | succ k ih =>
    intro cur_line pdf
    simp only [write_lines]
    obtain ⟨h1, h2, h3⟩ := ih (cur_line + 1) (pdf_set_line pdf cur_line line)
    obtain ⟨h4, h5, h6⟩ := pdf_set_line_page_size pdf cur_line line
    exact ⟨by rw [h1, h4], by rw [h2, h5], by rw [h3, h6]⟩

/-- The decoder leaves the dimensions of the page and the size of the page object as
`add_pdf_page` set them. -/
theorem line_loop_page_size (pixel_size width height : Nat) (fuel : Nat) :
    ∀ (fd : List Nat) (line : Mem) (cur_line : Nat) (pdf : pdf_info)
      (lines : List (Nat × List Nat)) res,
      line_loop pixel_size width height fuel fd line cur_line pdf lines = some res →
      res.pdf.width = pdf.width ∧ res.pdf.height = pdf.height ∧
      res.pdf.page_width = pdf.page_width ∧ res.pdf.page_height = pdf.page_height := by
  induction fuel with
  | zero => intro fd line cur_line pdf lines res h; simp [line_loop] at h
  | succ fuel ih =>
    intro fd line cur_line pdf lines res h
    cases fd with
    | nil =>
      rw [line_loop_nil] at h
      simp only [Option.some.injEq] at h
      subst h
      exact ⟨rfl, rfl, rfl, rfl⟩
    | cons b fd1 =>
      obtain ⟨o, ho⟩ := run_loop_total pixel_size width (fd1.length + 1) fd1 line 0 (by omega)
      cases o with
      | eof =>
        rw [line_loop_eof _ _ _ _ _ _ _ _ _ _ ho] at h
        simp only [Option.some.injEq] at h
        subst h
        exact ⟨rfl, rfl, rfl, rfl⟩
      | ok q =>
        obtain ⟨fd2, line1, p⟩ := q
        rw [line_loop_ok _ _ _ _ _ _ _ _ _ _ _ _ _ ho] at h
        obtain ⟨hf1, hf3, hf4⟩ := write_lines_page_size line1 (b % 256 + 1) cur_line pdf
        have hf2 := (write_lines_fields line1 (b % 256 + 1) cur_line pdf).1
        by_cases hc : cur_line + (b % 256 + 1) < height
        · simp only [hc, if_true] at h
          obtain ⟨h1, h2, h3, h4⟩ := ih _ _ _ _ _ _ h
          exact ⟨by rw [h1, hf1], by rw [h2, hf2], by rw [h3, hf3], by rw [h4, hf4]⟩
        · simp only [hc, if_false, Option.some.injEq] at h
          subst h
          exact ⟨hf1, hf2, hf3, hf4⟩

/-- C12. Big-endian header fields. For a file header made of an accepted 8-byte magic and
the four bytes `c0 c1 c2 c3`, the page loop runs with the page count
`c0*2^24 + c1*2^16 + c2*2^8 + c3`, and a successful run has added exactly that many pages.
For an accepted page header whose bytes 12..23 are `w0..w3 h0..h3 d0..d3`, the page is
allocated and the raster decoded with width, height and dots per inch equal to
`b0*2^24 + b1*2^16 + b2*2^8 + b3` of the respective four bytes in stream order: after the
raster the page has that width and height, and the page object has the size
`width / dpi * 72` by `height / dpi * 72` points for that value of dots per inch. -/
theorem big_endian_fields (U : unirast_h) (mem : uninit_mem) (n page : Nat)
    (magic rest f4 u01 u23 raster buf : List Nat)
    (c0 c1 c2 c3 w0 w1 w2 w3 h0 h1 h2 h3 d0 d1 d2 d3 : Nat) (pdf : pdf_info)
    (hmagic : magic.length = 8) (hm : magic.take 7 = [85, 78, 73, 82, 65, 83, 84])
    (hc : c0 < 256 ∧ c1 < 256 ∧ c2 < 256 ∧ c3 < 256)
    (hf4 : f4.length = 4) (hcs : f4.getD 1 0 = U.UNIRAST_COLOR_SPACE_SRGB_24BIT_1)
    (hbpp : f4.getD 0 0 = U.UNIRAST_BPP_24BIT)
    (hu01 : u01.length = 8) (hu23 : u23.length = 8)
    (hw : w0 < 256 ∧ w1 < 256 ∧ w2 < 256 ∧ w3 < 256)
    (hh : h0 < 256 ∧ h1 < 256 ∧ h2 < 256 ∧ h3 < 256)
    (hd : d0 < 256 ∧ d1 < 256 ∧ d2 < 256 ∧ d3 < 256) :
    main U (magic ++ [c0, c1, c2, c3] ++ rest) mem =
      main_pages U mem.heap (c0 * 2 ^ 24 + c1 * 2 ^ 16 + c2 * 2 ^ 8 + c3) 0 rest
        mem.page_header_orig
        (create_pdf_file pdf_zero (c0 * 2 ^ 24 + c1 * 2 ^ 16 + c2 * 2 ^ 8 + c3)) ∧
    (∀ res, main U (magic ++ [c0, c1, c2, c3] ++ rest) mem = some res → res.status = 0 →
      res.pdf.images.length = c0 * 2 ^ 24 + c1 * 2 ^ 16 + c2 * 2 ^ 8 + c3) ∧
    main_pages U mem.heap (n + 1) page
        (f4 ++ u01 ++ [w0, w1, w2, w3, h0, h1, h2, h3, d0, d1, d2, d3] ++ u23 ++ raster) buf pdf =
      (match decode_raster raster (w0 * 2 ^ 24 + w1 * 2 ^ 16 + w2 * 2 ^ 8 + w3)
          (h0 * 2 ^ 24 + h1 * 2 ^ 16 + h2 * 2 ^ 8 + h3) (f4.getD 0 0)
          (add_pdf_page pdf page (w0 * 2 ^ 24 + w1 * 2 ^ 16 + w2 * 2 ^ 8 + w3)
            (h0 * 2 ^ 24 + h1 * 2 ^ 16 + h2 * 2 ^ 8 + h3) (f4.getD 0 0)
            (d0 * 2 ^ 24 + d1 * 2 ^ 16 + d2 * 2 ^ 8 + d3) mem.heap) mem.heap with
      | none => none
      | some r =>
        if r.status ≠ 0 then some ⟨1, r.fd, r.pdf⟩
        else main_pages U mem.heap n (page + 1) r.fd
          (f4 ++ u01 ++ [w0, w1, w2, w3, h0, h1, h2, h3, d0, d1, d2, d3] ++ u23) r.pdf) ∧
    (∀ r, decode_raster raster (w0 * 2 ^ 24 + w1 * 2 ^ 16 + w2 * 2 ^ 8 + w3)
        (h0 * 2 ^ 24 + h1 * 2 ^ 16 + h2 * 2 ^ 8 + h3) (f4.getD 0 0)
        (add_pdf_page pdf page (w0 * 2 ^ 24 + w1 * 2 ^ 16 + w2 * 2 ^ 8 + w3)
          (h0 * 2 ^ 24 + h1 * 2 ^ 16 + h2 * 2 ^ 8 + h3) (f4.getD 0 0)
          (d0 * 2 ^ 24 + d1 * 2 ^ 16 + d2 * 2 ^ 8 + d3) mem.heap) mem.heap = some r →
      r.pdf.width = w0 * 2 ^ 24 + w1 * 2 ^ 16 + w2 * 2 ^ 8 + w3 ∧
      r.pdf.height = h0 * 2 ^ 24 + h1 * 2 ^ 16 + h2 * 2 ^ 8 + h3 ∧
      r.pdf.page_width = ((w0 * 2 ^ 24 + w1 * 2 ^ 16 + w2 * 2 ^ 8 + w3 : Nat) : ℚ)
        / ((d0 * 2 ^ 24 + d1 * 2 ^ 16 + d2 * 2 ^ 8 + d3 : Nat) : ℚ) * 72 ∧
      r.pdf.page_height = ((h0 * 2 ^ 24 + h1 * 2 ^ 16 + h2 * 2 ^ 8 + h3 : Nat) : ℚ)
        / ((d0 * 2 ^ 24 + d1 * 2 ^ 16 + d2 * 2 ^ 8 + d3 : Nat) : ℚ) * 72) := by
  have hfile : main U (magic ++ [c0, c1, c2, c3] ++ rest) mem =
      main_pages U mem.heap (c0 * 2 ^ 24 + c1 * 2 ^ 16 + c2 * 2 ^ 8 + c3) 0 rest
        mem.page_header_orig
        (create_pdf_file pdf_zero (c0 * 2 ^ 24 + c1 * 2 ^ 16 + c2 * 2 ^ 8 + c3)) := by
    have hl : (magic ++ [c0, c1, c2, c3]).length = 12 := by
      rw [List.length_append, hmagic]; rfl
    have ht : (magic ++ [c0, c1, c2, c3]).take 7 = [85, 78, 73, 82, 65, 83, 84] := by
      rw [List.take_append_of_le_length (by omega), hm]
    have hdr : (magic ++ [c0, c1, c2, c3]).drop 8 = [c0, c1, c2, c3] := by
      rw [← hmagic]; exact drop_append_pixel _ _
    rw [main_accepted U _ rest mem hl ht, hdr, ntohl_bytes c0 c1 c2 c3 [] hc.1 hc.2.1 hc.2.2.1
      hc.2.2.2]
  refine ⟨hfile, ?_, ?_, ?_⟩
  · intro res hres h0
    rw [hfile] at hres
    have := main_pages_images U mem.heap _ _ _ _ _ _ hres h0
    rw [this]
    simp [create_pdf_file, pdf_zero]
  · obtain ⟨a0, a1, a2, a3, rfl⟩ := list_length_4 f4 hf4
    obtain ⟨x0, x1, x2, x3, x4, x5, x6, x7, rfl⟩ := list_length_8 u01 hu01
    have hl : ([a0, a1, a2, a3] ++ [x0, x1, x2, x3, x4, x5, x6, x7]
        ++ [w0, w1, w2, w3, h0, h1, h2, h3, d0, d1, d2, d3] ++ u23).length = 32 := by
      simp only [List.length_append, List.length_cons, List.length_nil, hu23]
    rw [main_pages_accepted U mem.heap n page _ raster buf pdf hl hcs hbpp]
    have e12 : ([a0, a1, a2, a3] ++ [x0, x1, x2, x3, x4, x5, x6, x7]
        ++ [w0, w1, w2, w3, h0, h1, h2, h3, d0, d1, d2, d3] ++ u23).drop 12
        = w0 :: w1 :: w2 :: w3 :: ([h0, h1, h2, h3, d0, d1, d2, d3] ++ u23) := rfl
    have e16 : ([a0, a1, a2, a3] ++ [x0, x1, x2, x3, x4, x5, x6, x7]
        ++ [w0, w1, w2, w3, h0, h1, h2, h3, d0, d1, d2, d3] ++ u23).drop 16
        = h0 :: h1 :: h2 :: h3 :: ([d0, d1, d2, d3] ++ u23) := rfl
    have e20 : ([a0, a1, a2, a3] ++ [x0, x1, x2, x3, x4, x5, x6, x7]
        ++ [w0, w1, w2, w3, h0, h1, h2, h3, d0, d1, d2, d3] ++ u23).drop 20
        = d0 :: d1 :: d2 :: d3 :: u23 := rfl
    rw [e12, e16, e20, ntohl_bytes w0 w1 w2 w3 _ hw.1 hw.2.1 hw.2.2.1 hw.2.2.2,
      ntohl_bytes h0 h1 h2 h3 _ hh.1 hh.2.1 hh.2.2.1 hh.2.2.2,
      ntohl_bytes d0 d1 d2 d3 _ hd.1 hd.2.1 hd.2.2.1 hd.2.2.2]
    rfl
  · intro r hr
    unfold decode_raster at hr
    obtain ⟨g1, g2, g3, g4⟩ := line_loop_page_size _ _ _ _ _ _ _ _ _ _ hr
    refine ⟨g1, g2, ?_, ?_⟩
    · rw [g3]
      simp only [add_pdf_page, DEFAULT_PDF_DPI, Nat.cast_ofNat]
    · rw [g4]
      simp only [add_pdf_page, DEFAULT_PDF_DPI, Nat.cast_ofNat]

/-- C12 at a file header with page count 1 and a page header with width 258, height 1 and
300 dots per inch: the page object is 61.92 by 0.24 points. -/
theorem big_endian_fields_witness :
    ([85, 78, 73, 82, 65, 83, 84, 0].length = 8 ∧
      [85, 78, 73, 82, 65, 83, 84, 0].take 7 = [85, 78, 73, 82, 65, 83, 84] ∧
      [24, 1, 0, 0].length = 4 ∧ [24, 1, 0, 0].getD 1 0 = 1 ∧ [24, 1, 0, 0].getD 0 0 = 24 ∧
      [0, 0, 0, 0, 0, 0, 0, 0].length = 8) ∧
    main ⟨1, 24, 6, 3, 4⟩ ([85, 78, 73, 82, 65, 83, 84, 0] ++ [0, 0, 0, 1] ++ [9])
        ⟨[], [], fun _ => 0⟩ =
      main_pages ⟨1, 24, 6, 3, 4⟩ (fun _ => 0) 1 0 [9] [] (create_pdf_file pdf_zero 1) ∧
    main_pages ⟨1, 24, 6, 3, 4⟩ (fun _ => 0) (0 + 1) 0
        ([24, 1, 0, 0] ++ [0, 0, 0, 0, 0, 0, 0, 0] ++ [0, 0, 1, 2, 0, 0, 0, 1, 0, 0, 1, 44]
          ++ [0, 0, 0, 0, 0, 0, 0, 0] ++ [0, 0x80]) [] pdf_zero =
      (match decode_raster [0, 0x80] 258 1 24
          (add_pdf_page pdf_zero 0 258 1 24 300 (fun _ => 0)) (fun _ => 0) with
      | none => none
      | some r =>
        if r.status ≠ 0 then some ⟨1, r.fd, r.pdf⟩
        else main_pages ⟨1, 24, 6, 3, 4⟩ (fun _ => 0) 0 (0 + 1) r.fd
          ([24, 1, 0, 0] ++ [0, 0, 0, 0, 0, 0, 0, 0] ++ [0, 0, 1, 2, 0, 0, 0, 1, 0, 0, 1, 44]
            ++ [0, 0, 0, 0, 0, 0, 0, 0]) r.pdf) ∧
    ∃ r, decode_raster [0, 0x80] 258 1 24
        (add_pdf_page pdf_zero 0 258 1 24 300 (fun _ => 0)) (fun _ => 0) = some r ∧
      r.pdf.width = 258 ∧ r.pdf.height = 1 ∧
      r.pdf.page_width = 1548 / 25 ∧ r.pdf.page_height = 6 / 25 := by
  have h := big_endian_fields ⟨1, 24, 6, 3, 4⟩ ⟨[], [], fun _ => 0⟩ 0 0
    [85, 78, 73, 82, 65, 83, 84, 0] [9] [24, 1, 0, 0] [0, 0, 0, 0, 0, 0, 0, 0]
    [0, 0, 0, 0, 0, 0, 0, 0] [0, 0x80] []
    0 0 0 1 0 0 1 2 0 0 0 1 0 0 1 44 pdf_zero rfl rfl (by decide) rfl rfl rfl rfl rfl
    (by decide) (by decide) (by decide)
  obtain ⟨h1, _, h3, h4⟩ := h
  refine ⟨⟨rfl, rfl, rfl, rfl, rfl, rfl⟩, h1, h3, ?_⟩
  obtain ⟨r, hr⟩ := decode_raster_total [0, 0x80] 258 1 24
    (add_pdf_page pdf_zero 0 258 1 24 300 (fun _ => 0)) (fun _ => 0)
  obtain ⟨g1, g2, g3, g4⟩ := h4 r hr
  refine ⟨r, hr, g1, g2, ?_, ?_⟩
  · rw [g3]; norm_num
  · rw [g4]; norm_num

end urftopdf

/-- C13 fails on the code: the header reads only test for `read(...) == -1`, so a short read
goes unnoticed and the bytes not supplied are taken from what the buffer held before. A file
that announces 2 pages and ends after the first one: at the second page no header byte is
left, the header of the first page is validated again, urftopdf allocates a second page and
urftourf writes a second page header to the destination, and only then the raster decoder
fails. An input of just the 7 bytes "UNIRAST" (the rest of the stack buffer being zero) is
accepted as a file with 0 pages, exit status 0. -/
theorem truncated_header_not_detected :
    (urftopdf.main ⟨1, 24, 6, 3, 4⟩
        ([85, 78, 73, 82, 65, 83, 84, 0, 0, 0, 0, 2] ++ [24, 1, 0, 0, 0, 0, 0, 0, 0, 0, 0, 0, 0, 0, 0, 1, 0, 0, 0, 1, 0, 0, 0, 72, 0, 0, 0, 0,
          0, 0, 0, 0] ++ [0, 0x80])
        ⟨[], [], fun _ => 0⟩).map
      (fun r => (r.status, r.fd, r.pdf.images.length, r.pdf.page_open))
      = some (1, [], 1, true) ∧
    urftourf.main ⟨1, 24, 6, 3, 4⟩ (urftourf.convert_and_write_pixel ⟨1, 24, 6, 3, 4⟩ true) 0 8
        ([85, 78, 73, 82, 65, 83, 84, 0, 0, 0, 0, 2] ++ [24, 1, 0, 0, 0, 0, 0, 0, 0, 0, 0, 0, 0, 0, 0, 1, 0, 0, 0, 1, 0, 0, 0, 72, 0, 0, 0, 0,
          0, 0, 0, 0] ++ [0, 0x80])
        ⟨[], [], fun _ => 0⟩
      = some ⟨1, [],
        [85, 78, 73, 82, 65, 83, 84, 0, 0, 0, 0, 2] ++ [8, 0, 0, 0, 0, 0, 0, 0, 0, 0, 0, 0, 0, 0, 0, 1, 0, 0, 0, 1, 0, 0, 0, 72, 0, 0, 0, 0,
          0, 0, 0, 0] ++ [0, 0x80] ++ [8, 0, 0, 0, 0, 0, 0, 0, 0, 0, 0, 0, 0, 0, 0, 1, 0, 0, 0, 1, 0, 0, 0, 72, 0, 0, 0, 0,
          0, 0, 0, 0]⟩ ∧
    (urftopdf.main ⟨1, 24, 6, 3, 4⟩ [85, 78, 73, 82, 65, 83, 84]
        ⟨[0, 0, 0, 0, 0, 0, 0, 0, 0, 0, 0, 0], [], fun _ => 0⟩).map
      (fun r => (r.status, r.fd, r.pdf.images.length)) = some (0, [], 0) ∧
    urftourf.main ⟨1, 24, 6, 3, 4⟩ (urftourf.convert_and_write_pixel ⟨1, 24, 6, 3, 4⟩ true) 0 8
        [85, 78, 73, 82, 65, 83, 84] ⟨[0, 0, 0, 0, 0, 0, 0, 0, 0, 0, 0, 0], [], fun _ => 0⟩
      = some ⟨0, [], [85, 78, 73, 82, 65, 83, 84, 0, 0, 0, 0, 0]⟩ :=
  ⟨rfl, rfl, rfl, rfl⟩

namespace urftourf

/-- One pass of the page loop of urftourf on an accepted 32-byte page header. -/
theorem recode_pages_accepted (U : unirast_h) (cw : Nat → Nat → Nat → List Nat → List Nat)
    (dest_cspace dest_bpp : Nat) (heap : Mem) (n : Nat) (hdr rest buf out : List Nat)
    (hlen : hdr.length = 32)
    (hcs : hdr.getD 1 0 = U.UNIRAST_COLOR_SPACE_SRGB_24BIT_1)
    (hbpp : hdr.getD 0 0 = U.UNIRAST_BPP_24BIT) :
    main_pages U cw dest_cspace dest_bpp heap (n + 1) (hdr ++ rest) buf out =
      match decode_raster cw rest (ntohl (hdr.drop 12)) (ntohl (hdr.drop 16)) (hdr.getD 0 0)
          (dest_bpp % 256) (dest_cspace % 256) heap with
      | none => none
      | some r =>
        if r.status ≠ 0 then
          some ⟨1, r.fd, out ++ ((dest_bpp % 256) :: (dest_cspace % 256) :: hdr.drop 2) ++ r.out⟩
        else
          main_pages U cw dest_cspace dest_bpp heap n r.fd hdr
            (out ++ ((dest_bpp % 256) :: (dest_cspace % 256) :: hdr.drop 2) ++ r.out) := by
  have hrd : read_buf buf (hdr ++ rest) 32 = hdr := read_buf_full _ _ _ _ hlen
  have hdrop : (hdr ++ rest).drop 32 = rest := by rw [← hlen]; exact drop_append_pixel _ _
  simp only [main_pages, hrd, hdrop, hcs, ne_eq, not_true_eq_false, if_false]
  rw [← hbpp]
  simp only [not_true_eq_false, if_false]

/-- Exit status and unread input of the page loop of urftourf do not depend on the requested
destination nor on the pixel recoder. -/
theorem recode_pages_dest_indep (U : unirast_h)
    (cw1 cw2 : Nat → Nat → Nat → List Nat → List Nat) (c1 b1 c2 b2 : Nat) (heap : Mem)
    (n : Nat) :
    ∀ (fd buf out1 out2 : List Nat),
      (main_pages U cw1 c1 b1 heap n fd buf out1).map (fun r => (r.status, r.fd))
        = (main_pages U cw2 c2 b2 heap n fd buf out2).map (fun r => (r.status, r.fd)) := by
  induction n with
  | zero => intro fd buf out1 out2; rfl
  | succ n ih =>
    intro fd buf out1 out2
    simp only [main_pages]
    split
    · rfl
    · split
      · rfl
      · obtain ⟨r1, hr1⟩ := recode_raster_total cw1 (fd.drop 32)
          (ntohl ((read_buf buf fd 32).drop 12)) (ntohl ((read_buf buf fd 32).drop 16))
          ((read_buf buf fd 32).getD 0 0) (b1 % 256) (c1 % 256) heap
        obtain ⟨r2, hr2⟩ := recode_raster_total cw2 (fd.drop 32)
          (ntohl ((read_buf buf fd 32).drop 12)) (ntohl ((read_buf buf fd 32).drop 16))
          ((read_buf buf fd 32).getD 0 0) (b2 % 256) (c2 % 256) heap
        have a1 := decode_raster_agrees cw1 (fd.drop 32)
          (ntohl ((read_buf buf fd 32).drop 12)) (ntohl ((read_buf buf fd 32).drop 16))
          ((read_buf buf fd 32).getD 0 0) (b1 % 256) (c1 % 256) urftopdf.pdf_zero heap
        have a2 := decode_raster_agrees cw2 (fd.drop 32)
          (ntohl ((read_buf buf fd 32).drop 12)) (ntohl ((read_buf buf fd 32).drop 16))
          ((read_buf buf fd 32).getD 0 0) (b2 % 256) (c2 % 256) urftopdf.pdf_zero heap
        rw [← a2, hr1, hr2] at a1
        simp only [Option.map_some', Option.some.injEq, Prod.mk.injEq] at a1
        obtain ⟨hs, hf, _⟩ := a1
        simp only [hr1, hr2, hs, hf]
        split
        · rfl
        · exact ih _ _ _ _

/-- C15 fails as stated: with the destination bpp 16 (no supported combination has 16 bits)
urftourf decodes a one-page file to the end and returns 0; the pixel of the raster
00 00 0A 14 1E is dropped from the output, the control bytes are copied. -/
theorem recode_destination_counterexample :
    urftourf.main ⟨1, 24, 6, 3, 4⟩ (convert_and_write_pixel ⟨1, 24, 6, 3, 4⟩ true) 1 16
        ([85, 78, 73, 82, 65, 83, 84, 0, 0, 0, 0, 1] ++ [24, 1, 0, 0, 0, 0, 0, 0, 0, 0, 0, 0, 0, 0, 0, 1, 0, 0, 0, 1, 0, 0, 0, 72, 0, 0, 0, 0,
          0, 0, 0, 0] ++ [0, 0, 10, 20, 30])
        ⟨[], [], fun _ => 0⟩
      = some ⟨0, [],
        [85, 78, 73, 82, 65, 83, 84, 0, 0, 0, 0, 1] ++ [16, 1, 0, 0, 0, 0, 0, 0, 0, 0, 0, 0, 0, 0, 0, 1, 0, 0, 0, 1, 0, 0, 0, 72, 0, 0, 0, 0,
          0, 0, 0, 0] ++ [0, 0]⟩ :=
  rfl

/-- C15, as amended. urftourf does not check the requested destination: exit status and
consumed input of a run are the same for every requested (colorspace, bpp) pair. For a pair
that `convert_and_write_pixel` does not handle (bpp other than 8, 24, 32, 64; bpp 32 with a
colorspace that is none of CMYK, 32-bit RGB, 32-bit gray; bpp 64 without CMYK; bpp 8 or 24
with CMYK) no byte is written for any pixel. -/
theorem recode_destination_unchecked (U : unirast_h) (little_endian : Bool)
    (c1 b1 c2 b2 : Nat) (input : List Nat) (mem : uninit_mem) :
    (main U (convert_and_write_pixel U little_endian) c1 b1 input mem).map
        (fun r => (r.status, r.fd))
      = (main U (convert_and_write_pixel U little_endian) c2 b2 input mem).map
        (fun r => (r.status, r.fd)) ∧
    (∀ bpp db dc px, db ≠ 8 → db ≠ 24 → db ≠ 32 → db ≠ 64 →
      convert_and_write_pixel U little_endian bpp db dc px = []) ∧
    (∀ bpp dc px, dc ≠ U.UNIRAST_COLOR_SPACE_CMYK_32BIT_64BIT →
      dc ≠ U.UNIRAST_COLOR_SPACE_SRGB_32BIT → dc ≠ U.UNIRAST_COLOR_SPACE_GRAYSCALE_32BIT →
      convert_and_write_pixel U little_endian bpp 32 dc px = []) ∧
    (∀ bpp dc px, dc ≠ U.UNIRAST_COLOR_SPACE_CMYK_32BIT_64BIT →
      convert_and_write_pixel U little_endian bpp 64 dc px = []) ∧
    (∀ bpp db px, db = 8 ∨ db = 24 →
      convert_and_write_pixel U little_endian bpp db U.UNIRAST_COLOR_SPACE_CMYK_32BIT_64BIT px
        = []) := by
  refine ⟨?_, ?_, ?_, ?_, ?_⟩
  · simp only [main]
    split
    · exact recode_pages_dest_indep U _ _ c1 b1 c2 b2 mem.heap _ _ _ _ _
    · rfl
  · intro bpp db dc px h8 h24 h32 h64
    simp only [convert_and_write_pixel, h8, h24, h32, h64, if_false, ite_self]
  · intro bpp dc px h1 h2 h3
    simp [convert_and_write_pixel, h1, h2, h3]
  · intro bpp dc px h1
    simp [convert_and_write_pixel, h1]
  · intro bpp db px h
    rcases h with h | h <;> subst h <;> simp [convert_and_write_pixel]

/-- C16 fails as stated: the reserved fields are copied from the input header. With the
requested destination (colorspace 0, bpp 8), the header with reserved bytes 1..8 and 9..16 is
written with these bytes unchanged. -/
theorem recoded_page_header_counterexample :
    main_pages ⟨1, 24, 6, 3, 4⟩ (convert_and_write_pixel ⟨1, 24, 6, 3, 4⟩ true) 0 8 (fun _ => 0) 1
        ([24, 1, 2, 3, 1, 2, 3, 4, 5, 6, 7, 8, 0, 0, 0, 1, 0, 0, 0, 1, 0, 0, 0, 72, 9, 10, 11,
          12, 13, 14, 15, 16] ++ [0, 0x80]) [] []
      = some ⟨0, [],
        [8, 0, 2, 3, 1, 2, 3, 4, 5, 6, 7, 8, 0, 0, 0, 1, 0, 0, 0, 1, 0, 0, 0, 72, 9, 10, 11,
          12, 13, 14, 15, 16] ++ [0, 0x80]⟩ :=
  rfl

/-- C16, as amended. For an accepted 32-byte input page header, the page header written by
urftourf has its bpp and colorspace bytes equal to the requested destination values (as
`uint8_t`, i.e. modulo 256) and its other 30 bytes — duplex, quality, the four reserved
fields, width, height and dots per inch — identical to the input. -/
theorem recoded_page_header (U : unirast_h) (cw : Nat → Nat → Nat → List Nat → List Nat)
    (dest_cspace dest_bpp : Nat) (heap : Mem) (n : Nat) (hdr rest buf out : List Nat)
    (hlen : hdr.length = 32)
    (hcs : hdr.getD 1 0 = U.UNIRAST_COLOR_SPACE_SRGB_24BIT_1)
    (hbpp : hdr.getD 0 0 = U.UNIRAST_BPP_24BIT) :
    ∃ written r,
      decode_raster cw rest (ntohl (hdr.drop 12)) (ntohl (hdr.drop 16)) (hdr.getD 0 0)
        (dest_bpp % 256) (dest_cspace % 256) heap = some r ∧
      main_pages U cw dest_cspace dest_bpp heap (n + 1) (hdr ++ rest) buf out =
        (if r.status ≠ 0 then some ⟨1, r.fd, out ++ written ++ r.out⟩
        else main_pages U cw dest_cspace dest_bpp heap n r.fd hdr (out ++ written ++ r.out)) ∧
      written.length = 32 ∧
      written.getD 0 0 = dest_bpp % 256 ∧ written.getD 1 0 = dest_cspace % 256 ∧
      (dest_bpp < 256 → written.getD 0 0 = dest_bpp) ∧
      (dest_cspace < 256 → written.getD 1 0 = dest_cspace) ∧
      (∀ i, 2 ≤ i → written.getD i 0 = hdr.getD i 0) := by
  obtain ⟨r, hr⟩ := recode_raster_total cw rest (ntohl (hdr.drop 12)) (ntohl (hdr.drop 16))
    (hdr.getD 0 0) (dest_bpp % 256) (dest_cspace % 256) heap
  refine ⟨(dest_bpp % 256) :: (dest_cspace % 256) :: hdr.drop 2, r, hr, ?_, ?_, rfl, rfl,
    fun h => Nat.mod_eq_of_lt h, fun h => Nat.mod_eq_of_lt h, ?_⟩
  · rw [recode_pages_accepted U cw dest_cspace dest_bpp heap n hdr rest buf out hlen hcs hbpp,
      hr]
  · simp only [List.length_cons, List.length_drop, hlen]
  · intro i hi
    obtain ⟨j, rfl⟩ : ∃ j, i = j + 2 := ⟨i - 2, by omega⟩
    rw [show j + 2 = (j + 1) + 1 from rfl, List.getD_cons_succ, List.getD_cons_succ,
      List.getD_eq_getElem?_getD, List.getD_eq_getElem?_getD, List.getElem?_drop,
      Nat.add_comm 2 j]

/-- C16 (amended) at a header with non-zero reserved bytes and the destination (colorspace 0,
bpp 8). -/
theorem recoded_page_header_witness :
    ([24, 1, 2, 3, 1, 2, 3, 4, 5, 6, 7, 8, 0, 0, 0, 1, 0, 0, 0, 1, 0, 0, 0, 72, 9, 10, 11,
          12, 13, 14, 15, 16].length = 32 ∧
      [24, 1, 2, 3, 1, 2, 3, 4, 5, 6, 7, 8, 0, 0, 0, 1, 0, 0, 0, 1, 0, 0, 0, 72, 9, 10, 11,
          12, 13, 14, 15, 16].getD 1 0 = 1 ∧
      [24, 1, 2, 3, 1, 2, 3, 4, 5, 6, 7, 8, 0, 0, 0, 1, 0, 0, 0, 1, 0, 0, 0, 72, 9, 10, 11,
          12, 13, 14, 15, 16].getD 0 0 = 24) ∧
    ∃ written r,
      decode_raster (convert_and_write_pixel ⟨1, 24, 6, 3, 4⟩ true) [0, 0x80]
        (ntohl ([24, 1, 2, 3, 1, 2, 3, 4, 5, 6, 7, 8, 0, 0, 0, 1, 0, 0, 0, 1, 0, 0, 0, 72, 9, 10, 11,
          12, 13, 14, 15, 16].drop 12))
        (ntohl ([24, 1, 2, 3, 1, 2, 3, 4, 5, 6, 7, 8, 0, 0, 0, 1, 0, 0, 0, 1, 0, 0, 0, 72, 9, 10, 11,
          12, 13, 14, 15, 16].drop 16))
        ([24, 1, 2, 3, 1, 2, 3, 4, 5, 6, 7, 8, 0, 0, 0, 1, 0, 0, 0, 1, 0, 0, 0, 72, 9, 10, 11,
          12, 13, 14, 15, 16].getD 0 0)
        (8 % 256) (0 % 256) (fun _ => 0) = some r ∧
      main_pages ⟨1, 24, 6, 3, 4⟩ (convert_and_write_pixel ⟨1, 24, 6, 3, 4⟩ true) 0 8 (fun _ => 0) (0 + 1)
          ([24, 1, 2, 3, 1, 2, 3, 4, 5, 6, 7, 8, 0, 0, 0, 1, 0, 0, 0, 1, 0, 0, 0, 72, 9, 10, 11,
          12, 13, 14, 15, 16] ++ [0, 0x80]) [] [] =
        (if r.status ≠ 0 then some ⟨1, r.fd, [] ++ written ++ r.out⟩
        else main_pages ⟨1, 24, 6, 3, 4⟩ (convert_and_write_pixel ⟨1, 24, 6, 3, 4⟩ true) 0 8 (fun _ => 0) 0 r.fd
          [24, 1, 2, 3, 1, 2, 3, 4, 5, 6, 7, 8, 0, 0, 0, 1, 0, 0, 0, 1, 0, 0, 0, 72, 9, 10, 11,
          12, 13, 14, 15, 16]
          ([] ++ written ++ r.out)) ∧
      written.length = 32 ∧
      written.getD 0 0 = 8 % 256 ∧ written.getD 1 0 = 0 % 256 ∧
      (8 < 256 → written.getD 0 0 = 8) ∧
      (0 < 256 → written.getD 1 0 = 0) ∧
      (∀ i, 2 ≤ i → written.getD i 0
        = [24, 1, 2, 3, 1, 2, 3, 4, 5, 6, 7, 8, 0, 0, 0, 1, 0, 0, 0, 1, 0, 0, 0, 72, 9, 10, 11,
          12, 13, 14, 15, 16].getD i 0) :=
  ⟨⟨rfl, rfl, rfl⟩,
    recoded_page_header ⟨1, 24, 6, 3, 4⟩ (convert_and_write_pixel ⟨1, 24, 6, 3, 4⟩ true) 0 8 (fun _ => 0) 0
      [24, 1, 2, 3, 1, 2, 3, 4, 5, 6, 7, 8, 0, 0, 0, 1, 0, 0, 0, 1, 0, 0, 0, 72, 9, 10, 11,
          12, 13, 14, 15, 16] [0, 0x80] [] [] rfl rfl rfl⟩

/-! ### What the recoder writes -/

end urftourf

/-! ## The two decoders -/

/-- C24. The two decoders agree: for every stream, width, height and bpp, `decode_raster` of
urftopdf and of urftourf both return, with the same return value, the same unread input (so
the same number of bytes consumed), the same sequence of assembled rows with their repeat
bytes, the same line buffer and the same final row counter, whatever the pixel recoder and
the destination parameters of urftourf are. -/
theorem decoders_agree (cw : Nat → Nat → Nat → List Nat → List Nat) (fd : List Nat)
    (width height bpp dest_bpp dest_cspace : Nat) (pdf : urftopdf.pdf_info) (uninit : Mem) :
    ∃ r1 r2, urftopdf.decode_raster fd width height bpp pdf uninit = some r1 ∧
      urftourf.decode_raster cw fd width height bpp dest_bpp dest_cspace uninit = some r2 ∧
      r1.status = r2.status ∧ r1.fd = r2.fd ∧
      fd.length - r1.fd.length = fd.length - r2.fd.length ∧
      r1.lines = r2.lines ∧ r1.line = r2.line ∧ r1.cur_line = r2.cur_line := by
  obtain ⟨r1, hr1⟩ := urftopdf.decode_raster_total fd width height bpp pdf uninit
  obtain ⟨r2, hr2⟩ := urftourf.recode_raster_total cw fd width height bpp dest_bpp dest_cspace
    uninit
  have ha := urftourf.decode_raster_agrees cw fd width height bpp dest_bpp dest_cspace pdf
    uninit
  rw [hr1, hr2] at ha
  simp only [Option.map_some', Option.some.injEq, Prod.mk.injEq] at ha
  obtain ⟨h1, h2, h3, h4, h5⟩ := ha
  exact ⟨r1, r2, hr1, hr2, h1.symm, h2.symm, by rw [h2], h5.symm, h4.symm, h3.symm⟩

/-! ## Rows are complete

Two runs of the decoder on the same stream with different contents of the line buffer take
the same steps, and their line buffers agree on every byte of the row positions already
passed. -/

theorem put_pixel_agree (pixel_size pos : Nat) (px : List Nat) (l1 l2 : Mem)
    (h : ∀ a, a < pixel_size * pos → l1 a = l2 a) :
    ∀ a, a < pixel_size * (pos + 1) →
      put_pixel pixel_size pos px pixel_size l1 a = put_pixel pixel_size pos px pixel_size l2 a
    := by
  intro a ha
  rw [put_pixel_apply, put_pixel_apply]
  split
  · rfl
  · rename_i hn
    apply h
    rw [Nat.mul_add, Nat.mul_one] at ha
    omega

theorem repeat_loop_agree (pixel_size width : Nat) (px : List Nat) (k : Nat) :
    ∀ (l1 l2 : Mem) (pos : Nat), (∀ a, a < pixel_size * pos → l1 a = l2 a) →
      (repeat_loop pixel_size width px k l1 pos).2 = (repeat_loop pixel_size width px k l2 pos).2 ∧
      ∀ a, a < pixel_size * (repeat_loop pixel_size width px k l1 pos).2 →
        (repeat_loop pixel_size width px k l1 pos).1 a
          = (repeat_loop pixel_size width px k l2 pos).1 a := by
  induction k with
  | zero => intro l1 l2 pos h; exact ⟨rfl, h⟩
  | succ k ih =>
    intro l1 l2 pos h
    have hp := put_pixel_agree pixel_size pos px l1 l2 h
    simp only [repeat_loop]
    split
    · exact ⟨rfl, hp⟩
    · exact ih _ _ _ hp

theorem literal_loop_agree (pixel_size width : Nat) (k : Nat) :
    ∀ (fd : List Nat) (l1 l2 : Mem) (pos : Nat), (∀ a, a < pixel_size * pos → l1 a = l2 a) →
      (literal_loop pixel_size width k fd l1 pos = .eof ∧
        literal_loop pixel_size width k fd l2 pos = .eof) ∨
      ∃ fd2 m1 m2 p, literal_loop pixel_size width k fd l1 pos = .ok (fd2, m1, p) ∧
        literal_loop pixel_size width k fd l2 pos = .ok (fd2, m2, p) ∧
        ∀ a, a < pixel_size * p → m1 a = m2 a := by
  induction k with
  | zero => intro fd l1 l2 pos h; exact Or.inr ⟨fd, l1, l2, pos, rfl, rfl, h⟩
  | succ k ih =>
    intro fd l1 l2 pos h
    have hp := put_pixel_agree pixel_size pos (fd.take pixel_size) l1 l2 h
    simp only [literal_loop]
    split
    · exact Or.inl ⟨rfl, rfl⟩
    · split
      · exact Or.inr ⟨_, _, _, _, rfl, rfl, hp⟩
      · exact ih _ _ _ _ hp

theorem decode_run_agree (pixel_size width : Nat) (fd : List Nat) (l1 l2 : Mem) (pos : Nat)
    (h : ∀ a, a < pixel_size * pos → l1 a = l2 a) :
    (decode_run pixel_size width fd l1 pos = .eof ∧
      decode_run pixel_size width fd l2 pos = .eof) ∨
    ∃ s1 s2, decode_run pixel_size width fd l1 pos = .ok s1 ∧
      decode_run pixel_size width fd l2 pos = .ok s2 ∧
      s1.fd = s2.fd ∧ s1.pos = s2.pos ∧ s1.brk = s2.brk ∧
      ∀ a, a < pixel_size * s1.pos → s1.line a = s2.line a := by
  cases fd with
  | nil => exact Or.inl ⟨rfl, rfl⟩
  | cons b fd1 =>
    by_cases hfill : int8 b = -128
    · right
      refine ⟨_, _, decode_run_fill _ _ _ _ _ _ hfill, decode_run_fill _ _ _ _ _ _ hfill,
        rfl, rfl, rfl, ?_⟩
      intro a ha
      have ha2 : a < pixel_size * width := ha
      simp only [memset]
      split
      · rfl
      · rename_i hn
        apply h
        by_contra hc
        apply hn
        have hpw : pos < width := by
          by_contra hpw
          have : pixel_size * width ≤ pixel_size * pos := Nat.mul_le_mul_left _ (by omega)
          omega
        have e : pixel_size * pos + pixel_size * (width - pos) = pixel_size * width := by
          rw [← Nat.mul_add]; congr 1; omega
        rw [Nat.mul_comm pos pixel_size]
        omega
    · by_cases hrep : 0 ≤ int8 b
      · by_cases hshort : fd1.length < pixel_size
        · exact Or.inl ⟨decode_run_repeat_short _ _ _ _ _ _ hrep hshort,
            decode_run_repeat_short _ _ _ _ _ _ hrep hshort⟩
        · have hP : (fd1.take pixel_size).length = pixel_size := by
            rw [List.length_take]; omega
          obtain ⟨e1, e2⟩ := repeat_loop_agree pixel_size width (fd1.take pixel_size)
            (int8 b + 1).toNat l1 l2 pos h
          have d1 := decode_run_repeat pixel_size width b (fd1.take pixel_size)
            (fd1.drop pixel_size) l1 pos hrep hP
          have d2 := decode_run_repeat pixel_size width b (fd1.take pixel_size)
            (fd1.drop pixel_size) l2 pos hrep hP
          rw [List.take_append_drop] at d1 d2
          right
          refine ⟨_, _, d1, d2, rfl, e1, ?_, e2⟩
          simp only [e1]
      · have hlt : int8 b < 0 := by omega
        have hgt : -128 < int8 b := by have := (int8_range b).1; omega
        rw [decode_run_literal _ _ _ _ _ _ hlt hgt, decode_run_literal _ _ _ _ _ _ hlt hgt]
        rcases literal_loop_agree pixel_size width (-int8 b + 1).toNat fd1 l1 l2 pos h with
          ⟨e1, e2⟩ | ⟨fd2, m1, m2, p, e1, e2, e3⟩
        · left
          rw [e1, e2]
          exact ⟨rfl, rfl⟩
        · right
          rw [e1, e2]
          exact ⟨_, _, rfl, rfl, rfl, rfl, rfl, e3⟩

theorem run_loop_agree (pixel_size width : Nat) (fuel : Nat) :
    ∀ (fd : List Nat) (l1 l2 : Mem) (pos : Nat), (∀ a, a < pixel_size * pos → l1 a = l2 a) →
      ∀ rest m1 p, run_loop pixel_size width fuel fd l1 pos = some (.ok (rest, m1, p)) →
        ∃ m2, run_loop pixel_size width fuel fd l2 pos = some (.ok (rest, m2, p)) ∧
          ∀ a, a < pixel_size * p → m1 a = m2 a := by
  induction fuel with
  | zero => intro fd l1 l2 pos _ rest m1 p h; simp [run_loop] at h
  | succ fuel ih =>
    intro fd l1 l2 pos h rest m1 p hr
    rcases decode_run_agree pixel_size width fd l1 l2 pos h with
      ⟨e1, _⟩ | ⟨s1, s2, e1, e2, f1, f2, f3, f4⟩
    · simp [run_loop, e1] at hr
    · obtain ⟨fd1, m1a, p1, b1⟩ := s1
      obtain ⟨fd2, m2a, p2, b2⟩ := s2
      simp only at f1 f2 f3 f4
      subst f1 f2 f3
      simp only [run_loop, e1] at hr
      simp only [run_loop, e2]
      by_cases hb : b1 = true
      · rw [if_pos hb] at hr ⊢
        simp only [Option.some.injEq, Outcome.ok.injEq, Prod.mk.injEq] at hr
        obtain ⟨h1, h2, h3⟩ := hr
        subst h1 h2 h3
        exact ⟨m2a, rfl, f4⟩
      · rw [if_neg hb] at hr ⊢
        by_cases hp : p1 < width
        · rw [if_pos hp] at hr ⊢
          exact ih _ _ _ _ f4 _ _ _ hr
        · rw [if_neg hp] at hr ⊢
          simp only [Option.some.injEq, Outcome.ok.injEq, Prod.mk.injEq] at hr
          obtain ⟨h1, h2, h3⟩ := hr
          subst h1 h2 h3
          exact ⟨m2a, rfl, f4⟩

theorem literal_loop_pos (pixel_size width : Nat) (k : Nat) :
    ∀ (fd : List Nat) (line : Mem) (pos : Nat) (fd2 : List Nat) (l : Mem) (p : Nat),
      pos < width → literal_loop pixel_size width k fd line pos = .ok (fd2, l, p) →
      p = pos + min k (width - pos) := by
  induction k with
  | zero =>
    intro fd line pos fd2 l p _ h
    simp only [literal_loop, Outcome.ok.injEq, Prod.mk.injEq] at h
    omega
  | succ k ih =>
    intro fd line pos fd2 l p hp h
    simp only [literal_loop] at h
    split at h
    · cases h
    · split at h
      · simp only [Outcome.ok.injEq, Prod.mk.injEq] at h
        omega
      · have := ih _ _ _ _ _ _ (by omega) h
        omega

theorem decode_run_pos (pixel_size width : Nat) (fd : List Nat) (line : Mem) (pos : Nat)
    (s : run_state) (hp : pos < width) (h : decode_run pixel_size width fd line pos = .ok s) :
    pos < s.pos ∧ s.pos ≤ width ∧ (s.brk = true ↔ s.pos = width) := by
  cases fd with
  | nil => cases h
  | cons b fd1 =>
    by_cases hfill : int8 b = -128
    · rw [decode_run_fill _ _ _ _ _ _ hfill] at h
      cases h
      exact ⟨hp, Nat.le_refl _, by simp⟩
    · by_cases hrep : 0 ≤ int8 b
      · by_cases hshort : fd1.length < pixel_size
        · rw [decode_run_repeat_short _ _ _ _ _ _ hrep hshort] at h
          cases h
        · have hP : (fd1.take pixel_size).length = pixel_size := by
            rw [List.length_take]; omega
          have d1 := decode_run_repeat pixel_size width b (fd1.take pixel_size)
            (fd1.drop pixel_size) line pos hrep hP
          rw [List.take_append_drop] at d1
          rw [d1] at h
          cases h
          have e := (repeat_loop_spec pixel_size width (fd1.take pixel_size)
            (int8 b + 1).toNat line pos hp).1
          have hn : 1 ≤ (int8 b + 1).toNat := by omega
          simp only [e, decide_eq_true_eq]
          omega
      · have hlt : int8 b < 0 := by omega
        have hgt : -128 < int8 b := by have := (int8_range b).1; omega
        rw [decode_run_literal _ _ _ _ _ _ hlt hgt] at h
        cases hl : literal_loop pixel_size width (-int8 b + 1).toNat fd1 line pos with
        | eof => rw [hl] at h; cases h
        | ok r =>
          obtain ⟨fd2, l, p⟩ := r
          rw [hl] at h
          cases h
          have e := literal_loop_pos pixel_size width _ _ _ _ _ _ _ hp hl
          have hn : 1 ≤ (-int8 b + 1).toNat := by omega
          simp only [e, decide_eq_true_eq]
          omega

theorem run_loop_pos (pixel_size width : Nat) (fuel : Nat) :
    ∀ (fd : List Nat) (line : Mem) (pos : Nat) (rest : List Nat) (l : Mem) (p : Nat),
      pos < width → run_loop pixel_size width fuel fd line pos = some (.ok (rest, l, p)) →
      p = width := by
  induction fuel with
  | zero => intro fd line pos rest l p _ h; simp [run_loop] at h
  | succ fuel ih =>
    intro fd line pos rest l p hp h
    cases hd : decode_run pixel_size width fd line pos with
    | eof => simp [run_loop, hd] at h
    | ok s =>
      obtain ⟨h1, h2, h3⟩ := decode_run_pos pixel_size width fd line pos s hp hd
      by_cases hb : s.brk = true
      · rw [run_loop_of_brk _ _ _ _ _ _ s hd hb] at h
        simp only [Option.some.injEq, Outcome.ok.injEq, Prod.mk.injEq] at h
        rw [← h.2.2]
        exact h3.1 hb
      · have hlt : s.pos < width := by
          have : s.pos ≠ width := fun e => hb (h3.2 e)
          omega
        rw [run_loop_of_lt _ _ _ _ _ _ s hd (by simpa using hb) hlt] at h
        exact ih _ _ _ _ _ _ hlt h

theorem dump_agree (l1 l2 : Mem) (n : Nat) (h : ∀ a, a < n → l1 a = l2 a) :
    dump l1 n = dump l2 n := by
  unfold dump
  apply List.map_congr_left
  intro a ha
  exact h a (List.mem_range.1 ha)

/-- A finished line does not depend on what the line buffer held before it. -/
theorem run_loop_row (pixel_size width : Nat) (hw : 1 ≤ width) (fuel : Nat) (fd : List Nat)
    (l1 l2 : Mem) (rest : List Nat) (m1 : Mem) (p : Nat)
    (h : run_loop pixel_size width fuel fd l1 0 = some (.ok (rest, m1, p))) :
    p = width ∧ ∃ m2, run_loop pixel_size width fuel fd l2 0 = some (.ok (rest, m2, width)) ∧
      (∀ a, a < pixel_size * width → m1 a = m2 a) ∧
      dump m2 (pixel_size * width) = dump m1 (pixel_size * width) := by
  have hp := run_loop_pos pixel_size width fuel fd l1 0 rest m1 p (by omega) h
  subst hp
  obtain ⟨m2, e, ha⟩ := run_loop_agree pixel_size p fuel fd l1 l2 0
    (fun a ha => absurd ha (by simp)) rest m1 p h
  exact ⟨rfl, m2, e, ha, (dump_agree _ _ _ ha).symm⟩

theorem run_loop_row_eof (pixel_size width : Nat) (hw : 1 ≤ width) (fd : List Nat)
    (l1 l2 : Mem) (h : run_loop pixel_size width (fd.length + 1) fd l1 0 = some .eof) :
    run_loop pixel_size width (fd.length + 1) fd l2 0 = some .eof := by
  obtain ⟨o, ho⟩ := run_loop_total pixel_size width (fd.length + 1) fd l2 0 (by omega)
  cases o with
  | eof => exact ho
  | ok r =>
    obtain ⟨rest, m, p⟩ := r
    obtain ⟨_, m2, e, _⟩ := run_loop_row pixel_size width hw _ fd l2 l1 rest m p ho
    rw [h] at e
    cases e

namespace urftopdf

theorem pdf_set_line_agree (info : pdf_info) (line_n : Nat) (l1 l2 : Mem)
    (h : ∀ a, a < info.line_bytes → l1 a = l2 a) :
    pdf_set_line info line_n l1 = pdf_set_line info line_n l2 := by
  unfold pdf_set_line
  split
  · rfl
  · have e : memcpy info.page_data ((line_n * info.line_bytes) % 2 ^ 32) l1 info.line_bytes
        = memcpy info.page_data ((line_n * info.line_bytes) % 2 ^ 32) l2 info.line_bytes := by
      funext a
      simp only [memcpy]
      split
      · apply h; omega
      · rfl
    rw [e]

theorem write_lines_agree (l1 l2 : Mem) (k : Nat) :
    ∀ (cur_line : Nat) (pdf : pdf_info), (∀ a, a < pdf.line_bytes → l1 a = l2 a) →
      write_lines l1 k cur_line pdf = write_lines l2 k cur_line pdf := by
  induction k with
  | zero => intro cur_line pdf _; rfl
  | succ k ih =>
    intro cur_line pdf h
    simp only [write_lines]
    rw [pdf_set_line_agree pdf cur_line l1 l2 h]
    apply ih
    rw [pdf_set_line_line_bytes]
    exact h

/-- The outer loop does not depend on the content of the line buffer it starts with. -/
theorem line_loop_indep (pixel_size width height : Nat) (hw : 1 ≤ width) (fuel : Nat) :
    ∀ (fd : List Nat) (l1 l2 : Mem) (cur_line : Nat) (pdf1 pdf2 : pdf_info)
      (lines : List (Nat × List Nat)) (r1 : raster_result),
      line_loop pixel_size width height fuel fd l1 cur_line pdf1 lines = some r1 →
      ∃ r2, line_loop pixel_size width height fuel fd l2 cur_line pdf2 lines = some r2 ∧
        r2.status = r1.status ∧ r2.fd = r1.fd ∧ r2.cur_line = r1.cur_line ∧
        r2.lines = r1.lines ∧
        (pdf1 = pdf2 → pdf1.line_bytes ≤ pixel_size * width → r2.pdf = r1.pdf) := by
  induction fuel with
  | zero => intro fd l1 l2 cur_line pdf1 pdf2 lines r1 h; simp [line_loop] at h
  | succ fuel ih =>
    intro fd l1 l2 cur_line pdf1 pdf2 lines r1 h
    cases fd with
    | nil =>
      rw [line_loop_nil] at h ⊢
      cases h
      exact ⟨_, rfl, rfl, rfl, rfl, rfl, fun e _ => e.symm⟩
    | cons b fd1 =>
      obtain ⟨o, ho⟩ := run_loop_total pixel_size width (fd1.length + 1) fd1 l1 0 (by omega)
      cases o with
      | eof =>
        rw [line_loop_eof _ _ _ _ _ _ _ _ _ _ ho] at h
        rw [line_loop_eof _ _ _ _ _ _ _ _ _ _
          (run_loop_row_eof pixel_size width hw fd1 l1 l2 ho)]
        cases h
        exact ⟨_, rfl, rfl, rfl, rfl, rfl, fun e _ => e.symm⟩
      | ok q =>
        obtain ⟨fd2, m1, p⟩ := q
        obtain ⟨_, m2, e2, ha, hd⟩ := run_loop_row pixel_size width hw _ fd1 l1 l2 fd2 m1 p ho
        rw [line_loop_ok _ _ _ _ _ _ _ _ _ _ _ _ _ ho] at h
        rw [line_loop_ok _ _ _ _ _ _ _ _ _ _ _ _ _ e2, hd]
        have hpdf : pdf1 = pdf2 → pdf1.line_bytes ≤ pixel_size * width →
            (write_lines m2 (b % 256 + 1) cur_line pdf2).1
              = (write_lines m1 (b % 256 + 1) cur_line pdf1).1 := by
          intro e hl
          subst e
          rw [write_lines_agree m1 m2 _ _ _ (fun a ha1 => ha a (by omega))]
        by_cases hc : cur_line + (b % 256 + 1) < height
        · rw [if_pos hc] at h ⊢
          obtain ⟨r2, g1, g2, g3, g4, g5, g6⟩ := ih _ m1 m2 _ _
            (write_lines m2 (b % 256 + 1) cur_line pdf2).1 _ _ h
          refine ⟨r2, g1, g2, g3, g4, g5, ?_⟩
          intro e hl
          apply g6 (hpdf e hl).symm
          rw [(write_lines_fields _ _ _ _).2]
          exact hl
        · rw [if_neg hc] at h ⊢
          cases h
          exact ⟨_, rfl, rfl, rfl, rfl, rfl, hpdf⟩

end urftopdf

/-- C22. Row completeness: for a row of at least one pixel, a run started at `pos < width`
ends at a position `s.pos` with `pos < s.pos ≤ width`, leaves the loop body by `break` exactly
when `s.pos = width`, and the run loop goes on only while `s.pos < width`; a finished line ends
at `pos = width` exactly, and its row, the bytes consumed and the final position are the same
whatever the line buffer held before the line (the previous line or the content left by
`malloc`); so the status, the bytes consumed, the row counter and the rows of `decode_raster`
do not depend on the uninitialised buffer, and neither does the page when a page line is not
longer than a row. -/
theorem row_complete (pixel_size width : Nat) (hw : 1 ≤ width) :
    (∀ (fd : List Nat) (line : Mem) (pos : Nat) (s : run_state), pos < width →
      decode_run pixel_size width fd line pos = .ok s →
      pos < s.pos ∧ s.pos ≤ width ∧ (s.brk = true ↔ s.pos = width) ∧
      ∀ fuel, run_loop pixel_size width (fuel + 1) fd line pos =
        if s.pos < width then run_loop pixel_size width fuel s.fd s.line s.pos
        else some (.ok (s.fd, s.line, width))) ∧
    (∀ (fuel : Nat) (fd : List Nat) (line : Mem) (rest : List Nat) (l : Mem) (p : Nat),
      run_loop pixel_size width fuel fd line 0 = some (.ok (rest, l, p)) →
      p = width ∧ ∀ line2, ∃ l2,
        run_loop pixel_size width fuel fd line2 0 = some (.ok (rest, l2, width)) ∧
        dump l2 (pixel_size * width) = dump l (pixel_size * width)) ∧
    (∀ (fd : List Nat) (height bpp : Nat) (pdf : urftopdf.pdf_info) (u1 u2 : Mem),
      bpp / 8 = pixel_size →
      ∃ r1 r2, urftopdf.decode_raster fd width height bpp pdf u1 = some r1 ∧
        urftopdf.decode_raster fd width height bpp pdf u2 = some r2 ∧
        r2.status = r1.status ∧ r2.fd = r1.fd ∧ r2.cur_line = r1.cur_line ∧
        r2.lines = r1.lines ∧ (pdf.line_bytes ≤ pixel_size * width → r2.pdf = r1.pdf)) := by
  refine ⟨?_, ?_, ?_⟩
  · intro fd line pos s hp hd
    obtain ⟨h1, h2, h3⟩ := decode_run_pos pixel_size width fd line pos s hp hd
    refine ⟨h1, h2, h3, ?_⟩
    intro fuel
    by_cases hb : s.brk = true
    · rw [run_loop_of_brk _ _ _ _ _ _ s hd hb, if_neg (by have := h3.1 hb; omega), h3.1 hb]
    · have hlt : s.pos < width := by
        have : s.pos ≠ width := fun e => hb (h3.2 e)
        omega
      rw [run_loop_of_lt _ _ _ _ _ _ s hd (by simpa using hb) hlt, if_pos hlt]
  · intro fuel fd line rest l p h
    refine ⟨(run_loop_row pixel_size width hw fuel fd line line rest l p h).1, ?_⟩
    intro line2
    obtain ⟨_, m2, e, _, hd⟩ := run_loop_row pixel_size width hw fuel fd line line2 rest l p h
    exact ⟨m2, e, hd⟩
  · intro fd height bpp pdf u1 u2 hbpp
    obtain ⟨r1, e1⟩ := urftopdf.decode_raster_total fd width height bpp pdf u1
    have e1a := e1
    unfold urftopdf.decode_raster at e1a
    rw [hbpp] at e1a
    obtain ⟨r2, e2, g1, g2, g3, g4, g5⟩ := urftopdf.line_loop_indep pixel_size width height hw
      _ fd u1 u2 0 pdf pdf [] r1 e1a
    refine ⟨r1, r2, e1, ?_, g1, g2, g3, g4, g5 rfl⟩
    unfold urftopdf.decode_raster
    rw [hbpp]
    exact e2

theorem row_complete_witness :
    1 ≤ 2 ∧
    (∃ l2, run_loop 3 2 3 [0, 1, 2, 3, 128, 9] (fun _ => 7) 0 = some (.ok ([9], l2, 2)) ∧
      dump l2 (3 * 2) = [1, 2, 3, 255, 255, 255]) ∧
    ∃ r1 r2, urftopdf.decode_raster [0, 0, 1, 2, 3, 128, 9] 2 1 24 urftopdf.pdf_zero
        (fun _ => 0) = some r1 ∧
      urftopdf.decode_raster [0, 0, 1, 2, 3, 128, 9] 2 1 24 urftopdf.pdf_zero
        (fun _ => 7) = some r2 ∧ r2.lines = r1.lines ∧ r2.fd = r1.fd := by
  have h := row_complete 3 2 (by decide)
  refine ⟨by decide, ?_, ?_⟩
  · obtain ⟨_, h2⟩ := h.2.1 3 [0, 1, 2, 3, 128, 9] (fun _ => 0) [9]
      (memset (put_pixel 3 0 [1, 2, 3] 3 (fun _ => 0)) (1 * 3) 255 (3 * (2 - 1))) 2 rfl
    obtain ⟨l2, e, hd⟩ := h2 (fun _ => 7)
    exact ⟨l2, e, hd.trans (by decide)⟩
  · obtain ⟨r1, r2, e1, e2, _, g2, _, g4, _⟩ := h.2.2 [0, 0, 1, 2, 3, 128, 9] 1 24
      urftopdf.pdf_zero (fun _ => 0) (fun _ => 7) (by decide)
    exact ⟨r1, r2, e1, e2, g4, g2⟩

/-! ## Runs of one

Decoding the runs-of-one encoding of a row gives the row back. -/

theorem dump_length (m : Mem) (n : Nat) : (dump m n).length = n := by
  simp [dump]

theorem dump_put_pixel (pixel_size pos : Nat) (px : List Nat) (line : Mem)
    (hpx : px.length = pixel_size) :
    dump (put_pixel pixel_size pos px pixel_size line) (pixel_size * (pos + 1))
      = dump line (pixel_size * pos) ++ px := by
  unfold dump
  rw [Nat.mul_add, Nat.mul_one, List.range_add, List.map_append, List.map_map]
  congr 1
  · apply List.map_congr_left
    intro a ha
    exact put_pixel_below _ _ _ _ _ (List.mem_range.1 ha)
  · apply List.ext_getElem
    · simp [hpx]
    · intro i h1 h2
      have hi : i < pixel_size := by omega
      simp only [List.getElem_map, List.getElem_range, Function.comp_apply]
      rw [put_pixel_same _ _ _ _ _ hi, List.getD_eq_getElem _ _ h2]

theorem decode_run_one (pixel_size width : Nat) (px rest : List Nat) (line : Mem) (pos : Nat)
    (hpx : px.length = pixel_size) :
    decode_run pixel_size width (0 :: (px ++ rest)) line pos =
      .ok ⟨rest, put_pixel pixel_size pos px pixel_size line, pos + 1,
        decide (pos + 1 ≥ width)⟩ := by
  rw [decode_run_repeat pixel_size width 0 px rest line pos (by decide) hpx]
  have hn : (int8 0 + 1).toNat = 1 := by decide
  have hr : repeat_loop pixel_size width px 1 line pos
      = (put_pixel pixel_size pos px pixel_size line, pos + 1) := by
    simp only [repeat_loop]
    split <;> rfl
  rw [hn, hr]

theorem runs_of_one_decode (pixel_size width : Nat) (rest : List Nat) :
    ∀ (P : List (List Nat)) (line : Mem) (pos : Nat), P ≠ [] → pos + P.length = width →
      (∀ px ∈ P, px.length = pixel_size) →
      ∃ l, run_loop pixel_size width P.length (encode_runs_of_one P ++ rest) line pos
          = some (.ok (rest, l, width)) ∧
        dump l (pixel_size * width) = dump line (pixel_size * pos) ++ P.flatten := by
  intro P
  induction P with
  | nil => intro line pos h; exact absurd rfl h
  | cons px P2 ih =>
    intro line pos _ hlen hall
    have hpx : px.length = pixel_size := hall px (List.mem_cons_self _ _)
    have henc : encode_runs_of_one (px :: P2) ++ rest
        = 0 :: (px ++ (encode_runs_of_one P2 ++ rest)) := by
      simp [encode_runs_of_one]
    have hd := decode_run_one pixel_size width px (encode_runs_of_one P2 ++ rest) line pos hpx
    rw [henc]
    cases P2 with
    | nil =>
      have hw : pos + 1 = width := by simpa using hlen
      have hb : decide (pos + 1 ≥ width) = true := by simp [hw]
      have e := run_loop_of_brk pixel_size width 0 _ line pos _ hd hb
      refine ⟨put_pixel pixel_size pos px pixel_size line, ?_, ?_⟩
      · rw [show [px].length = 0 + 1 from rfl, e, hw]
        rfl
      · rw [← hw, dump_put_pixel _ _ _ _ hpx]
        simp
    | cons px2 P3 =>
      have hw : pos + 1 < width := by
        simp only [List.length_cons] at hlen
        omega
      have hb : decide (pos + 1 ≥ width) = false := by simp [hw]
      have e := run_loop_of_lt pixel_size width (px2 :: P3).length _ line pos _ hd hb hw
      obtain ⟨l, e1, e2⟩ := ih (put_pixel pixel_size pos px pixel_size line) (pos + 1)
        (by simp) (by simp only [List.length_cons] at hlen ⊢; omega)
        (fun q hq => hall q (List.mem_cons_of_mem _ hq))
      refine ⟨l, ?_, ?_⟩
      · rw [show (px :: px2 :: P3).length = (px2 :: P3).length + 1 from rfl, e]
        exact e1
      · rw [e2, dump_put_pixel _ _ _ _ hpx]
        simp

theorem pixels_of_length (pixel_size width : Nat) (row : List Nat) :
    (pixels_of pixel_size width row).length = width := by
  simp [pixels_of]

theorem pixels_of_pixel (pixel_size width : Nat) (row : List Nat)
    (h : pixel_size * width ≤ row.length) :
    ∀ px ∈ pixels_of pixel_size width row, px.length = pixel_size := by
  intro px hpx
  simp only [pixels_of, List.mem_map, List.mem_range] at hpx
  obtain ⟨i, hi, rfl⟩ := hpx
  have : pixel_size * (i + 1) ≤ pixel_size * width := Nat.mul_le_mul_left _ hi
  rw [Nat.mul_add, Nat.mul_one] at this
  rw [List.length_take, List.length_drop]
  omega

theorem pixels_of_flatten (pixel_size : Nat) (row : List Nat) :
    ∀ width, (pixels_of pixel_size width row).flatten = row.take (pixel_size * width) := by
  intro width
  induction width with
  | zero => simp [pixels_of]
  | succ w ih =>
    have e : pixels_of pixel_size (w + 1) row
        = pixels_of pixel_size w row ++ [(row.drop (pixel_size * w)).take pixel_size] := by
      simp [pixels_of, List.range_succ]
    rw [e, List.flatten_append, ih, Nat.mul_add, Nat.mul_one, List.take_add]
    simp

namespace urftopdf

theorem line_loop_row_length (pixel_size width height : Nat) (fuel : Nat) :
    ∀ (fd : List Nat) (line : Mem) (cur_line : Nat) (pdf : pdf_info)
      (lines : List (Nat × List Nat)) r,
      line_loop pixel_size width height fuel fd line cur_line pdf lines = some r →
      (∀ row ∈ lines, row.2.length = pixel_size * width) →
      ∀ row ∈ r.lines, row.2.length = pixel_size * width := by
  induction fuel with
  | zero => intro fd line cur_line pdf lines r h; simp [line_loop] at h
  | succ fuel ih =>
    intro fd line cur_line pdf lines r h hl
    cases fd with
    | nil =>
      rw [line_loop_nil] at h
      cases h
      exact hl
    | cons b fd1 =>
      obtain ⟨o, ho⟩ := run_loop_total pixel_size width (fd1.length + 1) fd1 line 0 (by omega)
      cases o with
      | eof =>
        rw [line_loop_eof _ _ _ _ _ _ _ _ _ _ ho] at h
        cases h
        exact hl
      | ok q =>
        obtain ⟨fd2, line1, p⟩ := q
        rw [line_loop_ok _ _ _ _ _ _ _ _ _ _ _ _ _ ho] at h
        have hl1 : ∀ row ∈ lines ++ [(b, dump line1 (pixel_size * width))],
            row.2.length = pixel_size * width := by
          intro row hrow
          rcases List.mem_append.1 hrow with h1 | h1
          · exact hl row h1
          · rw [List.mem_singleton.1 h1]
            exact dump_length _ _
        by_cases hc : cur_line + (b % 256 + 1) < height
        · rw [if_pos hc] at h
          exact ih _ _ _ _ _ _ h hl1
        · rw [if_neg hc] at h
          cases h
          exact hl1

/-- The decoder on the runs-of-one encoding of a row of `width ≥ 1` pixels. -/
theorem decode_row_of_ones (pixel_size width bpp : Nat) (hw : 1 ≤ width)
    (hbpp : bpp / 8 = pixel_size) (P : List (List Nat)) (hP : P.length = width)
    (hpx : ∀ px ∈ P, px.length = pixel_size) (rest : List Nat) (pdf : pdf_info)
    (uninit : Mem) :
    ∃ r, decode_raster (encode_row_of_ones P ++ rest) width 1 bpp pdf uninit = some r ∧
      r.status = 0 ∧ r.fd = rest ∧ r.cur_line = 1 ∧ r.lines = [(0, P.flatten)] := by
  have hne : P ≠ [] := by
    intro e
    rw [e] at hP
    simp at hP
    omega
  obtain ⟨l, e1, e2⟩ := runs_of_one_decode pixel_size width rest P uninit 0 hne (by omega) hpx
  have e3 := run_loop_fuel _ _ _ _ _ _ _ e1
  have e4 := line_loop_ok pixel_size width 1 ((encode_runs_of_one P ++ rest).length) 0
    (encode_runs_of_one P ++ rest) uninit 0 pdf [] rest l width e3
  have hd : decode_raster (encode_row_of_ones P ++ rest) width 1 bpp pdf uninit
      = line_loop pixel_size width 1 ((encode_runs_of_one P ++ rest).length + 1)
          (0 :: (encode_runs_of_one P ++ rest)) uninit 0 pdf [] := by
    unfold decode_raster
    rw [hbpp]
    rfl
  rw [hd, e4, if_neg (by omega)]
  refine ⟨_, rfl, rfl, rfl, ?_⟩
  simp only [List.nil_append, e2]
  simp [dump]

end urftopdf

/-- C21. Round trip through the runs-of-one encoder, for rows of `width ≥ 1` pixels of
`bpp / 8` bytes: the encoding of a pixel row `P` (repeat byte 0x00, then for each pixel the
run code 0x00 and its bytes) decodes, as a raster of one line, to exactly the row `P`, with
status 0 and the bytes after the encoding left unread; and every row `row` that
`decode_raster` assembles from any input is a row of `width` pixels, so that splitting it into
its pixels, encoding them and decoding the result produces `row` again. -/
theorem round_trip (pixel_size width bpp : Nat) (hw : 1 ≤ width) (hbpp : bpp / 8 = pixel_size) :
    (∀ (P : List (List Nat)) (rest : List Nat) (pdf : urftopdf.pdf_info) (uninit : Mem),
      P.length = width → (∀ px ∈ P, px.length = pixel_size) →
      ∃ r, urftopdf.decode_raster (encode_row_of_ones P ++ rest) width 1 bpp pdf uninit
          = some r ∧
        r.status = 0 ∧ r.fd = rest ∧ r.cur_line = 1 ∧ r.lines = [(0, P.flatten)]) ∧
    (∀ (fd : List Nat) (height : Nat) (pdf : urftopdf.pdf_info) (uninit : Mem)
      (r : urftopdf.raster_result),
      urftopdf.decode_raster fd width height bpp pdf uninit = some r →
      ∀ row ∈ r.lines,
        (pixels_of pixel_size width row.2).length = width ∧
        (pixels_of pixel_size width row.2).flatten = row.2 ∧
        ∀ (pdf2 : urftopdf.pdf_info) (uninit2 : Mem),
          ∃ r2, urftopdf.decode_raster (encode_row_of_ones (pixels_of pixel_size width row.2))
              width 1 bpp pdf2 uninit2 = some r2 ∧
            r2.status = 0 ∧ r2.fd = [] ∧ r2.cur_line = 1 ∧ r2.lines = [(0, row.2)]) := by
  refine ⟨?_, ?_⟩
  · intro P rest pdf uninit hP hpx
    exact urftopdf.decode_row_of_ones pixel_size width bpp hw hbpp P hP hpx rest pdf uninit
  · intro fd height pdf uninit r hr row hrow
    have hr1 := hr
    unfold urftopdf.decode_raster at hr1
    rw [hbpp] at hr1
    have hlen : row.2.length = pixel_size * width :=
      urftopdf.line_loop_row_length pixel_size width height _ _ _ _ _ _ _ hr1
        (fun q hq => absurd hq (List.not_mem_nil q)) row hrow
    have hflat : (pixels_of pixel_size width row.2).flatten = row.2 := by
      rw [pixels_of_flatten, List.take_of_length_le (by omega)]
    refine ⟨pixels_of_length _ _ _, hflat, ?_⟩
    intro pdf2 uninit2
    obtain ⟨r2, e, g1, g2, g3, g4⟩ := urftopdf.decode_row_of_ones pixel_size width bpp hw hbpp
      (pixels_of pixel_size width row.2) (pixels_of_length _ _ _)
      (pixels_of_pixel _ _ _ (by omega)) [] pdf2 uninit2
    rw [List.append_nil] at e
    rw [hflat] at g4
    exact ⟨r2, e, g1, g2, g3, g4⟩

theorem round_trip_witness :
    1 ≤ 2 ∧ 24 / 8 = 3 ∧
    encode_row_of_ones [[1, 2, 3], [4, 5, 6]] = [0, 0, 1, 2, 3, 0, 4, 5, 6] ∧
    (∃ r, urftopdf.decode_raster (encode_row_of_ones [[1, 2, 3], [4, 5, 6]] ++ [9]) 2 1 24
        urftopdf.pdf_zero (fun _ => 0) = some r ∧
      r.status = 0 ∧ r.fd = [9] ∧ r.lines = [(0, [1, 2, 3, 4, 5, 6])]) ∧
    ∃ r r2, urftopdf.decode_raster [0, 1, 7, 8, 9] 2 1 24 urftopdf.pdf_zero (fun _ => 0)
        = some r ∧ r.lines = [(0, [7, 8, 9, 7, 8, 9])] ∧
      pixels_of 3 2 [7, 8, 9, 7, 8, 9] = [[7, 8, 9], [7, 8, 9]] ∧
      urftopdf.decode_raster (encode_row_of_ones (pixels_of 3 2 [7, 8, 9, 7, 8, 9])) 2 1 24
        urftopdf.pdf_zero (fun _ => 0) = some r2 ∧ r2.lines = [(0, [7, 8, 9, 7, 8, 9])] := by
  have h := round_trip 3 2 24 (by decide) (by decide)
  refine ⟨by decide, by decide, by decide, ?_, ?_⟩
  · obtain ⟨r, e, g1, g2, _, g4⟩ := h.1 [[1, 2, 3], [4, 5, 6]] [9] urftopdf.pdf_zero
      (fun _ => 0) rfl (by decide)
    exact ⟨r, e, g1, g2, g4⟩
  · obtain ⟨r, hr⟩ := urftopdf.decode_raster_total [0, 1, 7, 8, 9] 2 1 24 urftopdf.pdf_zero
      (fun _ => 0)
    have hl : r.lines = [(0, [7, 8, 9, 7, 8, 9])] := by
      have e : (urftopdf.decode_raster [0, 1, 7, 8, 9] 2 1 24 urftopdf.pdf_zero
          (fun _ => 0)).map (fun r => r.lines) = some [(0, [7, 8, 9, 7, 8, 9])] := by decide
      rw [hr] at e
      simpa using e
    obtain ⟨_, _, h3⟩ := h.2 [0, 1, 7, 8, 9] 1 urftopdf.pdf_zero (fun _ => 0) r hr
      (0, [7, 8, 9, 7, 8, 9]) (by rw [hl]; simp)
    obtain ⟨r2, e2, _, _, _, g4⟩ := h3 urftopdf.pdf_zero (fun _ => 0)
    exact ⟨r, r2, hr, hl, by decide, e2, g4⟩

/-! ## Undercolour removal -/

namespace urftourf

end urftourf

end Urf
